import Mathlib

/-!
# FITExcel: a shallow embedding of the spreadsheet expression engine

The development follows `all_in_one.cpp`: positions (`CPos`), values (`CValue`), expression
nodes (`CNode` and its subclasses), the expression builder (`CMyExprBuilder`) and the sheet
(`CSpreadsheet`).

Modelling conventions.

* `size_t` is a natural number below `2 ^ 64`; every `size_t` operation is reduced modulo
  `2 ^ 64`.  `int` is an integer in `[-2 ^ 31, 2 ^ 31)`.
* `double` is an abstract carrier `F` with the operations the program uses (`DoubleOps`);
  nothing is assumed about them, so every general theorem holds for IEEE arithmetic.
* A `CRefNode` stores a C++ reference to a `std::map`; the model stores the identity of that
  map (`m_map : Nat`) and evaluation reads the map through a heap of builders.
* `std::set<CPos>` and `std::map<CPos, _>` compare keys with `CPos::operator<`, which looks at
  `(m_col, m_row)` only.  The visited set is the finite set of coordinate pairs; the map is an
  association list kept in key order.
* Exceptions and fatal errors are values of `Exn`.
-/

namespace FITExcel

/-- Modulus of `size_t` arithmetic. -/
def SIZE_MOD : Nat := 2 ^ 64

/-- Exceptions thrown by the program, plus the fatal null-pointer dereference. -/
inductive Exn
  | invalid_argument
  | out_of_range
  | bad_variant_access
  | null_deref
  deriving DecidableEq, Repr

deriving instance DecidableEq for Except

/-- Outcome of `std::stod`. -/
inductive StodResult (F : Type)
  | ok (d : F)
  | invalid_argument
  | out_of_range
  deriving DecidableEq, Repr

/-- The operations on `double` used by the program.  They are uninterpreted. -/
class DoubleOps (F : Type) where
  /-- The expression `a + b` -/
  add : F → F → F
  /-- The expression `a - b` -/
  sub : F → F → F
  /-- The expression `a * b` -/
  mul : F → F → F
  /-- The expression `a / b` -/
  div : F → F → F
  /-- The expression `std::pow(a, b)` -/
  pow : F → F → F
  /-- The expression `-a` -/
  neg : F → F
  /-- The literal `0` converted to `double`; also `double(false)`. -/
  zero : F
  /-- Value of `double(true)`. -/
  one : F
  /-- The expression `a == b` -/
  eq : F → F → Bool
  /-- The expression `a != b` -/
  ne : F → F → Bool
  /-- The expression `a < b` -/
  lt : F → F → Bool
  /-- The expression `a <= b` -/
  le : F → F → Bool
  /-- The expression `a > b` -/
  gt : F → F → Bool
  /-- The expression `a >= b` -/
  ge : F → F → Bool
  /-- The expression `std::to_string(double)` -/
  to_string : F → String
  /-- The expression `std::stod(const std::string &)` -/
  stod : String → StodResult F

/-- Conversion `double(bool)`. -/
def ofBool {F : Type} [DoubleOps F] (b : Bool) : F :=
  if b then DoubleOps.one else DoubleOps.zero

/-! ## CPos -/

/-- Class `CPos`. -/
structure CPos where
  m_col : Nat
  m_row : Nat
  m_absRow : Bool := false
  m_absCol : Bool := false
  deriving DecidableEq, Repr

/-- Constructor `CPos(size_t col, size_t row)`. -/
def CPos.mk2 (col row : Nat) : CPos :=
  { m_col := col, m_row := row }

/-- Method `CPos::getCol`. -/
def CPos.getCol (p : CPos) : Nat := p.m_col

/-- Method `CPos::getRow`. -/
def CPos.getRow (p : CPos) : Nat := p.m_row

/-- Method `CPos::operator<`: lexicographic comparison of `(m_col, m_row)`. -/
def CPos.lt (a b : CPos) : Bool :=
  decide (a.m_col < b.m_col) || (decide (a.m_col = b.m_col) && decide (a.m_row < b.m_row))

/-- Method `CPos::operator==`. -/
def CPos.eq (a b : CPos) : Bool :=
  decide (a.m_col = b.m_col) && decide (a.m_row = b.m_row)

/-- Key equivalence used by `std::map` and `std::set`: neither key is less than the other. -/
def CPos.equiv (a b : CPos) : Bool :=
  !(a.lt b) && !(b.lt a)

/-- The coordinate pair that `operator<` looks at. -/
def CPos.key (p : CPos) : Nat × Nat := (p.m_col, p.m_row)

/-- Conversion of a `size_t` value to `int` (two's complement truncation). -/
def toInt32 (n : Nat) : Int :=
  if n % 2 ^ 32 < 2 ^ 31 then ((n % 2 ^ 32 : Nat) : Int) else ((n % 2 ^ 32 : Nat) : Int) - 2 ^ 32

/-- The compound assignment `size_t += int`. -/
def addOffset (n : Nat) (d : Int) : Nat :=
  (((n : Int) + d) % (SIZE_MOD : Int)).toNat

/-- Method `CPos::updatePos`. -/
def CPos.updatePos (p : CPos) (offset : Int × Int) : CPos :=
  let p1 := if !p.m_absCol then { p with m_col := addOffset p.m_col offset.1 } else p
  if !p1.m_absRow then { p1 with m_row := addOffset p1.m_row offset.2 } else p1

/-- The column loop of `CPos::toStr`; `fuel` bounds the number of iterations. -/
def colLoop : Nat → Nat → List Char → List Char
  | 0, _, str => str
  | fuel + 1, num, str =>
    if num > 0 then
      colLoop fuel ((num - 1) / 26) (Char.ofNat (65 + (num - 1) % 26) :: str)
    else str

/-- Method `CPos::toStr`. -/
def CPos.toStr (p : CPos) : String :=
  (if p.m_absCol then "$" else "") ++ String.mk (colLoop p.m_col p.m_col [])
    ++ (if p.m_absRow then "$" else "") ++ Nat.repr p.m_row

/-- The character `str[i]` of a string view over a NUL-terminated buffer. -/
def charAt (str : List Char) (i : Nat) : Char :=
  str.getD i (Char.ofNat 0)

/-- The loop of `CPos::toNum`; returns `(num, i)`.  `fuel` bounds the number of iterations. -/
def toNumLoop (str : List Char) : Nat → Nat → Nat → Nat × Nat
  | 0, i, num => (num, i)
  | fuel + 1, i, num =>
    if i < str.length && (charAt str i).isAlpha then
      toNumLoop str fuel (i + 1)
        ((num * 26 + ((charAt str i).toUpper.toNat - 65 + 1)) % SIZE_MOD)
    else (num, i)

/-- Method `CPos::toNum(str, i)`; returns the number and the new value of `i`. -/
def CPos.toNum (str : List Char) (i : Nat) : Nat × Nat :=
  toNumLoop str (str.length - i) i 0

/-- Method `CPos::processCol(str, i)`; returns `none` for `false` and otherwise the new position
and the new value of `i`. -/
def CPos.processCol (p : CPos) (str : List Char) (i : Nat) : Option (CPos × Nat) :=
  let p1 := if charAt str i = '$' then { p with m_absCol := true } else p
  let i1 := if charAt str i = '$' then i + 1 else i
  if i1 = str.length || !(charAt str i1).isAlpha then none
  else some ({ p1 with m_col := (CPos.toNum str i1).1 }, (CPos.toNum str i1).2)

/-- Value of the longest prefix of decimal digits. -/
def digitsValue : List Char → Nat → Nat
  | [], acc => acc
  | c :: cs, acc => if c.isDigit then digitsValue cs (acc * 10 + (c.toNat - 48)) else acc

/-- Function `std::stoull` on a string that starts with a decimal digit: the value of the longest
prefix of digits, or `out_of_range` when it does not fit. -/
def stoull (numbers : List Char) : Except Exn Nat :=
  if digitsValue numbers 0 < SIZE_MOD then .ok (digitsValue numbers 0) else .error .out_of_range

/-- Method `CPos::processRow(str, i)`; `.ok none` stands for `false`.  The `out_of_range` of
`std::stoull` is not caught there. -/
def CPos.processRow (p : CPos) (str : List Char) (i : Nat) : Except Exn (Option CPos) :=
  let p1 := if charAt str i = '$' then { p with m_absRow := true } else p
  let i1 := if charAt str i = '$' then i + 1 else i
  if i1 = str.length || !(charAt str i1).isDigit then .ok none
  else
    match stoull (str.drop i1) with
    | .error e => .error e
    | .ok row => .ok (some { p1 with m_row := row })

/-- Method `CPos::setRowCol(str)`; `.ok none` stands for `false`. -/
def CPos.setRowCol (p : CPos) (str : List Char) : Except Exn (Option CPos) :=
  if str.length < 2 then .ok none
  else
    match p.processCol str 0 with
    | none => .ok none
    | some (p1, i) => p1.processRow str i

/-- Constructor `CPos(std::string_view str)`. -/
def CPos.ofString (str : String) : Except Exn CPos :=
  match CPos.setRowCol { m_col := 0, m_row := 0 } str.data with
  | .error e => .error e
  | .ok none => .error .invalid_argument
  | .ok (some p) => .ok p

/-! ## CValue and the nodes -/

/-- Type `CValue = std::variant<std::monostate, double, std::string>`. -/
inductive CValue (F : Type)
  | empty
  | num (d : F)
  | str (s : String)
  deriving DecidableEq, Repr

/-- Method `std::variant::index`. -/
def CValue.index {F : Type} : CValue F → Nat
  | .empty => 0
  | .num _ => 1
  | .str _ => 2

/-- The eleven binary operator node classes `opAddNode` ... `opGeNode`. -/
inductive BinOp
  | add | sub | mul | div | pow | eq | ne | lt | le | gt | ge
  deriving DecidableEq, Repr

/-- Class `CNode` with its subclasses.  Every constructor carries the base-class field
`m_expr`.
* `value`: `CValueNode` with `m_val`, `m_valToSave`, `m_exprStr`;
* `ref`: `CRefNode` with `m_pos` and the identity of the map `m_map` refers to;
* `binary`: `opAddNode` ... `opGeNode` with `m_left`, `m_right`;
* `neg`: `opNegNode` with `m_left`. -/
inductive CNode (F : Type)
  | value (m_expr : Bool) (m_val : CValue F) (m_valToSave : String) (m_exprStr : Bool)
  | ref (m_expr : Bool) (m_pos : CPos) (m_map : Nat)
  | binary (m_expr : Bool) (op : BinOp) (m_left m_right : CNode F)
  | neg (m_expr : Bool) (m_left : CNode F)
  deriving DecidableEq, Repr

/-- Method `CNode::isExpr`. -/
def CNode.isExpr {F : Type} : CNode F → Bool
  | .value e _ _ _ => e
  | .ref e _ _ => e
  | .binary e _ _ _ => e
  | .neg e _ => e

/-- Method `CNode::setExpr`. -/
def CNode.setExpr {F : Type} : CNode F → CNode F
  | .value _ v s x => .value true v s x
  | .ref _ p m => .ref true p m
  | .binary _ op l r => .binary true op l r
  | .neg _ l => .neg true l

/-- Method `CNode::clone(map)`: a deep copy whose `CRefNode`s refer to `map`. -/
def CNode.clone {F : Type} (map : Nat) : CNode F → CNode F
  | .value e v s x => .value e v s x
  | .ref e p _ => .ref e p map
  | .binary e op l r => .binary e op (CNode.clone map l) (CNode.clone map r)
  | .neg e l => .neg e (CNode.clone map l)

/-- Method `CNode::updateRef(offset)`. -/
def CNode.updateRef {F : Type} (offset : Int × Int) : CNode F → CNode F
  | .value e v s x => .value e v s x
  | .ref e p m => .ref e (p.updatePos offset) m
  | .binary e op l r => .binary e op (CNode.updateRef offset l) (CNode.updateRef offset r)
  | .neg e l => .neg e (CNode.updateRef offset l)

/-- The symbol each binary operator class writes in `save`; `opGeNode::save` writes `<=`. -/
def BinOp.symbol : BinOp → String
  | .add => "+"
  | .sub => "-"
  | .mul => "*"
  | .div => "/"
  | .pow => "^"
  | .eq => "="
  | .ne => "<>"
  | .lt => "<"
  | .le => "<="
  | .gt => ">"
  | .ge => "<="

/-- Method `CNode::save`.  `std::get<std::string>` on a `monostate` throws. -/
def CNode.save {F : Type} [DoubleOps F] : CNode F → Except Exn String
  | .value _ (.num d) _ _ => .ok (DoubleOps.to_string d)
  | .value true _ s _ => .ok s
  | .value false (.str v) _ _ => .ok v
  | .value false .empty _ _ => .error .bad_variant_access
  | .ref _ p _ => .ok p.toStr
  | .binary _ op l r =>
    match CNode.save l with
    | .error e => .error e
    | .ok sl =>
      match CNode.save r with
      | .error e => .error e
      | .ok sr => .ok ("(" ++ sl ++ op.symbol ++ sr ++ ")")
  | .neg _ l =>
    match CNode.save l with
    | .error e => .error e
    | .ok sl => .ok ("(" ++ "-" ++ sl ++ ")")

/-! ## The cell map -/

/-- Type `std::map<CPos, ANode>`, in key order. -/
abbrev Table (F : Type) := List (CPos × CNode F)

/-- Method `std::map::find`: the entry whose key is equivalent to `k`. -/
def Table.find {F : Type} : Table F → CPos → Option (CNode F)
  | [], _ => none
  | (k1, n) :: rest, k => if k1.equiv k then some n else Table.find rest k

/-- Statement `map[k] = n`: replaces the value of an equivalent key (the stored key stays),
or inserts `(k, n)` at its place in key order. -/
def Table.assign {F : Type} : Table F → CPos → CNode F → Table F
  | [], k, n => [(k, n)]
  | (k1, n1) :: rest, k, n =>
    if k.lt k1 then (k, n) :: (k1, n1) :: rest
    else if k1.lt k then (k1, n1) :: Table.assign rest k n
    else (k1, n) :: rest

/-- Class `CMyExprBuilder`: the operand stack (top first) and the cell map. -/
structure CMyExprBuilder (F : Type) where
  m_stack : List (CNode F) := []
  m_nodes : Table F := []
  deriving DecidableEq, Repr

/-- The builders alive in the program, indexed by identity.  A `CRefNode` with `m_map = i`
refers to the `m_nodes` of builder `i`. -/
abbrev Heap (F : Type) := List (CMyExprBuilder F)

/-- The builder with identity `i`.  Identities of live builders are below `h.length`; any
other identity stands for a builder with an empty stack and an empty map. -/
def Heap.builder {F : Type} (h : Heap F) (i : Nat) : CMyExprBuilder F :=
  match h[i]? with
  | some b => b
  | none => {}

/-- The map a `CRefNode` with `m_map = i` refers to. -/
def Heap.nodes {F : Type} (h : Heap F) (i : Nat) : Table F :=
  (h.builder i).m_nodes

/-! ## Evaluation -/

/-- The value computed by `evaluate` of a binary operator node from its operand values. -/
def evalBinary {F : Type} [DoubleOps F] : BinOp → CValue F → CValue F → CValue F
  | .add, .num a, .num b => .num (DoubleOps.add a b)
  | .add, .str a, .str b => .str (a ++ b)
  | .add, .num a, .str b => .str (DoubleOps.to_string a ++ b)
  | .add, .str a, .num b => .str (a ++ DoubleOps.to_string b)
  | .sub, .num a, .num b => .num (DoubleOps.sub a b)
  | .mul, .num a, .num b => .num (DoubleOps.mul a b)
  | .div, .num a, .num b =>
    if DoubleOps.ne b DoubleOps.zero then .num (DoubleOps.div a b) else .empty
  | .pow, .num a, .num b => .num (DoubleOps.pow a b)
  | .eq, .num a, .num b => .num (ofBool (DoubleOps.eq a b))
  | .eq, .str a, .str b => .num (ofBool (decide (a = b)))
  | .ne, .num a, .num b => .num (ofBool (DoubleOps.ne a b))
  | .ne, .str a, .str b => .num (ofBool (!decide (a = b)))
  | .lt, .num a, .num b => .num (ofBool (DoubleOps.lt a b))
  | .lt, .str a, .str b => .num (ofBool (decide (a < b)))
  | .le, .num a, .num b => .num (ofBool (DoubleOps.le a b))
  | .le, .str a, .str b => .num (ofBool (!decide (b < a)))
  | .gt, .num a, .num b => .num (ofBool (DoubleOps.gt a b))
  | .gt, .str a, .str b => .num (ofBool (decide (b < a)))
  | .ge, .num a, .num b => .num (ofBool (DoubleOps.ge a b))
  | .ge, .str a, .str b => .num (ofBool (!decide (a < b)))
  | _, _, _ => .empty

/-- The value computed by `opNegNode::evaluate` from its operand value. -/
def evalNeg {F : Type} [DoubleOps F] : CValue F → CValue F
  | .num a => .num (DoubleOps.neg a)
  | _ => .empty

/-- Method `CNode::evaluate(visited)`.  The visited set is passed by reference in the program, so
the model returns it next to the value.  `fuel` bounds the depth of the recursion; `none`
means the bound was reached. -/
def evaluate {F : Type} [DoubleOps F] (h : Heap F) :
    Nat → CNode F → Finset (Nat × Nat) → Option (CValue F × Finset (Nat × Nat))
  | 0, _, _ => none
  | _ + 1, .value _ v _ _, visited => some (v, visited)
  | fuel + 1, .ref _ pos m, visited =>
    match (h.nodes m).find pos with
    | none => some (.empty, visited)
    | some target =>
      if pos.key ∈ visited then some (.empty, visited)
      else
        match evaluate h fuel target (insert pos.key visited) with
        | none => none
        | some (result, visited1) => some (result, visited1.erase pos.key)
  | fuel + 1, .binary _ op l r, visited =>
    match evaluate h fuel l visited with
    | none => none
    | some (val1, visited1) =>
      match evaluate h fuel r visited1 with
      | none => none
      | some (val2, visited2) => some (evalBinary op val1 val2, visited2)
  | fuel + 1, .neg _ l, visited =>
    match evaluate h fuel l visited with
    | none => none
    | some (val, visited1) => some (evalNeg val, visited1)

/-- An upper bound on the recursion depth of `evaluate` on one tree. -/
def CNode.height {F : Type} : CNode F → Nat
  | .value _ _ _ _ => 1
  | .ref _ _ _ => 1
  | .binary _ _ l r => 1 + max (CNode.height l) (CNode.height r)
  | .neg _ l => 1 + CNode.height l

/-- The largest `height` of a tree stored in a map. -/
def Table.maxHeight {F : Type} : Table F → Nat
  | [] => 0
  | (_, n) :: rest => max n.height (Table.maxHeight rest)

/-- The coordinate pairs of the keys of a map. -/
def Table.keys {F : Type} : Table F → Finset (Nat × Nat)
  | [] => ∅
  | (k, _) :: rest => insert k.key (Table.keys rest)

/-- The largest `height` of a tree stored in any map of the heap. -/
def Heap.maxHeight {F : Type} : Heap F → Nat
  | [] => 0
  | b :: rest => max b.m_nodes.maxHeight (Heap.maxHeight rest)

/-- The coordinate pairs that are a key of some map of the heap. -/
def Heap.keys {F : Type} : Heap F → Finset (Nat × Nat)
  | [] => ∅
  | b :: rest => b.m_nodes.keys ∪ Heap.keys rest

/-- A recursion depth that `getVal` never exceeds on the heap `h`. -/
def Heap.fuelBound {F : Type} (h : Heap F) : Nat :=
  (h.keys.card + 1) * (h.maxHeight + 1)

/-! ## CMyExprBuilder -/

/-- The loop of `doubleQuotes`; `fuel` bounds the number of iterations. -/
def doubleQuotesLoop : Nat → List Char → Nat → List Char
  | 0, str, _ => str
  | fuel + 1, str, i =>
    if i < str.length then
      if charAt str i = Char.ofNat 34 then
        doubleQuotesLoop fuel (str.take i ++ Char.ofNat 34 :: str.drop i) (i + 1 + 1)
      else doubleQuotesLoop fuel str (i + 1)
    else str

/-- Method `CMyExprBuilder::doubleQuotes`. -/
def doubleQuotes (str : String) : String :=
  String.mk (Char.ofNat 34 :: doubleQuotesLoop str.length str.data 0 ++ [Char.ofNat 34])

/-- The calls the expression parser makes on the builder. -/
inductive Call (F : Type)
  | op (o : BinOp)
  | opNeg
  | valNumber (val : F)
  | valString (val : String)
  | valReference (val : String)
  | valRange (val : String)
  | funcCall (fnName : String) (paramCount : Int)
  deriving DecidableEq, Repr

/-- Methods `opAdd`, `opSub`, ..., `opGe`: the eleven methods differ only in the class of the node
they create. -/
def CMyExprBuilder.opBinary {F : Type} (b : CMyExprBuilder F) (o : BinOp) :
    Except Exn (CMyExprBuilder F) :=
  match b.m_stack with
  | right :: left :: rest => .ok { b with m_stack := .binary false o left right :: rest }
  | _ => .error .invalid_argument

/-- Method `CMyExprBuilder::opNeg`. -/
def CMyExprBuilder.opNeg {F : Type} (b : CMyExprBuilder F) : Except Exn (CMyExprBuilder F) :=
  match b.m_stack with
  | left :: rest => .ok { b with m_stack := .neg false left :: rest }
  | [] => .error .invalid_argument

/-- Method `CMyExprBuilder::valReference`; `self` is the identity of this builder. -/
def CMyExprBuilder.valReference {F : Type} (self : Nat) (b : CMyExprBuilder F) (val : String) :
    Except Exn (CMyExprBuilder F) :=
  match CPos.ofString val with
  | .error e => .error e
  | .ok pos => .ok { b with m_stack := .ref false pos self :: b.m_stack }

/-- Method `CMyExprBuilder::valNumber`. -/
def CMyExprBuilder.valNumber {F : Type} (b : CMyExprBuilder F) (val : F) : CMyExprBuilder F :=
  { b with m_stack := .value false (.num val) "" false :: b.m_stack }

/-- Method `CMyExprBuilder::valString`. -/
def CMyExprBuilder.valString {F : Type} (b : CMyExprBuilder F) (val : String) :
    CMyExprBuilder F :=
  { b with m_stack := .value false (.str val) (doubleQuotes val) true :: b.m_stack }

/-- One call of the parser on the builder.  A call that throws leaves the builder as it was. -/
def CMyExprBuilder.call {F : Type} (self : Nat) (b : CMyExprBuilder F) :
    Call F → Except Exn (CMyExprBuilder F)
  | .op o => b.opBinary o
  | .opNeg => b.opNeg
  | .valNumber val => .ok (b.valNumber val)
  | .valString val => .ok (b.valString val)
  | .valReference val => b.valReference self val
  | .valRange _ => .ok b
  | .funcCall _ _ => .ok b

/-- A sequence of parser calls; stops at the first call that throws.  Returns the exception,
if any, and the builder as it is at that moment. -/
def CMyExprBuilder.calls {F : Type} (self : Nat) (b : CMyExprBuilder F) :
    List (Call F) → Option Exn × CMyExprBuilder F
  | [] => (none, b)
  | c :: cs =>
    match b.call self c with
    | .error e => (some e, b)
    | .ok b1 => CMyExprBuilder.calls self b1 cs

/-- Method `CMyExprBuilder::nodeExists`. -/
def CMyExprBuilder.nodeExists {F : Type} (b : CMyExprBuilder F) (pos : CPos) : Bool :=
  (b.m_nodes.find pos).isSome

/-- The statement `map[pos]->f()`: `operator[]` creates a null entry for an absent key. -/
def Table.update {F : Type} (t : Table F) (pos : CPos) (f : CNode F → CNode F) :
    Except Exn (Table F) :=
  match t.find pos with
  | none => .error .null_deref
  | some n => .ok (t.assign pos (f n))

/-- Method `CMyExprBuilder::updateNodes`. -/
def CMyExprBuilder.updateNodes {F : Type} (b : CMyExprBuilder F) (pos : CPos) :
    Except Exn (CMyExprBuilder F) :=
  match b.m_stack with
  | [top] =>
    match (b.m_nodes.assign pos top).update pos CNode.setExpr with
    | .error e => .error e
    | .ok t => .ok { m_stack := [], m_nodes := t }
  | _ => .error .invalid_argument

/-- Method `CMyExprBuilder::addCValNode`. -/
def CMyExprBuilder.addCValNode {F : Type} (b : CMyExprBuilder F) (pos : CPos) (val : CValue F) :
    CMyExprBuilder F :=
  { b with m_nodes := b.m_nodes.assign pos (.value false val "" false) }

/-- Method `CMyExprBuilder::addNode`; a null `tmp` is a fatal error. -/
def CMyExprBuilder.addNode {F : Type} (self : Nat) (b : CMyExprBuilder F) (dst : CPos)
    (tmp : Option (CNode F)) : Except Exn (CMyExprBuilder F) :=
  match tmp with
  | none => .error .null_deref
  | some n => .ok { b with m_nodes := b.m_nodes.assign dst (n.clone self) }

/-- Method `CMyExprBuilder::callUpdateRef`. -/
def CMyExprBuilder.callUpdateRef {F : Type} (b : CMyExprBuilder F) (pos : CPos)
    (offset : Int × Int) : Except Exn (CMyExprBuilder F) :=
  match b.m_nodes.update pos (CNode.updateRef offset) with
  | .error e => .error e
  | .ok t => .ok { b with m_nodes := t }

/-- The loop of the copy constructor and of `operator=`:
`m_nodes[pair.first] = pair.second->clone(m_nodes)` for every pair of `other`. -/
def cloneInto {F : Type} (self : Nat) : Table F → Table F → Table F
  | [], acc => acc
  | (k, n) :: rest, acc => cloneInto self rest (acc.assign k (n.clone self))

/-- Copy constructor of `CMyExprBuilder`; `self` is the identity of the new builder. -/
def CMyExprBuilder.copy {F : Type} (self : Nat) (other : CMyExprBuilder F) : CMyExprBuilder F :=
  { m_stack := [], m_nodes := cloneInto self other.m_nodes [] }

/-- Method `CMyExprBuilder::operator=` for `this != &other`: the stack of `this` stays. -/
def CMyExprBuilder.assignFrom {F : Type} (self : Nat) (this other : CMyExprBuilder F) :
    CMyExprBuilder F :=
  { this with m_nodes := cloneInto self other.m_nodes [] }

/-- Method `CMyExprBuilder::getVal`.  The outer `none` means that `fuel` was too small. -/
def CMyExprBuilder.getVal {F : Type} [DoubleOps F] (h : Heap F) (self : Nat) (fuel : Nat)
    (pos : CPos) : Option (Except Exn (CValue F)) :=
  match (h.nodes self).find pos with
  | none => some (.error .out_of_range)
  | some n =>
    match evaluate h fuel n {pos.key} with
    | none => none
    | some (v, _) => some (.ok v)

/-! ## CSpreadsheet

A `CSpreadsheet` has the single member `m_builder`; the sheet with identity `self` is the
builder `self` of the heap. -/

/-- What one run of the external `parseExpression(contents, builder)` does: the calls it
makes on the builder, in order, and whether it then returns (`accepted`) or throws
`std::invalid_argument`. -/
structure ParseResult (F : Type) where
  calls : List (Call F)
  accepted : Bool
  deriving DecidableEq, Repr

/-- The external parser, as a function of the text. -/
abbrev Parser (F : Type) := String → ParseResult F

/-- Call `parseExpression(contents, m_builder)`: an exception of a builder call passes through the
parser. -/
def parseExpression {F : Type} (parser : Parser F) (self : Nat) (b : CMyExprBuilder F)
    (contents : String) : Option Exn × CMyExprBuilder F :=
  match b.calls self (parser contents).calls with
  | (some e, b1) => (some e, b1)
  | (none, b1) => if (parser contents).accepted then (none, b1) else (some .invalid_argument, b1)

/-- Method `CSpreadsheet::setCell`.  Returns the returned `bool` or the exception that leaves the
method, and the builder afterwards. -/
def CSpreadsheet.setCell {F : Type} [DoubleOps F] (parser : Parser F) (self : Nat)
    (b : CMyExprBuilder F) (pos : CPos) (contents : String) :
    Except Exn Bool × CMyExprBuilder F :=
  if charAt contents.data 0 = '=' then
    match parseExpression parser self b contents with
    | (some .invalid_argument, b1) => (.ok false, b1)
    | (some e, b1) => (.error e, b1)
    | (none, b1) =>
      match b1.updateNodes pos with
      | .error .invalid_argument => (.ok false, b1)
      | .error e => (.error e, b1)
      | .ok b2 => (.ok true, b2)
  else
    match (DoubleOps.stod contents : StodResult F) with
    | .ok num => (.ok true, b.addCValNode pos (.num num))
    | .invalid_argument => (.ok true, b.addCValNode pos (.str contents))
    | .out_of_range => (.error .out_of_range, b)

/-- Method `CSpreadsheet::getValue` with a bound on the recursion depth of `evaluate`. -/
def CSpreadsheet.getValueFuel {F : Type} [DoubleOps F] (h : Heap F) (self : Nat) (fuel : Nat)
    (pos : CPos) : Option (Except Exn (CValue F)) :=
  if !(h.builder self).nodeExists pos then some (.ok .empty)
  else CMyExprBuilder.getVal h self fuel pos

/-- Method `CSpreadsheet::getValue`. -/
def CSpreadsheet.getValue {F : Type} [DoubleOps F] (h : Heap F) (self : Nat) (pos : CPos) :
    Option (Except Exn (CValue F)) :=
  CSpreadsheet.getValueFuel h self h.fuelBound pos

/-- The pairs `(x, y)` in the order of the loops `for y < h` / `for x < w`. -/
def rectCells (w hgt : Int) : List (Nat × Nat) :=
  (List.range hgt.toNat).flatMap fun y => (List.range w.toNat).map fun x => (x, y)

/-- The position `CPos(p.getCol() + x, p.getRow() + y)`. -/
def CPos.shift (p : CPos) (xy : Nat × Nat) : CPos :=
  CPos.mk2 ((p.getCol + xy.1) % SIZE_MOD) ((p.getRow + xy.2) % SIZE_MOD)

/-- The body of the loops of `cloneSourceNodes` over a list of `(x, y)`. -/
def cloneSourceLoop {F : Type} (self : Nat) (b : CMyExprBuilder F) (src : CPos) :
    List (Nat × Nat) → Table F → Table F
  | [], tmp => tmp
  | xy :: rest, tmp =>
    match b.m_nodes.find (src.shift xy) with
    | some n => cloneSourceLoop self b src rest (tmp.assign (src.shift xy) (n.clone self))
    | none => cloneSourceLoop self b src rest tmp

/-- Method `CSpreadsheet::cloneSourceNodes`; returns `tmp`. -/
def CSpreadsheet.cloneSourceNodes {F : Type} (self : Nat) (b : CMyExprBuilder F) (src : CPos)
    (w hgt : Int) : Table F :=
  cloneSourceLoop self b src (rectCells w hgt) []

/-- The body of the loops of `copyRect` over a list of `(x, y)`.  `tmp[srcPos]` is a null
pointer when `srcPos` is not a key of `tmp`. -/
def copyRectLoop {F : Type} (self : Nat) (dst src : CPos) (offset : Int × Int) (tmp : Table F) :
    List (Nat × Nat) → CMyExprBuilder F → Except Exn (CMyExprBuilder F)
  | [], b => .ok b
  | xy :: rest, b =>
    if b.nodeExists (src.shift xy) then
      match b.addNode self (dst.shift xy) (tmp.find (src.shift xy)) with
      | .error e => .error e
      | .ok b1 =>
        match b1.callUpdateRef (dst.shift xy) offset with
        | .error e => .error e
        | .ok b2 => copyRectLoop self dst src offset tmp rest b2
    else copyRectLoop self dst src offset tmp rest b

/-- The offset computed by `copyRect`: differences of `size_t` values stored in `int`s. -/
def copyOffset (dst src : CPos) : Int × Int :=
  (toInt32 ((dst.getCol + SIZE_MOD - src.getCol) % SIZE_MOD),
   toInt32 ((dst.getRow + SIZE_MOD - src.getRow) % SIZE_MOD))

/-- Method `CSpreadsheet::copyRect`. -/
def CSpreadsheet.copyRect {F : Type} (self : Nat) (b : CMyExprBuilder F) (dst src : CPos)
    (w hgt : Int) : Except Exn (CMyExprBuilder F) :=
  copyRectLoop self dst src (copyOffset dst src) (CSpreadsheet.cloneSourceNodes self b src w hgt)
    (rectCells w hgt) b

/-- The loop of `CSpreadsheet::save` over the pairs of the map. -/
def saveLoop {F : Type} [DoubleOps F] : Table F → Except Exn String
  | [] => .ok ""
  | (k, n) :: rest =>
    match n.save with
    | .error e => .error e
    | .ok sn =>
      match saveLoop rest with
      | .error e => .error e
      | .ok sr =>
        .ok (Nat.repr k.getCol ++ " " ++ Nat.repr k.getRow ++ " "
          ++ (if n.isExpr then "=" else "") ++ sn ++ "~" ++ sr)

/-- Method `CSpreadsheet::save`: the text written to the stream (the method returns `true`). -/
def CSpreadsheet.save {F : Type} [DoubleOps F] (b : CMyExprBuilder F) : Except Exn String :=
  saveLoop b.m_nodes

/-- The assignment `x1 = x0` of sheets with identities `dst` and `src`. -/
def CSpreadsheet.assign {F : Type} (h : Heap F) (dst src : Nat) : Heap F :=
  if dst = src then h else h.set dst ((h.builder dst).assignFrom dst (h.builder src))

/-! ## A concrete number type for the examples -/

/-- The text `std::to_string` prints for an integer-valued `double` of small magnitude. -/
def intToString (d : Int) : String :=
  (if d < 0 then "-" else "") ++ Nat.repr d.natAbs ++ ".000000"

/-- Function `std::stod` on the strings used in the examples: a string that starts with
decimal digits, followed by nothing or by a character that cannot continue a number,
converts to the value of these digits, and a string that is empty or starts with a character
that cannot begin a number is rejected with `std::invalid_argument`. -/
def intStod (s : String) : StodResult Int :=
  match s.data with
  | [] => .invalid_argument
  | c :: cs => if c.isDigit then .ok (digitsValue (c :: cs) 0) else .invalid_argument

/-- Exact integers standing in for `double` in the concrete examples, which only use small
integer values; on those, `+`, `-`, `*`, the comparisons, `std::to_string` and `std::stod`
of IEEE doubles agree with the operations below. -/
instance instDoubleOpsInt : DoubleOps Int where
  add a b := a + b
  sub a b := a - b
  mul a b := a * b
  div a b := a / b
  pow a b := a ^ b.toNat
  neg a := -a
  zero := 0
  one := 1
  eq a b := decide (a = b)
  ne a b := !decide (a = b)
  lt a b := decide (a < b)
  le a b := decide (a ≤ b)
  gt a b := decide (b < a)
  ge a b := decide (b ≤ a)
  to_string := intToString
  stod := intStod

/-! ## Reference structure of trees and sheets -/

/-- The tree contains a `CRefNode` whose position has coordinates `k` and whose map is `m`. -/
def CNode.hasRef {F : Type} (k : Nat × Nat) (m : Nat) : CNode F → Bool
  | .value _ _ _ _ => false
  | .ref _ p m1 => decide (p.key = k) && decide (m1 = m)
  | .binary _ _ l r => CNode.hasRef k m l || CNode.hasRef k m r
  | .neg _ l => CNode.hasRef k m l

/-- Every `CRefNode` of the tree refers to the map `m`. -/
def CNode.boundTo {F : Type} (m : Nat) : CNode F → Bool
  | .value _ _ _ _ => true
  | .ref _ _ m1 => decide (m1 = m)
  | .binary _ _ l r => CNode.boundTo m l && CNode.boundTo m r
  | .neg _ l => CNode.boundTo m l

/-- In sheet `i`, the cell at `a` exists and its tree contains a reference to `b`. -/
def RefEdge {F : Type} (h : Heap F) (i : Nat) (a b : CPos) : Prop :=
  ∃ n, (h.nodes i).find a = some n ∧ n.hasRef b.key i = true

/-- The position `p` of sheet `i` lies on a cycle of references: a chain of one or more
reference edges leads from `p` back to `p`. -/
def OnCycle {F : Type} (h : Heap F) (i : Nat) (p : CPos) : Prop :=
  Relation.TransGen (RefEdge h i) p p

/-- Every entry of the snapshot `tmp` is the clone of the cell of `b` at that key. -/
def SnapshotOf {F : Type} (self : Nat) (b : CMyExprBuilder F) (tmp : Table F) : Prop :=
  ∀ (k : CPos) (n1 : CNode F), tmp.find k = some n1 →
    ∃ n, b.m_nodes.find k = some n ∧ n1 = n.clone self

/-- The tree `n1` is the tree `n` with every `CRefNode` moved by the offset `d`: a reference
keeps its flags and its map, an absolute coordinate stays, and a relative coordinate `c`
becomes `f c d`.  Everything else is the same. -/
def CNode.refsMoved {F : Type} [DecidableEq F] (f : Int → Int → Int) (d : Int × Int) :
    CNode F → CNode F → Bool
  | .value e v s x, n1 => decide (n1 = .value e v s x)
  | .ref e p m, .ref e1 p1 m1 =>
    decide (e1 = e) && decide (m1 = m) && decide (p1.m_absCol = p.m_absCol)
      && decide (p1.m_absRow = p.m_absRow)
      && (if p.m_absCol then decide (p1.m_col = p.m_col)
          else decide ((p1.m_col : Int) = f p.m_col d.1))
      && (if p.m_absRow then decide (p1.m_row = p.m_row)
          else decide ((p1.m_row : Int) = f p.m_row d.2))
  | .binary e op l r, .binary e1 op1 l1 r1 =>
    decide (e1 = e) && decide (op1 = op) && CNode.refsMoved f d l l1 && CNode.refsMoved f d r r1
  | .neg e l, .neg e1 l1 => decide (e1 = e) && CNode.refsMoved f d l l1
  | _, _ => false

/-- The sum of a coordinate and an offset as integers. -/
def plainSum (c d : Int) : Int := c + d

/-- The sum of a coordinate and an offset in `size_t` arithmetic. -/
def wrappedSum (c d : Int) : Int := (c + d) % (SIZE_MOD : Int)

/-- The copyRect offset law as the specification words it, for one call of `copyRect`: the
call completes, and every destination cell whose source cell existed holds the source tree
with every relative reference coordinate increased by `dst - src`. -/
def OffsetLaw {F : Type} [DecidableEq F] (self : Nat) (b : CMyExprBuilder F) (dst src : CPos)
    (w hgt : Int) : Prop :=
  ∀ (x y : Nat) (n : CNode F), (x : Int) < w → (y : Int) < hgt →
    b.m_nodes.find (src.shift (x, y)) = some n →
    ∃ b1 n1, CSpreadsheet.copyRect self b dst src w hgt = .ok b1 ∧
      b1.m_nodes.find (dst.shift (x, y)) = some n1 ∧
      n.refsMoved plainSum ((dst.m_col : Int) - src.m_col, (dst.m_row : Int) - src.m_row) n1
        = true

/-- The calls on a sheet that change it. -/
inductive SheetOp
  | setCell (pos : CPos) (contents : String)
  | copyRect (dst src : CPos) (w hgt : Int)
  deriving DecidableEq, Repr

/-- One call on the sheet `i`.  After `setCell` the program goes on whatever the call
returned or threw; a fatal error in `copyRect` ends the program (`none`). -/
def applyOp {F : Type} [DoubleOps F] (parser : Parser F) (h : Heap F) (i : Nat) :
    SheetOp → Option (Heap F)
  | .setCell pos contents =>
    some (h.set i (CSpreadsheet.setCell parser i (h.builder i) pos contents).2)
  | .copyRect dst src w hgt =>
    match CSpreadsheet.copyRect i (h.builder i) dst src w hgt with
    | .ok b => some (h.set i b)
    | .error _ => none

/-- A sequence of calls on the sheet `i`. -/
def applyOps {F : Type} [DoubleOps F] (parser : Parser F) (h : Heap F) (i : Nat) :
    List SheetOp → Option (Heap F)
  | [] => some h
  | op :: ops =>
    match applyOp parser h i op with
    | none => none
    | some h1 => applyOps parser h1 i ops

/-- Every tree of the map of sheet `i` has all its `CRefNode`s bound to that map. -/
def Heap.TableBound {F : Type} (h : Heap F) (i : Nat) : Prop :=
  ∀ (k : CPos) (n : CNode F), (h.nodes i).find k = some n → n.boundTo i = true

/-- The keys of the map are strictly increasing, as in every `std::map`. -/
def Table.SortedKeys {F : Type} (t : Table F) : Prop :=
  t.Pairwise fun a b => a.1.lt b.1 = true

/-! ## Concrete sheets for the examples -/

/-- The sheet `x4` of the program's own test: `B3 = B1 + 5`, `A1 = B3`, `B1 = A1`. -/
def exampleCycle : Heap Int :=
  [{ m_nodes := [(CPos.mk2 1 1, .ref true (CPos.mk2 2 3) 0),
      (CPos.mk2 2 1, .ref true (CPos.mk2 1 1) 0),
      (CPos.mk2 2 3, .binary true .add (.ref false (CPos.mk2 2 1) 0)
        (.value false (.num 5) "" false))] }]

/-- A sheet whose only cell is `C1 = A1`. -/
def exampleWrap : CMyExprBuilder Int :=
  { m_nodes := [(CPos.mk2 3 1, .ref true (CPos.mk2 1 1) 0)] }

/-- The cells `F10 = D0 + 5`, `F11 = $D0 + 5`, `F12 = D$0 + 5`, `F13 = $D$0 + 5` of the
program's own test. -/
def exampleCopy : CMyExprBuilder Int :=
  { m_nodes := [
      (CPos.mk2 6 10, .binary true .add (.ref false { m_col := 4, m_row := 0 } 0)
        (.value false (.num 5) "" false)),
      (CPos.mk2 6 11, .binary true .add
        (.ref false { m_col := 4, m_row := 0, m_absCol := true } 0)
        (.value false (.num 5) "" false)),
      (CPos.mk2 6 12, .binary true .add
        (.ref false { m_col := 4, m_row := 0, m_absRow := true } 0)
        (.value false (.num 5) "" false)),
      (CPos.mk2 6 13, .binary true .add
        (.ref false { m_col := 4, m_row := 0, m_absRow := true, m_absCol := true } 0)
        (.value false (.num 5) "" false))] }

/-- The sheet `exampleCopy` after `copyRect(G11, F10, 1, 4)`. -/
def exampleCopied : CMyExprBuilder Int :=
  { m_nodes := [
      (CPos.mk2 6 10, .binary true .add (.ref false { m_col := 4, m_row := 0 } 0)
        (.value false (.num 5) "" false)),
      (CPos.mk2 6 11, .binary true .add
        (.ref false { m_col := 4, m_row := 0, m_absCol := true } 0)
        (.value false (.num 5) "" false)),
      (CPos.mk2 6 12, .binary true .add
        (.ref false { m_col := 4, m_row := 0, m_absRow := true } 0)
        (.value false (.num 5) "" false)),
      (CPos.mk2 6 13, .binary true .add
        (.ref false { m_col := 4, m_row := 0, m_absRow := true, m_absCol := true } 0)
        (.value false (.num 5) "" false)),
      (CPos.mk2 7 11, .binary true .add (.ref false { m_col := 5, m_row := 1 } 0)
        (.value false (.num 5) "" false)),
      (CPos.mk2 7 12, .binary true .add
        (.ref false { m_col := 4, m_row := 1, m_absCol := true } 0)
        (.value false (.num 5) "" false)),
      (CPos.mk2 7 13, .binary true .add
        (.ref false { m_col := 5, m_row := 0, m_absRow := true } 0)
        (.value false (.num 5) "" false)),
      (CPos.mk2 7 14, .binary true .add
        (.ref false { m_col := 4, m_row := 0, m_absRow := true, m_absCol := true } 0)
        (.value false (.num 5) "" false))] }

/-- The tree `$D0 + 5` of the cell `F11` of `exampleCopy`. -/
def exampleF11 : CNode Int :=
  .binary true .add (.ref false { m_col := 4, m_row := 0, m_absCol := true } 0)
    (.value false (.num 5) "" false)

/-- The tree `$D1 + 5`. -/
def exampleG12 : CNode Int :=
  .binary true .add (.ref false { m_col := 4, m_row := 1, m_absCol := true } 0)
    (.value false (.num 5) "" false)

/-- A sheet whose only cell is the number `1` at `A1`. -/
def exampleHole : CMyExprBuilder Int :=
  { m_nodes := [(CPos.mk2 1 1, .value false (.num 1) "" false)] }

/-- A sheet with the numbers `7` at `B1` and `9` at `D1`; `C1` is empty. -/
def exampleOverlap : CMyExprBuilder Int :=
  { m_nodes := [(CPos.mk2 2 1, .value false (.num 7) "" false),
      (CPos.mk2 4 1, .value false (.num 9) "" false)] }

/-- A sheet whose only cell is the formula `A1 = 2 >= 1`. -/
def exampleGe : CMyExprBuilder Int :=
  { m_nodes := [(CPos.mk2 1 1, .binary true .ge (.value false (.num 2) "" false)
      (.value false (.num 1) "" false))] }

/-- A sheet whose only cell is the formula `A1 = 2 <= 1`. -/
def exampleLe : CMyExprBuilder Int :=
  { m_nodes := [(CPos.mk2 1 1, .binary true .le (.value false (.num 2) "" false)
      (.value false (.num 1) "" false))] }

/-- A sheet whose only cell is the raw text `a~1 2 b` at `A1`. -/
def exampleTilde : CMyExprBuilder Int :=
  { m_nodes := [(CPos.mk2 1 1, .value false (.str "a~1 2 b") "" false)] }

/-- A sheet with the raw texts `a` at `A1` and `b` at `A2`. -/
def exampleTwoTexts : CMyExprBuilder Int :=
  { m_nodes := [(CPos.mk2 1 1, .value false (.str "a") "" false),
      (CPos.mk2 1 2, .value false (.str "b") "" false)] }

/-- The calls `parseExpression` makes on the formulas of the examples, in postfix order. -/
def exampleParser : Parser Int := fun contents =>
  if contents = "=\"a\"+\"b\"" then
    { calls := [.valString "a", .valString "b", .op .add], accepted := true }
  else if contents = "=1+sum(A1:A2)" then
    { calls := [.valNumber 1, .valRange "A1:A2", .funcCall "sum" 1, .op .add],
      accepted := true }
  else if contents = "=2" then
    { calls := [.valNumber 2], accepted := true }
  else { calls := [], accepted := false }

/-- Two sheets: `x0` (identity 0) with `A1 = 10` and `B1 = A1 + 1`, and an empty `x1`
(identity 1). -/
def exampleTwo : Heap Int :=
  [{ m_nodes := [(CPos.mk2 1 1, .value false (.num 10) "" false),
      (CPos.mk2 2 1, .binary true .add (.ref false (CPos.mk2 1 1) 0)
        (.value false (.num 1) "" false))] },
   {}]

/-- The sheets of `exampleTwo` after `x1 = x0` and then `x0.setCell(A1, "12")`. -/
def exampleTwoEdited : Heap Int :=
  [{ m_nodes := [(CPos.mk2 1 1, .value false (.num 12) "" false),
      (CPos.mk2 2 1, .binary true .add (.ref false (CPos.mk2 1 1) 0)
        (.value false (.num 1) "" false))] },
   { m_nodes := [(CPos.mk2 1 1, .value false (.num 10) "" false),
      (CPos.mk2 2 1, .binary true .add (.ref false (CPos.mk2 1 1) 1)
        (.value false (.num 1) "" false))] }]

/-- The invariant of the builder with identity `self`: every `CRefNode` on its stack and in
its map is bound to its own map, and the map is in key order. -/
def CMyExprBuilder.WellFormed {F : Type} (self : Nat) (b : CMyExprBuilder F) : Prop :=
  (∀ n ∈ b.m_stack, n.boundTo self = true) ∧
    (∀ e ∈ b.m_nodes, e.2.boundTo self = true) ∧ b.m_nodes.SortedKeys

/-- The invariant of the whole program state: every builder satisfies its invariant. -/
def Heap.WellFormed {F : Type} (h : Heap F) : Prop :=
  ∀ j, (h.builder j).WellFormed j

/-- The value `setCell` stores for contents that do not begin with `=`: the number that
`std::stod` returns, or the contents as text when `std::stod` throws
`std::invalid_argument`; there is none when `std::stod` throws `std::out_of_range`. -/
def literalValue {F : Type} [DoubleOps F] (contents : String) : Option (CValue F) :=
  match (DoubleOps.stod contents : StodResult F) with
  | .ok num => some (.num num)
  | .invalid_argument => some (.str contents)
  | .out_of_range => none

/-! ## CSpreadsheet::load

The streams are texts: a stream is the list of the characters not yet read. -/

/-- The call `std::getline(is, line, delim)` on a stream in good state: `none` when it fails
(nothing is left to read), otherwise the line and the rest of the stream after the
delimiter. -/
def getline (is : List Char) (delim : Char) : Option (List Char × List Char) :=
  match is with
  | [] => none
  | _ => some (is.takeWhile (fun c => c != delim), (is.dropWhile (fun c => c != delim)).drop 1)

/-- The function `std::isspace` in the "C" locale. -/
def isSpace (c : Char) : Bool :=
  c = ' ' || (decide (9 ≤ c.toNat) && decide (c.toNat ≤ 13))

/-- The formatted extraction `iss >> n` of a `size_t` (base 10): white space is skipped, an
optional sign and the decimal digits after it are read; the extraction fails (`none`) when
there is no digit or the digits denote a value that does not fit a `size_t`; a minus sign
negates the value in `size_t` arithmetic.  Returns the value and the rest of the stream. -/
def extractSizeT (iss : List Char) : Option (Nat × List Char) :=
  let s1 := iss.dropWhile isSpace
  let negative := decide (s1.head? = some '-')
  let s2 := if s1.head? = some '-' ∨ s1.head? = some '+' then s1.drop 1 else s1
  let digits := s2.takeWhile Char.isDigit
  if digits = [] then none
  else if SIZE_MOD ≤ digitsValue digits 0 then none
  else
    some (if negative then (SIZE_MOD - digitsValue digits 0) % SIZE_MOD else digitsValue digits 0,
      s2.dropWhile Char.isDigit)

/-- The loop of `CSpreadsheet::load`.  `fuel` bounds the number of iterations; `none` means
the bound was reached. -/
def loadLoop {F : Type} [DoubleOps F] (parser : Parser F) (self : Nat) :
    Nat → List Char → CMyExprBuilder F → Option (Except Exn Bool × CMyExprBuilder F)
  | 0, _, _ => none
  | fuel + 1, is, b =>
    match getline is '~' with
    | none => some (.ok true, b)
    | some (line, rest) =>
      match extractSizeT (line ++ ['~']) with
      | none => some (.ok false, b)
      | some (col, iss1) =>
        match extractSizeT iss1 with
        | none => some (.ok false, b)
        | some (row, iss2) =>
          match getline iss2 '~' with
          | none => some (.error .out_of_range, b)
          | some (contents, _) =>
            if contents.length < 1 then some (.error .out_of_range, b)
            else
              match CSpreadsheet.setCell parser self b (CPos.mk2 col row)
                  (String.mk (contents.drop 1)) with
              | (.error e, b1) => some (.error e, b1)
              | (.ok _, b1) => loadLoop parser self fuel rest b1

/-- Method `CSpreadsheet::load` on the text `is`.  Returns the returned `bool` or the
exception that leaves the method, and the builder afterwards. -/
def CSpreadsheet.load {F : Type} [DoubleOps F] (parser : Parser F) (self : Nat)
    (b : CMyExprBuilder F) (is : String) : Option (Except Exn Bool × CMyExprBuilder F) :=
  loadLoop parser self (is.length + 1) is.data (b.assignFrom self {})

/-! ## Position texts -/

/-- The base-26 value of a string of letters, `value = value * 26 + (letter - 'A' + 1)`
from the left, starting from `acc`; the letters count in upper case. -/
def colValue : List Char → Nat → Nat
  | [], acc => acc
  | c :: cs, acc => colValue cs (acc * 26 + (c.toUpper.toNat - 65 + 1))

/-- The text `[$]COL[$]ROW`. -/
def positionText (absCol : Bool) (col : List Char) (absRow : Bool) (row : List Char) :
    List Char :=
  (if absCol then ['$'] else []) ++ col ++ (if absRow then ['$'] else []) ++ row

/-- The position round trip for the text `[$]COL[$]ROW`: the text is parsed, and rendering
the parsed position gives the text with its letters in upper case. -/
def PositionRoundTrip (absCol : Bool) (col : List Char) (absRow : Bool) (row : List Char) :
    Prop :=
  ∃ p, CPos.ofString (String.mk (positionText absCol col absRow row)) = .ok p ∧
    p.toStr = String.mk ((positionText absCol col absRow row).map Char.toUpper)

/-- A sheet whose only cell is the number `3` at `C3`. -/
def exampleOld : CMyExprBuilder Int :=
  { m_nodes := [(CPos.mk2 3 3, .value false (.num 3) "" false)] }

/-! ## Leaves and the lexicographic order -/

/-- The leaves of a tree, from left to right: its `CValueNode`s and `CRefNode`s. -/
def CNode.leaves {F : Type} : CNode F → List (CNode F)
  | .value e v s x => [.value e v s x]
  | .ref e p m => [.ref e p m]
  | .binary _ _ l r => CNode.leaves l ++ CNode.leaves r
  | .neg _ l => CNode.leaves l

/-- The lexicographic order on texts by code point: the first position where the texts differ
decides, and a proper prefix is smaller. -/
def lexLess : List Char → List Char → Bool
  | [], [] => false
  | [], _ :: _ => true
  | _ :: _, [] => false
  | a :: as, b :: bs =>
    if a.toNat < b.toNat then true
    else if b.toNat < a.toNat then false
    else lexLess as bs

/-! ## Quoting -/

/-- The text with every `"` replaced by two `"`. -/
def doubled : List Char → List Char
  | [] => []
  | c :: cs => if c = Char.ofNat 34 then Char.ofNat 34 :: Char.ofNat 34 :: doubled cs
    else c :: doubled cs

/-- The text with every pair `""` replaced by one `"`, from the left. -/
def undouble : List Char → List Char
  | [] => []
  | [c] => [c]
  | c :: d :: cs =>
    if c = Char.ofNat 34 ∧ d = Char.ofNat 34 then c :: undouble cs else c :: undouble (d :: cs)

/-! ## The column codec -/

/-- The column codec in the direction render-then-parse, for the column number `c`: the
letters `toStr` writes for `c` are a non-empty string of `A`..`Z`, and both the formula
`value = value * 26 + (letter - 'A' + 1)` and `CPos::toNum` give `c` for it. -/
def ColumnRenderParse (c : Nat) : Prop :=
  colLoop c c [] ≠ [] ∧ (∀ ch ∈ colLoop c c [], ch.isUpper = true) ∧
    colValue (colLoop c c []) 0 = c ∧ (CPos.toNum (colLoop c c []) 0).1 = c

/-- The column codec in the direction parse-then-render, for the letter string `s`: the
letters `toStr` writes for the number `CPos::toNum` gives for `s` are `s`. -/
def ColumnParseRender (s : List Char) : Prop :=
  colLoop (CPos.toNum s 0).1 (CPos.toNum s 0).1 [] = s

/-! ## Evaluation without the cycle guard -/

/-- The guard-free denotation of a tree, as the specification words it: a literal denotes its
value, a reference to a present cell denotes what that cell's tree denotes, a reference to an
absent cell denotes `Empty`, and an operator node denotes the operator applied to what its
operands denote.  There is no visited set.  `fuel` bounds the depth of the recursion; `none`
means the bound was reached. -/
def denote {F : Type} [DoubleOps F] (h : Heap F) : Nat → CNode F → Option (CValue F)
  | 0, _ => none
  | _ + 1, .value _ v _ _ => some v
  | fuel + 1, .ref _ pos m =>
    match (h.nodes m).find pos with
    | none => some .empty
    | some target => denote h fuel target
  | fuel + 1, .binary _ op l r =>
    match denote h fuel l with
    | none => none
    | some val1 =>
      match denote h fuel r with
      | none => none
      | some val2 => some (evalBinary op val1 val2)
  | fuel + 1, .neg _ l =>
    match denote h fuel l with
    | none => none
    | some val => some (evalNeg val)

/-- The guard-free denotation of the cell at `p` of sheet `i`: `Empty` for an absent cell. -/
def denoteCell {F : Type} [DoubleOps F] (h : Heap F) (i : Nat) (fuel : Nat) (p : CPos) :
    Option (CValue F) :=
  match (h.nodes i).find p with
  | none => some .empty
  | some n => denote h fuel n

/-- The reference graph of sheet `i` reachable from `p` is acyclic: no position reachable
from `p` lies on a cycle of references. -/
def AcyclicFrom {F : Type} (h : Heap F) (i : Nat) (p : CPos) : Prop :=
  ∀ q, Relation.ReflTransGen (RefEdge h i) p q → ¬ OnCycle h i q

/-- The diamond of the program's own test in small: `A1 = 10`, `B1 = A1 + 1`, `B2 = A1 * 2`,
`B3 = B1 + B2`. -/
def exampleDiamond : Heap Int :=
  [{ m_nodes := [(CPos.mk2 1 1, .value false (.num 10) "" false),
      (CPos.mk2 2 1, .binary true .add (.ref false (CPos.mk2 1 1) 0)
        (.value false (.num 1) "" false)),
      (CPos.mk2 2 2, .binary true .mul (.ref false (CPos.mk2 1 1) 0)
        (.value false (.num 2) "" false)),
      (CPos.mk2 2 3, .binary true .add (.ref false (CPos.mk2 2 1) 0)
        (.ref false (CPos.mk2 2 2) 0))] }]

/-- The coordinate pairs of the `CRefNode`s of a tree. -/
def CNode.refKeys {F : Type} : CNode F → List (Nat × Nat)
  | .value _ _ _ _ => []
  | .ref _ p _ => [p.key]
  | .binary _ _ l r => CNode.refKeys l ++ CNode.refKeys r
  | .neg _ l => CNode.refKeys l

/-! ## The range of positions -/

/-- The range of a position as the specification words it: `col ≥ 1` and `row ≥ 0`. -/
def CPos.inRange (p : CPos) : Bool :=
  decide (1 ≤ p.m_col) && decide (0 ≤ p.m_row)

/-- Every `CRefNode` of the tree holds a position in range. -/
def CNode.refsInRange {F : Type} : CNode F → Bool
  | .value _ _ _ _ => true
  | .ref _ p _ => p.inRange
  | .binary _ _ l r => CNode.refsInRange l && CNode.refsInRange r
  | .neg _ l => CNode.refsInRange l

/-- The offset `d` keeps the position in range and below `2 ^ 64`: a relative column `c` has
`1 ≤ c + d.1 < 2 ^ 64` and a relative row `r` has `0 ≤ r + d.2 < 2 ^ 64`, as integers. -/
def CPos.shiftOk (p : CPos) (d : Int × Int) : Bool :=
  (p.m_absCol ||
    (decide (1 ≤ (p.m_col : Int) + d.1) && decide ((p.m_col : Int) + d.1 < (SIZE_MOD : Int)))) &&
  (p.m_absRow ||
    (decide (0 ≤ (p.m_row : Int) + d.2) && decide ((p.m_row : Int) + d.2 < (SIZE_MOD : Int))))

/-- The offset `d` keeps every `CRefNode` of the tree in range. -/
def CNode.shiftOk {F : Type} (d : Int × Int) : CNode F → Bool
  | .value _ _ _ _ => true
  | .ref _ p _ => p.shiftOk d
  | .binary _ _ l r => CNode.shiftOk d l && CNode.shiftOk d r
  | .neg _ l => CNode.shiftOk d l

/-- Every position stored in the builder is in range: the keys of the cell map and the
positions of the `CRefNode`s in the cell map and on the operand stack. -/
def CMyExprBuilder.InRange {F : Type} (b : CMyExprBuilder F) : Prop :=
  (∀ n ∈ b.m_stack, n.refsInRange = true) ∧
    ∀ e ∈ b.m_nodes, e.1.inRange = true ∧ e.2.refsInRange = true

/-- The reference text of a `valReference` call is parsed to a position in range, if it is
parsed at all; every other call passes. -/
def Call.refInRange {F : Type} : Call F → Bool
  | .valReference val =>
    match CPos.ofString val with
    | .ok p => p.inRange
    | .error _ => true
  | _ => true

/-- The call `op` on a sheet with builder `b` leaves no position out of range: `setCell` is
called at a position in range and every reference text of the formula is parsed to a position
in range; `copyRect` has its destination rectangle in range and below `2 ^ 64` and its
offset keeps every reference of a source cell in range. -/
def opInRange {F : Type} (parser : Parser F) (b : CMyExprBuilder F) : SheetOp → Bool
  | .setCell pos contents => pos.inRange && (parser contents).calls.all Call.refInRange
  | .copyRect dst src w hgt =>
    dst.inRange && decide ((dst.m_col : Int) + w ≤ (SIZE_MOD : Int)) &&
      (rectCells w hgt).all fun xy =>
        match b.m_nodes.find (src.shift xy) with
        | some n => n.shiftOk (copyOffset dst src)
        | none => true

/-- Every call of the sequence leaves no position out of range, in the state in which it is
made. -/
def opsInRange {F : Type} [DoubleOps F] (parser : Parser F) (i : Nat) :
    Heap F → List SheetOp → Bool
  | _, [] => true
  | h, op :: ops =>
    opInRange parser (h.builder i) op &&
      match applyOp parser h i op with
      | some h1 => opsInRange parser i h1 ops
      | none => true

/-- The calls `parseExpression` makes on the formula `=A1`. -/
def exampleRefParser : Parser Int := fun contents =>
  if contents = "=A1" then { calls := [.valReference "A1"], accepted := true }
  else { calls := [], accepted := false }

/-- The sheet `exampleWrap` after `copyRect(B1, C1, 1, 1)`. -/
def exampleBelow : CMyExprBuilder Int :=
  { m_nodes := [(CPos.mk2 2 1, .ref true (CPos.mk2 0 1) 0),
      (CPos.mk2 3 1, .ref true (CPos.mk2 1 1) 0)] }

/-- The sheet `exampleWrap` after `copyRect(D2, C1, 1, 1)`. -/
def exampleShifted : CMyExprBuilder Int :=
  { m_nodes := [(CPos.mk2 3 1, .ref true (CPos.mk2 1 1) 0),
      (CPos.mk2 4 2, .ref true (CPos.mk2 2 2) 0)] }

/-! ## The formula mark -/

/-- Every node of the tree that is a child of another node has `m_expr = false`. -/
def CNode.childrenPlain {F : Type} : CNode F → Bool
  | .value _ _ _ _ => true
  | .ref _ _ _ => true
  | .binary _ _ l r =>
    !l.isExpr && CNode.childrenPlain l && !r.isExpr && CNode.childrenPlain r
  | .neg _ l => !l.isExpr && CNode.childrenPlain l

/-- The formula marks of a builder: no node on the operand stack is marked, and in every tree
on the stack and in the cell map no child node is marked. -/
def CMyExprBuilder.FormulaMarks {F : Type} (b : CMyExprBuilder F) : Prop :=
  (∀ n ∈ b.m_stack, n.isExpr = false ∧ n.childrenPlain = true) ∧
    ∀ e ∈ b.m_nodes, e.2.childrenPlain = true

/-- The builders reachable by builder calls, commits (`updateNodes`), literal sets
(`addCValNode`), `copyRect` and clones (copy constructor and `operator=`); the index is the
identity of the builder. -/
inductive Reachable {F : Type} : Nat → CMyExprBuilder F → Prop
  | empty (self : Nat) : Reachable self {}
  | call (self : Nat) (b b1 : CMyExprBuilder F) (c : Call F) :
    Reachable self b → b.call self c = .ok b1 → Reachable self b1
  | commit (self : Nat) (b b1 : CMyExprBuilder F) (pos : CPos) :
    Reachable self b → b.updateNodes pos = .ok b1 → Reachable self b1
  | literal (self : Nat) (b : CMyExprBuilder F) (pos : CPos) (val : CValue F) :
    Reachable self b → Reachable self (b.addCValNode pos val)
  | copyRect (self : Nat) (b b1 : CMyExprBuilder F) (dst src : CPos) (w hgt : Int) :
    Reachable self b → CSpreadsheet.copyRect self b dst src w hgt = .ok b1 → Reachable self b1
  | clone (self other : Nat) (b : CMyExprBuilder F) :
    Reachable other b → Reachable self (CMyExprBuilder.copy self b)
  | assign (self other : Nat) (this b : CMyExprBuilder F) :
    Reachable self this → Reachable other b → Reachable self (this.assignFrom self b)

/-- The sheet after the calls `valNumber(1)`, `valNumber(2)`, `opAdd()` and the commit at
`A1`. -/
def exampleSum : CMyExprBuilder Int :=
  { m_nodes := [(CPos.mk2 1 1, .binary true .add (.value false (.num 1) "" false)
      (.value false (.num 2) "" false))] }

/-- The sheet `x5` of the program's own test: `A1 = B1`, `B1 = C1`, `C1 = D1`, `D1 = E1`,
`E1 = C1`. -/
def exampleChain : Heap Int :=
  [{ m_nodes := [(CPos.mk2 1 1, .ref true (CPos.mk2 2 1) 0),
      (CPos.mk2 2 1, .ref true (CPos.mk2 3 1) 0),
      (CPos.mk2 3 1, .ref true (CPos.mk2 4 1) 0),
      (CPos.mk2 4 1, .ref true (CPos.mk2 5 1) 0),
      (CPos.mk2 5 1, .ref true (CPos.mk2 3 1) 0)] }]

/-! ## The frame of copyRect -/

/-- The position `k` lies in the rectangle `[dst.col, dst.col + w) x [dst.row, dst.row + h)`,
taken in the integers. -/
def inDstRect (dst : CPos) (w hgt : Int) (k : CPos) : Bool :=
  decide (dst.m_col ≤ k.m_col) && decide ((k.m_col : Int) < (dst.m_col : Int) + w) &&
    decide (dst.m_row ≤ k.m_row) && decide ((k.m_row : Int) < (dst.m_row : Int) + hgt)

/-- The frame of `copyRect` as the specification words it, for one call: when the call
completes, every position outside the destination rectangle holds the same tree as before, or
no cell as before. -/
def FrameLaw {F : Type} (self : Nat) (b : CMyExprBuilder F) (dst src : CPos) (w hgt : Int) :
    Prop :=
  ∀ b1, CSpreadsheet.copyRect self b dst src w hgt = .ok b1 →
    ∀ k : CPos, inDstRect dst w hgt k = false → b1.m_nodes.find k = b.m_nodes.find k

/-- A sheet with the numbers `1` at `A1` and `2` at `B1`. -/
def exampleEdge : CMyExprBuilder Int :=
  { m_nodes := [(CPos.mk2 1 1, .value false (.num 1) "" false),
      (CPos.mk2 2 1, .value false (.num 2) "" false)] }

/-- The coordinates of the position are values of `size_t`. -/
def CPos.isSizeT (p : CPos) : Bool :=
  decide (p.m_col < SIZE_MOD) && decide (p.m_row < SIZE_MOD)

/-- The coordinates of every `CRefNode` of the tree are values of `size_t`. -/
def CNode.refsSizeT {F : Type} : CNode F → Bool
  | .value _ _ _ _ => true
  | .ref _ p _ => p.isSizeT
  | .binary _ _ l r => CNode.refsSizeT l && CNode.refsSizeT r
  | .neg _ l => CNode.refsSizeT l

/-! # Lemmas and theorems

## Keys and maps -/

theorem CPos.equiv_iff (a b : CPos) : a.equiv b = true ↔ a.key = b.key := by
  simp only [CPos.equiv, CPos.lt, CPos.key, Bool.and_eq_true, Bool.not_eq_true', Bool.or_eq_false_iff,
    decide_eq_false_iff_not, Bool.and_eq_false_iff, Prod.mk.injEq]
  omega

theorem CPos.lt_not_equiv (a b : CPos) (h : a.lt b = true) : ¬ a.key = b.key := by
  simp only [CPos.lt, CPos.key, Bool.or_eq_true, Bool.and_eq_true, decide_eq_true_eq,
    Prod.mk.injEq] at *
  omega

theorem CPos.not_lt_not_lt (a b : CPos) (h1 : a.lt b = false) (h2 : b.lt a = false) :
    a.key = b.key := by
  rw [← CPos.equiv_iff]
  simp [CPos.equiv, h1, h2]

theorem Table.find_cons {F : Type} (k1 : CPos) (n : CNode F) (rest : Table F) (k : CPos) :
    Table.find ((k1, n) :: rest) k = if k1.key = k.key then some n else Table.find rest k := by
  by_cases hk : k1.key = k.key
  · have := (CPos.equiv_iff k1 k).2 hk
    simp [Table.find, this, hk]
  · have : k1.equiv k = false := by
      rw [← Bool.not_eq_true, CPos.equiv_iff]; exact hk
    simp [Table.find, this, hk]

theorem Table.find_assign {F : Type} (t : Table F) (k : CPos) (n : CNode F) (k2 : CPos) :
    (t.assign k n).find k2 = if k.key = k2.key then some n else t.find k2 := by
  induction t with
  | nil => rw [Table.assign, Table.find_cons]
  | cons e rest ih =>
    obtain ⟨k1, n1⟩ := e
    rw [Table.assign]
    cases h1 : k.lt k1 with
    | true => rw [if_pos rfl, Table.find_cons]
    | false =>
      rw [if_neg (by simp)]
      cases h2 : k1.lt k with
      | true =>
        have hne := CPos.lt_not_equiv k1 k h2
        rw [if_pos rfl, Table.find_cons, ih, Table.find_cons]
        by_cases h3 : k.key = k2.key
        · have : ¬ k1.key = k2.key := fun h4 => hne (h4.trans h3.symm)
          simp [this, h3]
        · simp [h3]
      | false =>
        have heq := CPos.not_lt_not_lt k k1 h1 h2
        rw [if_neg (by simp), Table.find_cons, Table.find_cons, heq]
        by_cases h3 : k1.key = k2.key
        · rw [if_pos h3, if_pos h3]
        · rw [if_neg h3, if_neg h3, if_neg h3]

theorem evaluate_succ {F : Type} [DoubleOps F] (h : Heap F) (fuel : Nat) :
    ∀ (n : CNode F) (V : Finset (Nat × Nat)) (r : CValue F × Finset (Nat × Nat)),
      evaluate h fuel n V = some r → evaluate h (fuel + 1) n V = some r := by
  induction fuel with
  | zero => intro n V r he; simp [evaluate] at he
  | succ fuel ih =>
    intro n V r he
    cases n with
    | value e val s x => simpa [evaluate] using he
    | ref e pos m =>
      rw [evaluate] at he ⊢
      cases hf : (h.nodes m).find pos with
      | none => rw [hf] at he; exact he
      | some target =>
        rw [hf] at he
        simp only at he ⊢
        by_cases hin : pos.key ∈ V
        · rw [if_pos hin] at he ⊢; exact he
        · rw [if_neg hin] at he ⊢
          cases hev : evaluate h fuel target (insert pos.key V) with
          | none => rw [hev] at he; simp at he
          | some r1 =>
            rw [hev] at he
            rw [ih _ _ _ hev]
            exact he
    | binary e op l r1 =>
      rw [evaluate] at he ⊢
      cases hl : evaluate h fuel l V with
      | none => rw [hl] at he; simp at he
      | some rl =>
        rw [hl] at he
        rw [ih _ _ _ hl]
        obtain ⟨val1, visited1⟩ := rl
        simp only at he ⊢
        cases hr : evaluate h fuel r1 visited1 with
        | none => rw [hr] at he; simp at he
        | some rr =>
          rw [hr] at he
          rw [ih _ _ _ hr]
          exact he
    | neg e l =>
      rw [evaluate] at he ⊢
      cases hl : evaluate h fuel l V with
      | none => rw [hl] at he; simp at he
      | some rl =>
        rw [hl] at he
        rw [ih _ _ _ hl]
        exact he

theorem evaluate_mono {F : Type} [DoubleOps F] (h : Heap F) (fuel fuel1 : Nat) (n : CNode F)
    (V : Finset (Nat × Nat)) (r : CValue F × Finset (Nat × Nat)) (hle : fuel ≤ fuel1)
    (he : evaluate h fuel n V = some r) : evaluate h fuel1 n V = some r := by
  induction hle with
  | refl => exact he
  | step _ ih => exact evaluate_succ h _ n V r ih

theorem Table.find_assign_self {F : Type} (t : Table F) (k : CPos) (n : CNode F) :
    (t.assign k n).find k = some n := by
  simp [Table.find_assign]

theorem Table.find_assign_ne {F : Type} (t : Table F) (k : CPos) (n : CNode F) (k2 : CPos)
    (hne : k.key ≠ k2.key) : (t.assign k n).find k2 = t.find k2 := by
  simp [Table.find_assign, hne]

theorem Table.find_congr {F : Type} (t : Table F) (a b : CPos) (hab : a.key = b.key) :
    t.find a = t.find b := by
  induction t with
  | nil => rfl
  | cons e rest ih =>
    obtain ⟨k1, n⟩ := e
    rw [Table.find_cons, Table.find_cons, ih, hab]

theorem Table.find_some_bounds {F : Type} (t : Table F) (k : CPos) (n : CNode F)
    (hf : t.find k = some n) : n.height ≤ t.maxHeight ∧ k.key ∈ t.keys := by
  induction t with
  | nil => simp [Table.find] at hf
  | cons e rest ih =>
    obtain ⟨k1, n1⟩ := e
    rw [Table.find_cons] at hf
    by_cases hk : k1.key = k.key
    · simp only [hk, if_true, Option.some.injEq] at hf
      subst hf
      simp [Table.maxHeight, Table.keys, hk]
    · simp only [hk, if_false] at hf
      have := ih hf
      simp only [Table.maxHeight, Table.keys, Finset.mem_insert]
      exact ⟨le_trans this.1 (le_max_right _ _), Or.inr this.2⟩

theorem Heap.nodes_bounds {F : Type} (h : Heap F) (i : Nat) :
    (h.nodes i).maxHeight ≤ h.maxHeight ∧ (h.nodes i).keys ⊆ h.keys := by
  induction h generalizing i with
  | nil => simp [Heap.nodes, Heap.builder, Table.maxHeight, Table.keys]
  | cons b rest ih =>
    cases i with
    | zero =>
      simp only [Heap.nodes, Heap.builder, List.getElem?_cons_zero, Heap.maxHeight, Heap.keys]
      exact ⟨le_max_left _ _, Finset.subset_union_left⟩
    | succ j =>
      have := ih j
      simp only [Heap.nodes, Heap.builder, List.getElem?_cons_succ, Heap.maxHeight,
        Heap.keys] at this ⊢
      exact ⟨le_trans this.1 (le_max_right _ _), this.2.trans Finset.subset_union_right⟩

theorem evalBinary_empty_left {F : Type} [DoubleOps F] (op : BinOp) (v : CValue F) :
    evalBinary op .empty v = .empty := by
  cases op <;> cases v <;> rfl

theorem evalBinary_empty_right {F : Type} [DoubleOps F] (op : BinOp) (v : CValue F) :
    evalBinary op v .empty = .empty := by
  cases op <;> cases v <;> rfl

theorem evaluate_visited {F : Type} [DoubleOps F] (h : Heap F) (fuel : Nat) :
    ∀ (n : CNode F) (V : Finset (Nat × Nat)) (v : CValue F) (V1 : Finset (Nat × Nat)),
      evaluate h fuel n V = some (v, V1) → V1 = V := by
  induction fuel with
  | zero => intro n V v V1 he; simp [evaluate] at he
  | succ fuel ih =>
    intro n V v V1 he
    cases n with
    | value e val s x =>
      simp only [evaluate, Option.some.injEq, Prod.mk.injEq] at he
      exact he.2.symm
    | ref e pos m =>
      rw [evaluate] at he
      cases hf : (h.nodes m).find pos with
      | none =>
        rw [hf] at he
        simp only [Option.some.injEq, Prod.mk.injEq] at he; exact he.2.symm
      | some target =>
        rw [hf] at he
        simp only at he
        by_cases hin : pos.key ∈ V
        · rw [if_pos hin] at he
          simp only [Option.some.injEq, Prod.mk.injEq] at he; exact he.2.symm
        · rw [if_neg hin] at he
          cases hev : evaluate h fuel target (insert pos.key V) with
          | none => rw [hev] at he; simp at he
          | some r1 =>
            obtain ⟨result, visited1⟩ := r1
            rw [hev] at he
            simp only [Option.some.injEq, Prod.mk.injEq] at he
            have := ih _ _ _ _ hev
            rw [← he.2, this, Finset.erase_insert hin]
    | binary e op l r =>
      rw [evaluate] at he
      cases hl : evaluate h fuel l V with
      | none => rw [hl] at he; simp at he
      | some rl =>
        obtain ⟨val1, visited1⟩ := rl
        rw [hl] at he
        simp only at he
        cases hr : evaluate h fuel r visited1 with
        | none => rw [hr] at he; simp at he
        | some rr =>
          obtain ⟨val2, visited2⟩ := rr
          rw [hr] at he
          simp only [Option.some.injEq, Prod.mk.injEq] at he
          have h1 := ih _ _ _ _ hl
          have h2 := ih _ _ _ _ hr
          rw [← he.2, h2, h1]
    | neg e l =>
      rw [evaluate] at he
      cases hl : evaluate h fuel l V with
      | none => rw [hl] at he; simp at he
      | some rl =>
        obtain ⟨val1, visited1⟩ := rl
        rw [hl] at he
        simp only [Option.some.injEq, Prod.mk.injEq] at he
        rw [← he.2, ih _ _ _ _ hl]

theorem evaluate_terminates {F : Type} [DoubleOps F] (h : Heap F) (fuel : Nat) :
    ∀ (n : CNode F) (V : Finset (Nat × Nat)),
      n.height + (h.keys \ V).card * (h.maxHeight + 1) ≤ fuel →
      ∃ v, evaluate h fuel n V = some (v, V) := by
  induction fuel with
  | zero =>
    intro n V hb
    cases n <;> simp [CNode.height] at hb
  | succ fuel ih =>
    intro n V hb
    cases n with
    | value e val s x => exact ⟨val, rfl⟩
    | ref e pos m =>
      rw [evaluate]
      cases hf : (h.nodes m).find pos with
      | none => exact ⟨_, rfl⟩
      | some target =>
        simp only
        by_cases hin : pos.key ∈ V
        · rw [if_pos hin]; exact ⟨_, rfl⟩
        · rw [if_neg hin]
          have hb1 := Table.find_some_bounds _ _ _ hf
          have hb2 := Heap.nodes_bounds h m
          have hmem : pos.key ∈ h.keys \ V := by
            rw [Finset.mem_sdiff]; exact ⟨hb2.2 hb1.2, hin⟩
          have hcard : (h.keys \ insert pos.key V).card + 1 = (h.keys \ V).card := by
            rw [Finset.sdiff_insert, Finset.card_erase_of_mem hmem]
            have := Finset.card_pos.2 ⟨_, hmem⟩
            omega
          have hfuel : target.height + (h.keys \ insert pos.key V).card * (h.maxHeight + 1)
              ≤ fuel := by
            have h1 : target.height ≤ h.maxHeight := le_trans hb1.1 hb2.1
            simp only [CNode.height] at hb
            rw [← hcard, Nat.add_mul] at hb
            omega
          obtain ⟨v, hv⟩ := ih target (insert pos.key V) hfuel
          rw [hv]
          exact ⟨v, by simp [Finset.erase_insert hin]⟩
    | binary e op l r =>
      simp only [CNode.height] at hb
      obtain ⟨v1, hv1⟩ := ih l V (by have := le_max_left l.height r.height; omega)
      obtain ⟨v2, hv2⟩ := ih r V (by have := le_max_right l.height r.height; omega)
      rw [evaluate, hv1]
      simp only
      rw [hv2]
      exact ⟨_, rfl⟩
    | neg e l =>
      simp only [CNode.height] at hb
      obtain ⟨v1, hv1⟩ := ih l V (by omega)
      rw [evaluate, hv1]
      exact ⟨_, rfl⟩

/-! ## Cycles and termination -/

theorem evalNeg_empty {F : Type} [DoubleOps F] : evalNeg (.empty : CValue F) = .empty := rfl

/-- A tree that contains a reference evaluating to `Empty` evaluates to `Empty`. -/
theorem evaluate_hasRef_empty {F : Type} [DoubleOps F] (h : Heap F) (k : Nat × Nat) (m : Nat)
    (V : Finset (Nat × Nat))
    (href : ∀ (fuel : Nat) (e : Bool) (p : CPos) (v : CValue F) (V1 : Finset (Nat × Nat)),
      p.key = k → evaluate h fuel (.ref e p m) V = some (v, V1) → v = .empty)
    (fuel : Nat) :
    ∀ (n : CNode F) (v : CValue F) (V1 : Finset (Nat × Nat)),
      evaluate h fuel n V = some (v, V1) → n.hasRef k m = true → v = .empty := by
  induction fuel with
  | zero => intro n v V1 he; simp [evaluate] at he
  | succ fuel ih =>
    intro n v V1 he hr
    cases n with
    | value e val s x => simp [CNode.hasRef] at hr
    | ref e pos m1 =>
      simp only [CNode.hasRef, Bool.and_eq_true, decide_eq_true_eq] at hr
      obtain ⟨hk, hm⟩ := hr
      subst hm
      exact href _ e pos v V1 hk he
    | binary e op l r =>
      rw [evaluate] at he
      cases hl : evaluate h fuel l V with
      | none => rw [hl] at he; simp at he
      | some rl =>
        obtain ⟨val1, visited1⟩ := rl
        rw [hl] at he
        simp only at he
        have hV := evaluate_visited h fuel _ _ _ _ hl
        subst hV
        cases hr2 : evaluate h fuel r visited1 with
        | none => rw [hr2] at he; simp at he
        | some rr =>
          obtain ⟨val2, visited2⟩ := rr
          rw [hr2] at he
          simp only [Option.some.injEq, Prod.mk.injEq] at he
          simp only [CNode.hasRef, Bool.or_eq_true] at hr
          rcases hr with hr | hr
          · have := ih _ _ _ hl hr
            rw [← he.1, this, evalBinary_empty_left]
          · have := ih _ _ _ hr2 hr
            rw [← he.1, this, evalBinary_empty_right]
    | neg e l =>
      rw [evaluate] at he
      cases hl : evaluate h fuel l V with
      | none => rw [hl] at he; simp at he
      | some rl =>
        obtain ⟨val1, visited1⟩ := rl
        rw [hl] at he
        simp only [Option.some.injEq, Prod.mk.injEq] at he
        simp only [CNode.hasRef] at hr
        have := ih _ _ _ hl hr
        rw [← he.1, this, evalNeg_empty]

/-- A reference to a cell from which a visited position can be reached evaluates to `Empty`. -/
theorem evaluate_ref_path_empty {F : Type} [DoubleOps F] (h : Heap F) (i : Nat) (q p : CPos)
    (hpath : Relation.ReflTransGen (RefEdge h i) q p) :
    ∀ (V : Finset (Nat × Nat)), p.key ∈ V →
      ∀ (fuel : Nat) (e : Bool) (q1 : CPos) (v : CValue F) (V1 : Finset (Nat × Nat)),
        q1.key = q.key → evaluate h fuel (.ref e q1 i) V = some (v, V1) → v = .empty := by
  induction hpath using Relation.ReflTransGen.head_induction_on with
  | refl =>
    intro V hp fuel e q1 v V1 hq he
    cases fuel with
    | zero => simp [evaluate] at he
    | succ fuel =>
      rw [evaluate] at he
      cases hf : (h.nodes i).find q1 with
      | none => rw [hf] at he; simp only [Option.some.injEq, Prod.mk.injEq] at he; exact he.1.symm
      | some target =>
        rw [hf] at he
        simp only at he
        rw [if_pos (by rw [hq]; exact hp)] at he
        simp only [Option.some.injEq, Prod.mk.injEq] at he; exact he.1.symm
  | @head a c hedge _ ih =>
    intro V hp fuel e q1 v V1 hq he
    obtain ⟨n, hfind, href⟩ := hedge
    cases fuel with
    | zero => simp [evaluate] at he
    | succ fuel =>
      rw [evaluate, Table.find_congr _ q1 a hq, hfind] at he
      simp only at he
      by_cases hin : q1.key ∈ V
      · rw [if_pos hin] at he
        simp only [Option.some.injEq, Prod.mk.injEq] at he; exact he.1.symm
      · rw [if_neg hin] at he
        cases hev : evaluate h fuel n (insert q1.key V) with
        | none => rw [hev] at he; simp at he
        | some r1 =>
          obtain ⟨result, visited1⟩ := r1
          rw [hev] at he
          simp only [Option.some.injEq, Prod.mk.injEq] at he
          rw [← he.1]
          refine evaluate_hasRef_empty h c.key i (insert q1.key V) ?_ fuel n result visited1 hev href
          intro fuel1 e1 p1 v1 V2 hk he1
          exact ih (insert q1.key V) (Finset.mem_insert_of_mem hp) fuel1 e1 p1 v1 V2 hk he1

theorem Heap.fuelBound_enough {F : Type} (h : Heap F) (i : Nat) (pos : CPos) (n : CNode F)
    (hf : (h.nodes i).find pos = some n) (V : Finset (Nat × Nat)) :
    n.height + (h.keys \ V).card * (h.maxHeight + 1) ≤ h.fuelBound := by
  have hb1 := Table.find_some_bounds _ _ _ hf
  have hb2 := Heap.nodes_bounds h i
  have h1 : n.height ≤ h.maxHeight := le_trans hb1.1 hb2.1
  have h2 : (h.keys \ V).card ≤ h.keys.card := Finset.card_le_card Finset.sdiff_subset
  have h3 := Nat.mul_le_mul_right (h.maxHeight + 1) h2
  simp only [Heap.fuelBound, Nat.add_mul, Nat.one_mul]
  omega

theorem getValueFuel_of_find {F : Type} [DoubleOps F] (h : Heap F) (i : Nat) (fuel : Nat)
    (pos : CPos) (n : CNode F) (hf : (h.nodes i).find pos = some n) :
    CSpreadsheet.getValueFuel h i fuel pos =
      (evaluate h fuel n {pos.key}).map fun r => Except.ok r.1 := by
  have hf1 : (h.builder i).m_nodes.find pos = some n := hf
  simp only [CSpreadsheet.getValueFuel, CMyExprBuilder.nodeExists, hf1, Option.isSome_some,
    Bool.not_true, CMyExprBuilder.getVal, hf]
  cases evaluate h fuel n {pos.key} with
  | none => rfl
  | some r => rfl

theorem getValueFuel_of_find_none {F : Type} [DoubleOps F] (h : Heap F) (i : Nat) (fuel : Nat)
    (pos : CPos) (hf : (h.nodes i).find pos = none) :
    CSpreadsheet.getValueFuel h i fuel pos = some (.ok .empty) := by
  have hf1 : (h.builder i).m_nodes.find pos = none := hf
  simp [CSpreadsheet.getValueFuel, CMyExprBuilder.nodeExists, hf1]

/-- Method `getValue` returns a value, the same for every recursion bound from `fuelBound` on. -/
theorem getValueFuel_total {F : Type} [DoubleOps F] (h : Heap F) (i : Nat) (p : CPos) :
    ∃ v : CValue F, CSpreadsheet.getValue h i p = some (.ok v) ∧
      ∀ fuel, h.fuelBound ≤ fuel → CSpreadsheet.getValueFuel h i fuel p = some (.ok v) := by
  cases hf : (h.nodes i).find p with
  | none =>
    exact ⟨.empty, getValueFuel_of_find_none h i _ p hf,
      fun fuel _ => getValueFuel_of_find_none h i fuel p hf⟩
  | some n =>
    obtain ⟨v, hv⟩ := evaluate_terminates h h.fuelBound n {p.key}
      (Heap.fuelBound_enough h i p n hf _)
    refine ⟨v, ?_, ?_⟩
    · rw [CSpreadsheet.getValue, getValueFuel_of_find h i _ p n hf, hv]; rfl
    · intro fuel hle
      rw [getValueFuel_of_find h i _ p n hf, evaluate_mono h _ fuel n _ _ hle hv]; rfl

/-- C5. Termination of evaluation: for every heap of sheets (cyclic ones included), every
sheet `i` and every position `p`, `getValue` returns a value (the recursion bound is not
reached and no exception leaves it), and the same value is returned for every recursion bound
from `fuelBound = (number of keys + 1) * (largest tree height + 1)` on. -/
theorem getValue_terminates {F : Type} [DoubleOps F] (h : Heap F) (i : Nat) (p : CPos) :
    ∃ v : CValue F, CSpreadsheet.getValue h i p = some (.ok v) ∧
      ∀ fuel, h.fuelBound ≤ fuel → CSpreadsheet.getValueFuel h i fuel p = some (.ok v) :=
  getValueFuel_total h i p

/-- C1. Cycle to Empty: if position `p` of sheet `i` lies on a cycle of references (a chain
of one or more reference edges between existing cells leads from `p` back to `p`; a
self-reference counts), then `getValue(p)` is `Empty`. -/
theorem cycle_to_empty {F : Type} [DoubleOps F] (h : Heap F) (i : Nat) (p : CPos)
    (hcyc : OnCycle h i p) : CSpreadsheet.getValue h i p = some (.ok .empty) := by
  obtain ⟨c, ⟨n, hfind, href⟩, hpath⟩ := Relation.TransGen.head'_iff.1 hcyc
  obtain ⟨v, hv⟩ := evaluate_terminates h h.fuelBound n {p.key}
    (Heap.fuelBound_enough h i p n hfind _)
  have hempty : v = .empty := by
    refine evaluate_hasRef_empty h c.key i {p.key} ?_ h.fuelBound n v _ hv href
    intro fuel1 e1 p1 v1 V2 hk he1
    exact evaluate_ref_path_empty h i c p hpath {p.key} (Finset.mem_singleton_self _)
      fuel1 e1 p1 v1 V2 hk he1
  rw [CSpreadsheet.getValue, getValueFuel_of_find h i _ p n hfind, hv, hempty]; rfl

/-! ## copyRect -/

theorem CNode.clone_clone {F : Type} (m : Nat) (n : CNode F) :
    (n.clone m).clone m = n.clone m := by
  induction n with
  | value e v s x => rfl
  | ref e p m1 => rfl
  | binary e op l r ihl ihr => simp [CNode.clone, ihl, ihr]
  | neg e l ih => simp [CNode.clone, ih]

theorem CNode.clone_of_boundTo {F : Type} (m : Nat) (n : CNode F) (hb : n.boundTo m = true) :
    n.clone m = n := by
  induction n with
  | value e v s x => rfl
  | ref e p m1 =>
    simp only [CNode.boundTo, decide_eq_true_eq] at hb
    simp [CNode.clone, hb]
  | binary e op l r ihl ihr =>
    simp only [CNode.boundTo, Bool.and_eq_true] at hb
    simp [CNode.clone, ihl hb.1, ihr hb.2]
  | neg e l ih =>
    simp only [CNode.boundTo] at hb
    simp [CNode.clone, ih hb]

theorem cloneSourceLoop_snapshot {F : Type} (self : Nat) (b : CMyExprBuilder F) (src : CPos)
    (cells : List (Nat × Nat)) :
    ∀ tmp : Table F, SnapshotOf self b tmp →
      SnapshotOf self b (cloneSourceLoop self b src cells tmp) := by
  induction cells with
  | nil => intro tmp ht; exact ht
  | cons xy rest ih =>
    intro tmp ht
    rw [cloneSourceLoop]
    cases hf : b.m_nodes.find (src.shift xy) with
    | none => exact ih tmp ht
    | some n =>
      refine ih _ ?_
      intro k n1 hk
      rw [Table.find_assign] at hk
      by_cases heq : (src.shift xy).key = k.key
      · rw [if_pos heq] at hk
        refine ⟨n, ?_, (Option.some.inj hk).symm⟩
        rw [← Table.find_congr _ _ _ heq]; exact hf
      · rw [if_neg heq] at hk
        exact ht k n1 hk

theorem cloneSourceLoop_keeps {F : Type} (self : Nat) (b : CMyExprBuilder F) (src : CPos)
    (cells : List (Nat × Nat)) :
    ∀ (tmp : Table F), SnapshotOf self b tmp → ∀ (k : CPos) (n1 : CNode F),
      tmp.find k = some n1 → (cloneSourceLoop self b src cells tmp).find k = some n1 := by
  induction cells with
  | nil => intro tmp _ k n1 hk; exact hk
  | cons xy rest ih =>
    intro tmp ht k n1 hk
    rw [cloneSourceLoop]
    cases hf : b.m_nodes.find (src.shift xy) with
    | none => exact ih tmp ht k n1 hk
    | some n =>
      have hsnap : SnapshotOf self b (tmp.assign (src.shift xy) (n.clone self)) := by
        have := cloneSourceLoop_snapshot self b src [xy] tmp ht
        simpa [cloneSourceLoop, hf] using this
      refine ih _ hsnap k n1 ?_
      rw [Table.find_assign]
      by_cases heq : (src.shift xy).key = k.key
      · rw [if_pos heq]
        obtain ⟨n0, hn0, hn1⟩ := ht k n1 hk
        rw [Table.find_congr _ _ _ heq, hn0] at hf
        rw [hn1, Option.some.inj hf]
      · rw [if_neg heq]; exact hk

theorem cloneSourceLoop_find {F : Type} (self : Nat) (b : CMyExprBuilder F) (src : CPos)
    (cells : List (Nat × Nat)) :
    ∀ (tmp : Table F), SnapshotOf self b tmp → ∀ (xy : Nat × Nat) (n : CNode F),
      xy ∈ cells → b.m_nodes.find (src.shift xy) = some n →
      (cloneSourceLoop self b src cells tmp).find (src.shift xy) = some (n.clone self) := by
  induction cells with
  | nil => intro tmp _ xy n hmem; simp at hmem
  | cons xy0 rest ih =>
    intro tmp ht xy n hmem hf
    rw [cloneSourceLoop]
    rcases List.mem_cons.1 hmem with heq | hrest
    · subst heq
      rw [hf]
      simp only
      have hsnap : SnapshotOf self b (tmp.assign (src.shift xy) (n.clone self)) := by
        have := cloneSourceLoop_snapshot self b src [xy] tmp ht
        simpa [cloneSourceLoop, hf] using this
      exact cloneSourceLoop_keeps self b src rest _ hsnap _ _ (Table.find_assign_self _ _ _)
    · cases hf0 : b.m_nodes.find (src.shift xy0) with
      | none => exact ih tmp ht xy n hrest hf
      | some n0 =>
        have hsnap : SnapshotOf self b (tmp.assign (src.shift xy0) (n0.clone self)) := by
          have := cloneSourceLoop_snapshot self b src [xy0] tmp ht
          simpa [cloneSourceLoop, hf0] using this
        exact ih _ hsnap xy n hrest hf

theorem snapshotOf_nil {F : Type} (self : Nat) (b : CMyExprBuilder F) :
    SnapshotOf self b ([] : Table F) := by
  intro k n1 hk
  simp [Table.find] at hk

/-- One step of the loop of `copyRect` that copies: what the two builder calls produce. -/
theorem copy_step {F : Type} (self : Nat) (b : CMyExprBuilder F) (d : CPos) (n1 : CNode F)
    (offset : Int × Int) :
    ∃ b2 : CMyExprBuilder F,
      (match b.addNode self d (some n1) with
        | Except.error e => Except.error e
        | Except.ok b1 => b1.callUpdateRef d offset) = Except.ok b2 ∧
      b2.m_stack = b.m_stack ∧
      ∀ k : CPos, b2.m_nodes.find k =
        if d.key = k.key then some ((n1.clone self).updateRef offset) else b.m_nodes.find k := by
  refine ⟨⟨b.m_stack, Table.assign (Table.assign b.m_nodes d (n1.clone self)) d
      ((n1.clone self).updateRef offset)⟩, ?_, rfl, ?_⟩
  · simp [CMyExprBuilder.addNode, CMyExprBuilder.callUpdateRef, Table.update,
      Table.find_assign_self]
  · intro k
    simp only [Table.find_assign]
    by_cases hk : d.key = k.key <;> simp [hk]

/-- The state of the loop of `copyRect` after it has run to completion over `cells`. -/
theorem copyRectLoop_spec {F : Type} (self : Nat) (b : CMyExprBuilder F) (dst src : CPos)
    (offset : Int × Int) (tmp : Table F) (htmp : SnapshotOf self b tmp)
    (cells : List (Nat × Nat)) :
    ∀ (b0 b1 : CMyExprBuilder F),
      (cells.map fun xy => (dst.shift xy).key).Nodup →
      (∀ k n, b.m_nodes.find k = some n → (b0.m_nodes.find k).isSome = true) →
      copyRectLoop self dst src offset tmp cells b0 = .ok b1 →
      b1.m_stack = b0.m_stack ∧
      (∀ k n, b.m_nodes.find k = some n → (b1.m_nodes.find k).isSome = true) ∧
      (∀ xy ∈ cells, ∀ n, b.m_nodes.find (src.shift xy) = some n →
        b1.m_nodes.find (dst.shift xy) = some ((n.clone self).updateRef offset)) ∧
      (∀ xy ∈ cells, b.m_nodes.find (src.shift xy) = none →
        b1.m_nodes.find (dst.shift xy) = b0.m_nodes.find (dst.shift xy)) ∧
      (∀ k : CPos, (∀ xy ∈ cells, (dst.shift xy).key ≠ k.key) →
        b1.m_nodes.find k = b0.m_nodes.find k) := by
  induction cells with
  | nil =>
    intro b0 b1 _ hext hrun
    simp only [copyRectLoop, Except.ok.injEq] at hrun
    subst hrun
    exact ⟨rfl, hext, by simp, by simp, fun _ _ => rfl⟩
  | cons xy0 rest ih =>
    intro b0 b1 hnd hext hrun
    rw [List.map_cons, List.nodup_cons] at hnd
    obtain ⟨hnot, hnd⟩ := hnd
    have hfresh : ∀ xy ∈ rest, (dst.shift xy).key ≠ (dst.shift xy0).key := by
      intro xy hxy heq
      exact hnot (heq ▸ List.mem_map_of_mem (fun xy => (dst.shift xy).key) hxy)
    rw [copyRectLoop] at hrun
    cases hex : b0.nodeExists (src.shift xy0) with
    | false =>
      rw [hex] at hrun
      simp only [Bool.false_eq_true, if_false] at hrun
      have hsrc : b.m_nodes.find (src.shift xy0) = none := by
        cases hf : b.m_nodes.find (src.shift xy0) with
        | none => rfl
        | some n =>
          have := hext _ _ hf
          simp only [CMyExprBuilder.nodeExists] at hex
          rw [hex] at this
          exact absurd this (by simp)
      obtain ⟨hst, hext1, hcopy, hhole, hframe⟩ := ih b0 b1 hnd hext hrun
      refine ⟨hst, hext1, ?_, ?_, ?_⟩
      · intro xy hxy n hf
        rcases List.mem_cons.1 hxy with heq | hrest
        · subst heq; rw [hsrc] at hf; exact absurd hf (by simp)
        · exact hcopy xy hrest n hf
      · intro xy hxy hf
        rcases List.mem_cons.1 hxy with heq | hrest
        · subst heq
          exact hframe _ (fun xy1 h1 => hfresh xy1 h1)
        · exact hhole xy hrest hf
      · intro k hk
        exact hframe k (fun xy1 h1 => hk xy1 (List.mem_cons_of_mem _ h1))
    | true =>
      rw [hex] at hrun
      simp only [if_true] at hrun
      cases htf : tmp.find (src.shift xy0) with
      | none =>
        rw [htf] at hrun
        simp [CMyExprBuilder.addNode] at hrun
      | some n1 =>
        rw [htf] at hrun
        obtain ⟨n0, hn0, hn1⟩ := htmp _ _ htf
        obtain ⟨b2, hstep, hst2, hfind2⟩ := copy_step self b0 (dst.shift xy0) n1 offset
        have hrun2 : copyRectLoop self dst src offset tmp rest b2 = .ok b1 := by
          revert hstep hrun
          cases b0.addNode self (dst.shift xy0) (some n1) with
          | error e => intro hstep; simp at hstep
          | ok b1a =>
            simp only
            intro hrun hstep
            rw [hstep] at hrun
            exact hrun
        have hext2 : ∀ k n, b.m_nodes.find k = some n → (b2.m_nodes.find k).isSome = true := by
          intro k n hf
          rw [hfind2]
          by_cases hk : (dst.shift xy0).key = k.key
          · rw [if_pos hk]; rfl
          · rw [if_neg hk]; exact hext k n hf
        obtain ⟨hst, hext1, hcopy, hhole, hframe⟩ := ih b2 b1 hnd hext2 hrun2
        refine ⟨hst.trans hst2, hext1, ?_, ?_, ?_⟩
        · intro xy hxy n hf
          rcases List.mem_cons.1 hxy with heq | hrest
          · subst heq
            rw [hframe _ (fun xy1 h1 => hfresh xy1 h1), hfind2, if_pos rfl, hn1]
            rw [hn0] at hf
            rw [Option.some.inj hf, CNode.clone_clone]
          · exact hcopy xy hrest n hf
        · intro xy hxy hf
          rcases List.mem_cons.1 hxy with heq | hrest
          · subst heq; rw [hn0] at hf; exact absurd hf (by simp)
          · rw [hhole xy hrest hf, hfind2, if_neg (fun h => hfresh xy hrest h.symm)]
        · intro k hk
          rw [hframe k (fun xy1 h1 => hk xy1 (List.mem_cons_of_mem _ h1)), hfind2,
            if_neg (hk xy0 (List.mem_cons_self _ _))]

theorem mem_rectCells (w hgt : Int) (x y : Nat) :
    (x, y) ∈ rectCells w hgt ↔ x < w.toNat ∧ y < hgt.toNat := by
  simp only [rectCells, List.mem_flatMap, List.mem_map, List.mem_range, Prod.mk.injEq]
  constructor
  · rintro ⟨y1, hy1, x1, hx1, rfl, rfl⟩; exact ⟨hx1, hy1⟩
  · rintro ⟨hx, hy⟩; exact ⟨y, hy, x, hx, rfl, rfl⟩

theorem nodup_rectCells (w hgt : Int) : (rectCells w hgt).Nodup := by
  rw [rectCells, List.nodup_flatMap]
  refine ⟨fun y _ => ?_, ?_⟩
  · exact (List.nodup_range _).map (fun a b hab => (Prod.mk.inj hab).1)
  · refine (List.nodup_range _).imp ?_
    intro a b hab
    simp only [Function.onFun, List.Disjoint, List.mem_map, List.mem_range]
    rintro ⟨x1, y1⟩ ⟨x2, _, h2⟩ ⟨x3, _, h3⟩
    exact hab ((Prod.mk.inj h2).2.trans (Prod.mk.inj h3).2.symm)

theorem shift_key_inj (p : CPos) (xy1 xy2 : Nat × Nat) (h1 : xy1.1 < SIZE_MOD)
    (h1y : xy1.2 < SIZE_MOD) (h2 : xy2.1 < SIZE_MOD) (h2y : xy2.2 < SIZE_MOD)
    (heq : (p.shift xy1).key = (p.shift xy2).key) : xy1 = xy2 := by
  obtain ⟨x1, y1⟩ := xy1
  obtain ⟨x2, y2⟩ := xy2
  simp only [CPos.shift, CPos.mk2, CPos.key, CPos.getCol, CPos.getRow, Prod.mk.injEq] at heq ⊢
  simp only at h1 h1y h2 h2y
  obtain ⟨hc, hr⟩ := heq
  have hpos : 0 < SIZE_MOD := by decide
  constructor
  · have := Nat.ModEq.add_left_cancel' p.m_col hc
    rw [Nat.ModEq, Nat.mod_eq_of_lt h1, Nat.mod_eq_of_lt h2] at this
    exact this
  · have := Nat.ModEq.add_left_cancel' p.m_row hr
    rw [Nat.ModEq, Nat.mod_eq_of_lt h1y, Nat.mod_eq_of_lt h2y] at this
    exact this

theorem nodup_shift_rectCells (p : CPos) (w hgt : Int) (hw : w < 2 ^ 31) (hh : hgt < 2 ^ 31) :
    ((rectCells w hgt).map fun xy => (p.shift xy).key).Nodup := by
  have hM : (2 : Nat) ^ 31 ≤ SIZE_MOD := by decide
  refine List.Nodup.map_on ?_ (nodup_rectCells w hgt)
  rintro ⟨x1, y1⟩ h1 ⟨x2, y2⟩ h2 heq
  rw [mem_rectCells] at h1 h2
  have hw1 : w.toNat < 2 ^ 31 := by omega
  have hh1 : hgt.toNat < 2 ^ 31 := by omega
  exact shift_key_inj p _ _ (by simp only; omega) (by simp only; omega) (by simp only; omega)
    (by simp only; omega) heq

/-- What a completed `copyRect` leaves in the map. -/
theorem copyRect_spec {F : Type} (self : Nat) (b b1 : CMyExprBuilder F) (dst src : CPos)
    (w hgt : Int) (hw : w < 2 ^ 31) (hh : hgt < 2 ^ 31)
    (hrun : CSpreadsheet.copyRect self b dst src w hgt = .ok b1) :
    b1.m_stack = b.m_stack ∧
    (∀ xy ∈ rectCells w hgt, ∀ n, b.m_nodes.find (src.shift xy) = some n →
      b1.m_nodes.find (dst.shift xy) = some ((n.clone self).updateRef (copyOffset dst src))) ∧
    (∀ xy ∈ rectCells w hgt, b.m_nodes.find (src.shift xy) = none →
      b1.m_nodes.find (dst.shift xy) = b.m_nodes.find (dst.shift xy)) ∧
    (∀ k : CPos, (∀ xy ∈ rectCells w hgt, (dst.shift xy).key ≠ k.key) →
      b1.m_nodes.find k = b.m_nodes.find k) := by
  have hsnap : SnapshotOf self b (CSpreadsheet.cloneSourceNodes self b src w hgt) :=
    cloneSourceLoop_snapshot self b src _ [] (snapshotOf_nil self b)
  obtain ⟨h1, _, h3, h4, h5⟩ := copyRectLoop_spec self b dst src (copyOffset dst src) _ hsnap
    (rectCells w hgt) b b1 (nodup_shift_rectCells dst w hgt hw hh)
    (fun k n hf => by rw [hf]; rfl) hrun
  exact ⟨h1, h3, h4, h5⟩


theorem CNode.refsMoved_updateRef {F : Type} [DecidableEq F] (offset : Int × Int)
    (n : CNode F) : n.refsMoved wrappedSum offset (n.updateRef offset) = true := by
  induction n with
  | value e v s x => simp [CNode.refsMoved, CNode.updateRef]
  | ref e p m =>
    have hadd : ∀ (c : Nat) (d : Int), ((addOffset c d : Nat) : Int) = wrappedSum c d := by
      intro c d
      rw [addOffset, wrappedSum]
      exact Int.toNat_of_nonneg (Int.emod_nonneg _ (by decide))
    cases hc : p.m_absCol <;> cases hr : p.m_absRow <;>
      simp [CNode.refsMoved, CNode.updateRef, CPos.updatePos, hc, hr, hadd]
  | binary e op l r ihl ihr => simp [CNode.refsMoved, CNode.updateRef, ihl, ihr]
  | neg e l ih => simp [CNode.refsMoved, CNode.updateRef, ih]

/-- C1 (witness). The cell `A1` of the sheet `x4` of the program's own test lies on the
cycle `A1 -> B3 -> B1 -> A1`, and its value is `Empty`. -/
theorem cycle_to_empty_witness :
    OnCycle exampleCycle 0 (CPos.mk2 1 1) ∧
      CSpreadsheet.getValue exampleCycle 0 (CPos.mk2 1 1) = some (.ok .empty) :=
  have hc : OnCycle exampleCycle 0 (CPos.mk2 1 1) :=
    Relation.TransGen.tail
      (Relation.TransGen.tail
        (Relation.TransGen.single (⟨_, rfl, by decide⟩ :
          RefEdge exampleCycle 0 (CPos.mk2 1 1) (CPos.mk2 2 3)))
        (⟨_, rfl, by decide⟩ : RefEdge exampleCycle 0 (CPos.mk2 2 3) (CPos.mk2 2 1)))
      (⟨_, rfl, by decide⟩ : RefEdge exampleCycle 0 (CPos.mk2 2 1) (CPos.mk2 1 1))
  ⟨hc, cycle_to_empty exampleCycle 0 (CPos.mk2 1 1) hc⟩

/-- C2 (counterexample). On the sheet with the single cell `C1 = A1`, `copyRect(A1, C1, 1, 1)`
completes, but the copied reference does not point at column `1 + (1 - 3)`: the law as
worded fails. -/
theorem copyRect_offset_law_counterexample :
    ¬ OffsetLaw 0 exampleWrap (CPos.mk2 1 1) (CPos.mk2 3 1) 1 1 := by
  intro hlaw
  obtain ⟨b1, n1, hrun, hfind, hmoved⟩ :=
    hlaw 0 0 (.ref true (CPos.mk2 1 1) 0) (by decide) (by decide) (by decide)
  have hb1 : b1 = { m_nodes := [(CPos.mk2 1 1, .ref true (CPos.mk2 18446744073709551615 1) 0),
      (CPos.mk2 3 1, .ref true (CPos.mk2 1 1) 0)] } := by
    have : CSpreadsheet.copyRect 0 exampleWrap (CPos.mk2 1 1) (CPos.mk2 3 1) 1 1 =
        .ok { m_nodes := [(CPos.mk2 1 1, .ref true (CPos.mk2 18446744073709551615 1) 0),
          (CPos.mk2 3 1, .ref true (CPos.mk2 1 1) 0)] } := by decide
    rw [this] at hrun
    exact (Except.ok.inj hrun).symm
  subst hb1
  have hn1 : n1 = .ref true (CPos.mk2 18446744073709551615 1) 0 := by
    have : Table.find ([(CPos.mk2 1 1, .ref true (CPos.mk2 18446744073709551615 1) 0),
        (CPos.mk2 3 1, .ref true (CPos.mk2 1 1) 0)] : Table Int) ((CPos.mk2 1 1).shift (0, 0)) =
        some (.ref true (CPos.mk2 18446744073709551615 1) 0) := by decide
    rw [this] at hfind
    exact (Option.some.inj hfind).symm
  subst hn1
  revert hmoved
  decide

/-- C2 (amended). Whenever `copyRect(dst, src, w, h)` completes on a sheet, every cell
`dst + (x, y)` with `(x, y)` in `[0, w) x [0, h)` whose source cell `src + (x, y)` existed
before the call holds the tree of that source cell with every reference moved: flags and
everything else unchanged, an absolute coordinate kept, and a relative coordinate `c` replaced
by `(c + d) mod 2 ^ 64`, where `d` is the `size_t` difference of the `dst` and `src`
coordinate converted to `int`. -/
theorem copyRect_offset_law {F : Type} [DecidableEq F] (self : Nat) (b b1 : CMyExprBuilder F)
    (dst src : CPos) (w hgt : Int) (hw : w < 2 ^ 31) (hh : hgt < 2 ^ 31)
    (hrun : CSpreadsheet.copyRect self b dst src w hgt = .ok b1)
    (x y : Nat) (hx : (x : Int) < w) (hy : (y : Int) < hgt) (n : CNode F)
    (hfind : b.m_nodes.find (src.shift (x, y)) = some n) (hbound : n.boundTo self = true) :
    b1.m_nodes.find (dst.shift (x, y)) = some (n.updateRef (copyOffset dst src)) ∧
      n.refsMoved wrappedSum (copyOffset dst src) (n.updateRef (copyOffset dst src)) = true := by
  have hmem : (x, y) ∈ rectCells w hgt := by
    rw [mem_rectCells]; omega
  have := (copyRect_spec self b b1 dst src w hgt hw hh hrun).2.1 (x, y) hmem n hfind
  rw [CNode.clone_of_boundTo self n hbound] at this
  exact ⟨this, CNode.refsMoved_updateRef _ n⟩

/-- C2 (witness). The program's own test: `copyRect(G11, F10, 1, 4)` completes, the cell
`F11` held `$D0 + 5`, and afterwards the cell `G12` holds `$D1 + 5`: the absolute column is
kept and the relative row is moved by one. -/
theorem copyRect_offset_law_witness :
    CSpreadsheet.copyRect 0 exampleCopy (CPos.mk2 7 11) (CPos.mk2 6 10) 1 4 = .ok exampleCopied ∧
      exampleCopy.m_nodes.find ((CPos.mk2 6 10).shift (0, 1)) = some exampleF11 ∧
      (exampleCopied.m_nodes.find ((CPos.mk2 7 11).shift (0, 1)) = some exampleG12 ∧
        exampleF11.refsMoved wrappedSum (1, 1) exampleG12 = true) :=
  ⟨by decide, by decide,
    copyRect_offset_law 0 exampleCopy exampleCopied (CPos.mk2 7 11) (CPos.mk2 6 10) 1 4
      (by decide) (by decide) (by decide) 0 1 (by decide) (by decide) exampleF11 (by decide)
      (by decide)⟩

/-- C3 (failing input). On the sheet whose only cell is `A1`, `copyRect(A2, A1, 1, 2)` does not
complete: the first step creates `A2`, the second step then finds the source `A2` in the
sheet but not in the snapshot and dereferences a null pointer. -/
theorem copyRect_hole_failing_input :
    CSpreadsheet.copyRect 0 exampleHole (CPos.mk2 1 2) (CPos.mk2 1 1) 1 2 = .error .null_deref ∧
      exampleHole.m_nodes.find ((CPos.mk2 1 1).shift (0, 1)) = none := by
  decide

/-- C4 (failing input). On the sheet with cells `B1` and `D1` only, the overlapping
`copyRect(C1, B1, 3, 1)` does not complete, although the sources `B1` and `D1` of the
destinations `C1` and `E1` existed before the call. -/
theorem copyRect_overlap_failing_input :
    CSpreadsheet.copyRect 0 exampleOverlap (CPos.mk2 3 1) (CPos.mk2 2 1) 3 1
        = .error .null_deref ∧
      (exampleOverlap.m_nodes.find ((CPos.mk2 2 1).shift (0, 0))).isSome = true ∧
      (exampleOverlap.m_nodes.find ((CPos.mk2 2 1).shift (2, 0))).isSome = true := by
  decide

/-- C6 (failing input). Two pairs of sheets with different values at `A1` are saved as the
same text, so no `load` can restore the values of both: the formulas `2 >= 1` and `2 <= 1`,
and the raw text `a~1 2 b` against the two texts `a` and `b`. -/
theorem save_load_failing_input :
    (CSpreadsheet.save exampleGe = .ok "1 1 =(2.000000<=1.000000)~" ∧
      CSpreadsheet.save exampleLe = .ok "1 1 =(2.000000<=1.000000)~" ∧
      CSpreadsheet.getValue [exampleGe] 0 (CPos.mk2 1 1) = some (.ok (.num 1)) ∧
      CSpreadsheet.getValue [exampleLe] 0 (CPos.mk2 1 1) = some (.ok (.num 0))) ∧
    (CSpreadsheet.save exampleTilde = .ok "1 1 a~1 2 b~" ∧
      CSpreadsheet.save exampleTwoTexts = .ok "1 1 a~1 2 b~" ∧
      CSpreadsheet.getValue [exampleTilde] 0 (CPos.mk2 1 1) = some (.ok (.str "a~1 2 b")) ∧
      CSpreadsheet.getValue [exampleTwoTexts] 0 (CPos.mk2 1 1) = some (.ok (.str "a"))) := by
  decide

/-- C7 (failing input). `setCell(A1, "=\"a\"+\"b\"")` succeeds, and `save` then writes the two
text literals without quotes. -/
theorem save_text_operand_failing_input :
    (CSpreadsheet.setCell exampleParser 0 {} (CPos.mk2 1 1) "=\"a\"+\"b\"").1 = .ok true ∧
      CSpreadsheet.save
          (CSpreadsheet.setCell exampleParser 0 {} (CPos.mk2 1 1) "=\"a\"+\"b\"").2
        = .ok "1 1 =(a+b)~" := by
  decide

/-- C9 (failing input). `setCell(A1, "=1+sum(A1:A2)")` fails in `opAdd` and leaves the
number `1` on the operand stack; a following `setCell(A1, "=2")` then fails, although the
same call succeeds on a fresh sheet. -/
theorem stack_failing_input :
    (CSpreadsheet.setCell exampleParser 0 {} (CPos.mk2 1 1) "=1+sum(A1:A2)").1 = .ok false ∧
      (CSpreadsheet.setCell exampleParser 0 {} (CPos.mk2 1 1) "=1+sum(A1:A2)").2.m_stack
        = [.value false (.num 1) "" false] ∧
      (CSpreadsheet.setCell exampleParser 0
        (CSpreadsheet.setCell exampleParser 0 {} (CPos.mk2 1 1) "=1+sum(A1:A2)").2
        (CPos.mk2 1 1) "=2").1 = .ok false ∧
      (CSpreadsheet.setCell exampleParser 0 {} (CPos.mk2 1 1) "=2").1 = .ok true := by
  decide

/-! ## The builder: parser calls and commit -/

theorem CMyExprBuilder.call_nodes {F : Type} (self : Nat) (b b1 : CMyExprBuilder F) (c : Call F)
    (hc : b.call self c = .ok b1) : b1.m_nodes = b.m_nodes := by
  cases c with
  | op o =>
    simp only [CMyExprBuilder.call, CMyExprBuilder.opBinary] at hc
    split at hc
    · simp only [Except.ok.injEq] at hc; rw [← hc]
    · simp at hc
  | opNeg =>
    simp only [CMyExprBuilder.call, CMyExprBuilder.opNeg] at hc
    split at hc
    · simp only [Except.ok.injEq] at hc; rw [← hc]
    · simp at hc
  | valNumber val =>
    simp only [CMyExprBuilder.call, CMyExprBuilder.valNumber, Except.ok.injEq] at hc; rw [← hc]
  | valString val =>
    simp only [CMyExprBuilder.call, CMyExprBuilder.valString, Except.ok.injEq] at hc; rw [← hc]
  | valReference val =>
    simp only [CMyExprBuilder.call, CMyExprBuilder.valReference] at hc
    split at hc
    · simp at hc
    · simp only [Except.ok.injEq] at hc; rw [← hc]
  | valRange val => simp only [CMyExprBuilder.call, Except.ok.injEq] at hc; rw [← hc]
  | funcCall fn cnt => simp only [CMyExprBuilder.call, Except.ok.injEq] at hc; rw [← hc]

theorem CMyExprBuilder.calls_nodes {F : Type} (self : Nat) (cs : List (Call F)) :
    ∀ b : CMyExprBuilder F, (b.calls self cs).2.m_nodes = b.m_nodes := by
  induction cs with
  | nil => intro b; rfl
  | cons c cs ih =>
    intro b
    rw [CMyExprBuilder.calls]
    cases hc : b.call self c with
    | error e => rfl
    | ok b1 =>
      simp only
      rw [ih b1, CMyExprBuilder.call_nodes self b b1 c hc]

theorem parseExpression_nodes {F : Type} (parser : Parser F) (self : Nat)
    (b : CMyExprBuilder F) (contents : String) :
    (parseExpression parser self b contents).2.m_nodes = b.m_nodes := by
  have := CMyExprBuilder.calls_nodes self (parser contents).calls b
  rw [parseExpression]
  revert this
  cases b.calls self (parser contents).calls with
  | mk e b1 =>
    intro this
    cases e with
    | some e => exact this
    | none =>
      simp only
      split <;> exact this

theorem CMyExprBuilder.updateNodes_ok {F : Type} (b : CMyExprBuilder F) (pos : CPos)
    (top : CNode F) (hs : b.m_stack = [top]) :
    b.updateNodes pos =
      .ok ⟨[], Table.assign (Table.assign b.m_nodes pos top) pos top.setExpr⟩ := by
  simp [CMyExprBuilder.updateNodes, hs, Table.update, Table.find_assign_self]

theorem CMyExprBuilder.updateNodes_error {F : Type} (b : CMyExprBuilder F) (pos : CPos)
    (hs : b.m_stack.length ≠ 1) : b.updateNodes pos = .error .invalid_argument := by
  rw [CMyExprBuilder.updateNodes]
  split
  · rename_i top hst; rw [hst] at hs; simp at hs
  · rfl

theorem CNode.isExpr_setExpr {F : Type} (n : CNode F) : n.setExpr.isExpr = true := by
  cases n <;> rfl

/-- C8. Commit contract: `updateNodes(pos)` succeeds exactly when the operand stack holds one
node; on success the stack is empty, the cell at `pos` is that node with `m_expr` set and
every other cell is as before; and a `setCell` that returns `false` leaves the whole cell
map as it was. -/
theorem commit_contract {F : Type} [DoubleOps F] (parser : Parser F) (self : Nat)
    (b : CMyExprBuilder F) (pos : CPos) :
    ((∃ b1, b.updateNodes pos = .ok b1) ↔ b.m_stack.length = 1) ∧
    (∀ b1, b.updateNodes pos = .ok b1 →
      ∃ top, b.m_stack = [top] ∧ b1.m_stack = [] ∧
        b1.m_nodes.find pos = some top.setExpr ∧ top.setExpr.isExpr = true ∧
        ∀ k : CPos, pos.key ≠ k.key → b1.m_nodes.find k = b.m_nodes.find k) ∧
    (∀ contents b1, CSpreadsheet.setCell parser self b pos contents = (.ok false, b1) →
      b1.m_nodes = b.m_nodes) := by
  have hsucc : ∀ b1, b.updateNodes pos = .ok b1 →
      ∃ top, b.m_stack = [top] ∧ b1.m_stack = [] ∧
        b1.m_nodes.find pos = some top.setExpr ∧ top.setExpr.isExpr = true ∧
        ∀ k : CPos, pos.key ≠ k.key → b1.m_nodes.find k = b.m_nodes.find k := by
    intro b1 hok
    by_cases hlen : b.m_stack.length = 1
    · obtain ⟨top, htop⟩ := List.length_eq_one.1 hlen
      rw [CMyExprBuilder.updateNodes_ok b pos top htop] at hok
      have hb1 := Except.ok.inj hok
      subst hb1
      refine ⟨top, htop, rfl, Table.find_assign_self _ _ _, CNode.isExpr_setExpr top, ?_⟩
      intro k hk
      simp only
      rw [Table.find_assign_ne _ _ _ _ hk, Table.find_assign_ne _ _ _ _ hk]
    · rw [CMyExprBuilder.updateNodes_error b pos hlen] at hok
      simp at hok
  refine ⟨⟨?_, ?_⟩, hsucc, ?_⟩
  · rintro ⟨b1, hok⟩
    obtain ⟨top, htop, _⟩ := hsucc b1 hok
    rw [htop]; rfl
  · intro hlen
    obtain ⟨top, htop⟩ := List.length_eq_one.1 hlen
    exact ⟨_, CMyExprBuilder.updateNodes_ok b pos top htop⟩
  · intro contents b1 hset
    rw [CSpreadsheet.setCell] at hset
    split at hset
    · have hp := parseExpression_nodes parser self b contents
      revert hset hp
      cases parseExpression parser self b contents with
      | mk e b2 =>
        intro hset hp
        cases e with
        | some e =>
          cases e <;> simp only [Prod.mk.injEq, Except.ok.injEq, reduceCtorEq, false_and,
            true_and] at hset
          rw [← hset]; exact hp
        | none =>
          simp only at hset
          split at hset <;> simp only [Prod.mk.injEq, Except.ok.injEq, reduceCtorEq, false_and,
            true_and, Bool.true_eq_false] at hset
          rw [← hset]; exact hp
    · split at hset <;> simp at hset


/-! ## Sheet copies -/

theorem CNode.boundTo_clone {F : Type} (m : Nat) (n : CNode F) : (n.clone m).boundTo m = true := by
  induction n with
  | value e v s x => rfl
  | ref e p m1 => simp [CNode.clone, CNode.boundTo]
  | binary e op l r ihl ihr => simp [CNode.clone, CNode.boundTo, ihl, ihr]
  | neg e l ih => simp [CNode.clone, CNode.boundTo, ih]

/-- Evaluation in a sheet whose map is the clone of another sheet's map computes what
evaluation in that other sheet computes. -/
theorem evaluate_clone_sim {F : Type} [DoubleOps F] (h h1 : Heap F) (i i1 : Nat)
    (hbound : h.TableBound i)
    (hsim : ∀ k, (h1.nodes i1).find k = ((h.nodes i).find k).map (CNode.clone i1))
    (fuel : Nat) :
    ∀ (n : CNode F) (V : Finset (Nat × Nat)), n.boundTo i = true →
      evaluate h1 fuel (n.clone i1) V = evaluate h fuel n V := by
  induction fuel with
  | zero => intro n V _; cases n <;> rfl
  | succ fuel ih =>
    intro n V hb
    cases n with
    | value e v s x => rfl
    | ref e p m =>
      simp only [CNode.boundTo, decide_eq_true_eq] at hb
      subst hb
      rw [CNode.clone, evaluate, evaluate, hsim]
      cases hf : (h.nodes m).find p with
      | none => rfl
      | some target =>
        simp only [Option.map_some']
        by_cases hin : p.key ∈ V
        · rw [if_pos hin, if_pos hin]
        · rw [if_neg hin, if_neg hin, ih target _ (hbound p target hf)]
    | binary e op l r =>
      simp only [CNode.boundTo, Bool.and_eq_true] at hb
      rw [CNode.clone, evaluate, evaluate, ih l V hb.1]
      cases evaluate h fuel l V with
      | none => rfl
      | some rl =>
        obtain ⟨v1, V1⟩ := rl
        simp only
        rw [ih r V1 hb.2]
    | neg e l =>
      simp only [CNode.boundTo] at hb
      rw [CNode.clone, evaluate, evaluate, ih l V hb]

theorem getValueFuel_clone_sim {F : Type} [DoubleOps F] (h h1 : Heap F) (i i1 : Nat)
    (hbound : h.TableBound i)
    (hsim : ∀ k, (h1.nodes i1).find k = ((h.nodes i).find k).map (CNode.clone i1))
    (fuel : Nat) (p : CPos) :
    CSpreadsheet.getValueFuel h1 i1 fuel p = CSpreadsheet.getValueFuel h i fuel p := by
  cases hf : (h.nodes i).find p with
  | none =>
    have hf1 : (h1.nodes i1).find p = none := by rw [hsim, hf]; rfl
    rw [getValueFuel_of_find_none h i fuel p hf, getValueFuel_of_find_none h1 i1 fuel p hf1]
  | some n =>
    have hf1 : (h1.nodes i1).find p = some (n.clone i1) := by rw [hsim, hf]; rfl
    rw [getValueFuel_of_find h i fuel p n hf, getValueFuel_of_find h1 i1 fuel p _ hf1,
      evaluate_clone_sim h h1 i i1 hbound hsim fuel n _ (hbound p n hf)]

theorem getValue_congr {F : Type} [DoubleOps F] (h h1 : Heap F) (i i1 : Nat) (p : CPos)
    (heq : ∀ fuel, CSpreadsheet.getValueFuel h1 i1 fuel p = CSpreadsheet.getValueFuel h i fuel p) :
    CSpreadsheet.getValue h1 i1 p = CSpreadsheet.getValue h i p := by
  obtain ⟨v, hv, hvf⟩ := getValueFuel_total h i p
  obtain ⟨v1, hv1, hvf1⟩ := getValueFuel_total h1 i1 p
  have e1 := hvf (max h.fuelBound h1.fuelBound) (le_max_left _ _)
  have e2 := hvf1 (max h.fuelBound h1.fuelBound) (le_max_right _ _)
  rw [heq, e1] at e2
  rw [hv, hv1, e2]

/-- The values of a sheet depend only on its own map, when that map is bound to it. -/
theorem getValue_frame {F : Type} [DoubleOps F] (h h1 : Heap F) (i : Nat)
    (hbound : h.TableBound i) (hnodes : h1.nodes i = h.nodes i) (p : CPos) :
    CSpreadsheet.getValue h1 i p = CSpreadsheet.getValue h i p := by
  refine getValue_congr h h1 i i p (fun fuel => getValueFuel_clone_sim h h1 i i hbound ?_ fuel p)
  intro k
  rw [hnodes]
  cases hf : (h.nodes i).find k with
  | none => rfl
  | some n => rw [Option.map_some', CNode.clone_of_boundTo i n (hbound k n hf)]

theorem Table.find_none_of_keys {F : Type} (t : Table F) (k : CPos)
    (hk : ∀ e ∈ t, e.1.key ≠ k.key) : t.find k = none := by
  induction t with
  | nil => rfl
  | cons e rest ih =>
    obtain ⟨k1, n1⟩ := e
    rw [Table.find_cons, if_neg (hk (k1, n1) (List.mem_cons_self _ _))]
    exact ih (fun e he => hk e (List.mem_cons_of_mem _ he))

theorem cloneInto_find {F : Type} (self : Nat) (t : Table F) (hs : t.SortedKeys) :
    ∀ (acc : Table F) (k : CPos),
      (cloneInto self t acc).find k =
        match t.find k with
        | some n => some (n.clone self)
        | none => acc.find k := by
  induction t with
  | nil => intro acc k; rfl
  | cons e rest ih =>
    obtain ⟨k1, n1⟩ := e
    intro acc k
    rw [Table.SortedKeys, List.pairwise_cons] at hs
    rw [cloneInto, ih hs.2, Table.find_cons]
    by_cases hk : k1.key = k.key
    · have hnone : Table.find rest k = none := by
        refine Table.find_none_of_keys rest k (fun e he heq => ?_)
        exact CPos.lt_not_equiv k1 e.1 (hs.1 e he) (hk.trans heq.symm)
      rw [hnone, if_pos hk]
      simp only
      rw [Table.find_assign, if_pos hk]
    · rw [if_neg hk]
      cases Table.find rest k with
      | some n => rfl
      | none => simp only; rw [Table.find_assign, if_neg hk]

theorem Heap.builder_set {F : Type} (h : Heap F) (i j : Nat) (b : CMyExprBuilder F) :
    Heap.builder (h.set i b) j = if i = j ∧ i < h.length then b else h.builder j := by
  simp only [Heap.builder, List.getElem?_set]
  by_cases hij : i = j
  · subst hij
    by_cases hlt : i < h.length
    · simp [hlt]
    · simp [hlt, List.getElem?_eq_none (Nat.le_of_not_lt hlt)]
  · simp [hij]

theorem applyOp_frame {F : Type} [DoubleOps F] (parser : Parser F) (h h2 : Heap F) (i : Nat)
    (op : SheetOp) (hop : applyOp parser h i op = some h2) (j : Nat) (hj : j ≠ i) :
    h2.builder j = h.builder j := by
  cases op with
  | setCell pos contents =>
    simp only [applyOp, Option.some.injEq] at hop
    rw [← hop, Heap.builder_set, if_neg (fun hc => hj hc.1.symm)]
  | copyRect dst src w hgt =>
    simp only [applyOp] at hop
    split at hop
    · simp only [Option.some.injEq] at hop
      rw [← hop, Heap.builder_set, if_neg (fun hc => hj hc.1.symm)]
    · simp at hop

theorem applyOps_frame {F : Type} [DoubleOps F] (parser : Parser F) (i : Nat)
    (ops : List SheetOp) :
    ∀ (h h2 : Heap F), applyOps parser h i ops = some h2 → ∀ j, j ≠ i →
      h2.builder j = h.builder j := by
  induction ops with
  | nil =>
    intro h h2 hops j _
    simp only [applyOps, Option.some.injEq] at hops
    rw [hops]
  | cons op ops ih =>
    intro h h2 hops j hj
    rw [applyOps] at hops
    cases hop : applyOp parser h i op with
    | none => rw [hop] at hops; simp at hops
    | some h1 =>
      rw [hop] at hops
      rw [ih h1 h2 hops j hj, applyOp_frame parser h h1 i op hop j hj]

/-- C10. Copy independence: after `x1 = x0` every value of `x1` is the value `x0` had at that
moment; it stays so under every later sequence of `setCell` / `copyRect` calls on `x0`; and
such calls on `x1` never change a value of `x0`.  Every reference of the copy is bound to the
copy's own map. -/
theorem copy_independence {F : Type} [DoubleOps F] (parser : Parser F) (h : Heap F)
    (x0 x1 : Nat) (hne : x0 ≠ x1) (hlen : x1 < h.length) (hbound : h.TableBound x0)
    (hsorted : (h.nodes x0).SortedKeys) :
    (∀ p, CSpreadsheet.getValue (CSpreadsheet.assign h x1 x0) x1 p
        = CSpreadsheet.getValue h x0 p) ∧
    (∀ ops h2, applyOps parser (CSpreadsheet.assign h x1 x0) x0 ops = some h2 →
      ∀ p, CSpreadsheet.getValue h2 x1 p = CSpreadsheet.getValue h x0 p) ∧
    (∀ ops h2, applyOps parser (CSpreadsheet.assign h x1 x0) x1 ops = some h2 →
      ∀ p, CSpreadsheet.getValue h2 x0 p = CSpreadsheet.getValue h x0 p) ∧
    (CSpreadsheet.assign h x1 x0).TableBound x1 := by
  have hc1 : (CSpreadsheet.assign h x1 x0).nodes x1 = cloneInto x1 (h.nodes x0) [] := by
    rw [CSpreadsheet.assign, if_neg (Ne.symm hne), Heap.nodes, Heap.builder_set,
      if_pos ⟨rfl, hlen⟩]
    rfl
  have hc0 : (CSpreadsheet.assign h x1 x0).builder x0 = h.builder x0 := by
    rw [CSpreadsheet.assign, if_neg (Ne.symm hne), Heap.builder_set,
      if_neg (fun hc => hne hc.1.symm)]
  have hsim : ∀ k, ((CSpreadsheet.assign h x1 x0).nodes x1).find k
      = ((h.nodes x0).find k).map (CNode.clone x1) := by
    intro k
    rw [hc1, cloneInto_find x1 _ hsorted]
    cases (h.nodes x0).find k with
    | none => rfl
    | some n => rfl
  have hb1 : (CSpreadsheet.assign h x1 x0).TableBound x1 := by
    intro k n hf
    rw [hsim] at hf
    cases hf0 : (h.nodes x0).find k with
    | none => rw [hf0] at hf; simp at hf
    | some n0 =>
      rw [hf0, Option.map_some', Option.some.injEq] at hf
      rw [← hf]; exact CNode.boundTo_clone x1 n0
  have hcopy : ∀ p, CSpreadsheet.getValue (CSpreadsheet.assign h x1 x0) x1 p
      = CSpreadsheet.getValue h x0 p := fun p =>
    getValue_congr h _ x0 x1 p (fun fuel => getValueFuel_clone_sim h _ x0 x1 hbound hsim fuel p)
  refine ⟨hcopy, ?_, ?_, hb1⟩
  · intro ops h2 hops p
    have hfr := applyOps_frame parser x0 ops _ h2 hops x1 (Ne.symm hne)
    rw [getValue_frame _ h2 x1 hb1 (by rw [Heap.nodes, Heap.nodes, hfr]) p, hcopy p]
  · intro ops h2 hops p
    have hfr := applyOps_frame parser x1 ops _ h2 hops x0 hne
    exact getValue_frame h h2 x0 hbound (by rw [Heap.nodes, Heap.nodes, hfr, hc0]) p

theorem Table.find_some_mem {F : Type} (t : Table F) (k : CPos) (n : CNode F)
    (hf : t.find k = some n) : ∃ k1, (k1, n) ∈ t := by
  induction t with
  | nil => simp [Table.find] at hf
  | cons e rest ih =>
    obtain ⟨k1, n1⟩ := e
    rw [Table.find_cons] at hf
    by_cases hk : k1.key = k.key
    · rw [if_pos hk, Option.some.injEq] at hf
      exact ⟨k1, by rw [hf]; exact List.mem_cons_self _ _⟩
    · rw [if_neg hk] at hf
      obtain ⟨k2, h2⟩ := ih hf
      exact ⟨k2, List.mem_cons_of_mem _ h2⟩

theorem Heap.tableBound_of_all {F : Type} (h : Heap F) (i : Nat)
    (hall : ∀ e ∈ h.nodes i, e.2.boundTo i = true) : h.TableBound i := by
  intro k n hf
  obtain ⟨k1, hmem⟩ := Table.find_some_mem _ k n hf
  exact hall (k1, n) hmem

/-- C10 (witness). With `x0 = {A1 = 10, B1 = A1 + 1}` and an empty `x1`: after `x1 = x0` the
value of `B1` in `x1` is the value `11` it has in `x0`, and it is still so after
`x0.setCell(A1, "12")`, which changes `B1` of `x0` to `13`. -/
theorem copy_independence_witness :
    (0 ≠ 1 ∧ 1 < exampleTwo.length ∧ exampleTwo.TableBound 0 ∧
      (exampleTwo.nodes 0).SortedKeys) ∧
    applyOps exampleParser (CSpreadsheet.assign exampleTwo 1 0) 0
      [.setCell (CPos.mk2 1 1) "12"] = some exampleTwoEdited ∧
    CSpreadsheet.getValue exampleTwo 0 (CPos.mk2 2 1) = some (.ok (.num 11)) ∧
    CSpreadsheet.getValue exampleTwoEdited 0 (CPos.mk2 2 1) = some (.ok (.num 13)) ∧
    CSpreadsheet.getValue exampleTwoEdited 1 (CPos.mk2 2 1)
      = CSpreadsheet.getValue exampleTwo 0 (CPos.mk2 2 1) :=
  have hb : exampleTwo.TableBound 0 := Heap.tableBound_of_all exampleTwo 0 (by decide)
  have hs : (exampleTwo.nodes 0).SortedKeys := by
    unfold Table.SortedKeys; decide
  have hrun : applyOps exampleParser (CSpreadsheet.assign exampleTwo 1 0) 0
      [.setCell (CPos.mk2 1 1) "12"] = some exampleTwoEdited := by decide
  ⟨⟨by decide, by decide, hb, hs⟩, hrun, by decide, by decide,
    (copy_independence exampleParser exampleTwo 0 1 (by decide) (by decide) hb hs).2.1
      [.setCell (CPos.mk2 1 1) "12"] exampleTwoEdited hrun (CPos.mk2 2 1)⟩


/-! ## The invariant of sheets

Every sheet built from an empty sheet by `setCell`, `copyRect` and sheet assignment has its
references bound to its own map and its map in key order. -/

theorem CPos.lt_congr (a b c : CPos) (hbc : b.key = c.key) : a.lt b = a.lt c := by
  simp only [CPos.key, Prod.mk.injEq] at hbc
  simp only [CPos.lt, hbc.1, hbc.2]

theorem CPos.lt_trans (a b c : CPos) (hab : a.lt b = true) (hbc : b.lt c = true) :
    a.lt c = true := by
  simp only [CPos.lt, Bool.or_eq_true, Bool.and_eq_true, decide_eq_true_eq] at *
  omega

theorem Table.mem_assign {F : Type} (t : Table F) (k : CPos) (n : CNode F) :
    ∀ e ∈ t.assign k n, e ∈ t ∨ (e.2 = n ∧ e.1.key = k.key) := by
  induction t with
  | nil =>
    intro e he
    simp only [Table.assign, List.mem_singleton] at he
    right; rw [he]; exact ⟨rfl, rfl⟩
  | cons e0 rest ih =>
    obtain ⟨k1, n1⟩ := e0
    intro e he
    rw [Table.assign] at he
    cases h1 : k.lt k1 with
    | true =>
      rw [h1, if_pos rfl] at he
      rcases List.mem_cons.1 he with heq | hmem
      · right; rw [heq]; exact ⟨rfl, rfl⟩
      · left; exact hmem
    | false =>
      rw [h1, if_neg (by simp)] at he
      cases h2 : k1.lt k with
      | true =>
        rw [h2, if_pos rfl] at he
        rcases List.mem_cons.1 he with heq | hmem
        · left; rw [heq]; exact List.mem_cons_self _ _
        · rcases ih e hmem with h3 | h3
          · left; exact List.mem_cons_of_mem _ h3
          · right; exact h3
      | false =>
        rw [h2, if_neg (by simp)] at he
        rcases List.mem_cons.1 he with heq | hmem
        · right; rw [heq]; exact ⟨rfl, (CPos.not_lt_not_lt k k1 h1 h2).symm⟩
        · left; exact List.mem_cons_of_mem _ hmem

theorem Table.sortedKeys_assign {F : Type} (t : Table F) (k : CPos) (n : CNode F)
    (hs : t.SortedKeys) : (t.assign k n).SortedKeys := by
  induction t with
  | nil => simp [Table.assign, Table.SortedKeys]
  | cons e0 rest ih =>
    obtain ⟨k1, n1⟩ := e0
    rw [Table.SortedKeys, List.pairwise_cons] at hs
    rw [Table.assign]
    cases h1 : k.lt k1 with
    | true =>
      rw [if_pos rfl, Table.SortedKeys, List.pairwise_cons, List.pairwise_cons]
      refine ⟨?_, hs⟩
      intro e he
      rcases List.mem_cons.1 he with heq | hmem
      · rw [heq]; exact h1
      · exact CPos.lt_trans _ _ _ h1 (hs.1 e hmem)
    | false =>
      rw [if_neg (by simp)]
      cases h2 : k1.lt k with
      | true =>
        rw [if_pos rfl, Table.SortedKeys, List.pairwise_cons]
        refine ⟨?_, ih hs.2⟩
        intro e he
        rcases Table.mem_assign rest k n e he with h3 | h3
        · exact hs.1 e h3
        · rw [CPos.lt_congr k1 e.1 k h3.2]; exact h2
      | false =>
        rw [if_neg (by simp), Table.SortedKeys, List.pairwise_cons]
        exact ⟨hs.1, hs.2⟩

theorem CNode.boundTo_setExpr {F : Type} (m : Nat) (n : CNode F) :
    n.setExpr.boundTo m = n.boundTo m := by
  cases n <;> rfl

theorem CNode.boundTo_updateRef {F : Type} (m : Nat) (offset : Int × Int) (n : CNode F) :
    (n.updateRef offset).boundTo m = n.boundTo m := by
  induction n with
  | value e v s x => rfl
  | ref e p m1 => rfl
  | binary e op l r ihl ihr => simp [CNode.updateRef, CNode.boundTo, ihl, ihr]
  | neg e l ih => simp [CNode.updateRef, CNode.boundTo, ih]

theorem CMyExprBuilder.wellFormed_empty {F : Type} (self : Nat) :
    ({} : CMyExprBuilder F).WellFormed self := by
  refine ⟨?_, ?_, ?_⟩
  · intro n hn; simp at hn
  · intro e he; simp at he
  · simp [Table.SortedKeys]

theorem CMyExprBuilder.wellFormed_assign {F : Type} (self : Nat) (b : CMyExprBuilder F)
    (k : CPos) (n : CNode F) (hwf : b.WellFormed self) (hn : n.boundTo self = true) :
    CMyExprBuilder.WellFormed self ⟨b.m_stack, b.m_nodes.assign k n⟩ := by
  refine ⟨hwf.1, ?_, Table.sortedKeys_assign _ _ _ hwf.2.2⟩
  intro e he
  rcases Table.mem_assign _ _ _ e he with h1 | h1
  · exact hwf.2.1 e h1
  · rw [h1.1]; exact hn

theorem CMyExprBuilder.wellFormed_call {F : Type} (self : Nat) (b b1 : CMyExprBuilder F)
    (c : Call F) (hwf : b.WellFormed self) (hc : b.call self c = .ok b1) :
    b1.WellFormed self := by
  obtain ⟨hst, hnodes, hsorted⟩ := hwf
  cases c with
  | op o =>
    simp only [CMyExprBuilder.call, CMyExprBuilder.opBinary] at hc
    split at hc
    · rename_i right left rest hs
      simp only [Except.ok.injEq] at hc
      rw [← hc]
      refine ⟨?_, hnodes, hsorted⟩
      intro n hn
      rw [hs] at hst
      rcases List.mem_cons.1 hn with heq | hmem
      · rw [heq]
        simp only [CNode.boundTo, Bool.and_eq_true]
        exact ⟨hst left (by simp), hst right (by simp)⟩
      · exact hst n (by simp [hmem])
    · simp at hc
  | opNeg =>
    simp only [CMyExprBuilder.call, CMyExprBuilder.opNeg] at hc
    split at hc
    · rename_i left rest hs
      simp only [Except.ok.injEq] at hc
      rw [← hc]
      refine ⟨?_, hnodes, hsorted⟩
      intro n hn
      rw [hs] at hst
      rcases List.mem_cons.1 hn with heq | hmem
      · rw [heq]
        simp only [CNode.boundTo]
        exact hst left (by simp)
      · exact hst n (by simp [hmem])
    · simp at hc
  | valNumber val =>
    simp only [CMyExprBuilder.call, CMyExprBuilder.valNumber, Except.ok.injEq] at hc
    rw [← hc]
    refine ⟨?_, hnodes, hsorted⟩
    intro n hn
    rcases List.mem_cons.1 hn with heq | hmem
    · rw [heq]; rfl
    · exact hst n hmem
  | valString val =>
    simp only [CMyExprBuilder.call, CMyExprBuilder.valString, Except.ok.injEq] at hc
    rw [← hc]
    refine ⟨?_, hnodes, hsorted⟩
    intro n hn
    rcases List.mem_cons.1 hn with heq | hmem
    · rw [heq]; rfl
    · exact hst n hmem
  | valReference val =>
    simp only [CMyExprBuilder.call, CMyExprBuilder.valReference] at hc
    split at hc
    · simp at hc
    · simp only [Except.ok.injEq] at hc
      rw [← hc]
      refine ⟨?_, hnodes, hsorted⟩
      intro n hn
      rcases List.mem_cons.1 hn with heq | hmem
      · rw [heq]; simp [CNode.boundTo]
      · exact hst n hmem
  | valRange val =>
    simp only [CMyExprBuilder.call, Except.ok.injEq] at hc
    rw [← hc]; exact ⟨hst, hnodes, hsorted⟩
  | funcCall fn cnt =>
    simp only [CMyExprBuilder.call, Except.ok.injEq] at hc
    rw [← hc]; exact ⟨hst, hnodes, hsorted⟩

theorem CMyExprBuilder.wellFormed_calls {F : Type} (self : Nat) (cs : List (Call F)) :
    ∀ b : CMyExprBuilder F, b.WellFormed self → (b.calls self cs).2.WellFormed self := by
  induction cs with
  | nil => intro b hwf; exact hwf
  | cons c cs ih =>
    intro b hwf
    rw [CMyExprBuilder.calls]
    cases hc : b.call self c with
    | error e => exact hwf
    | ok b1 => exact ih b1 (CMyExprBuilder.wellFormed_call self b b1 c hwf hc)

theorem wellFormed_parseExpression {F : Type} (parser : Parser F) (self : Nat)
    (b : CMyExprBuilder F) (contents : String) (hwf : b.WellFormed self) :
    (parseExpression parser self b contents).2.WellFormed self := by
  have := CMyExprBuilder.wellFormed_calls self (parser contents).calls b hwf
  rw [parseExpression]
  revert this
  cases b.calls self (parser contents).calls with
  | mk e b1 =>
    intro this
    cases e with
    | some e => exact this
    | none =>
      simp only
      split <;> exact this

theorem CMyExprBuilder.wellFormed_updateNodes {F : Type} (self : Nat)
    (b b1 : CMyExprBuilder F) (pos : CPos) (hwf : b.WellFormed self)
    (hu : b.updateNodes pos = .ok b1) : b1.WellFormed self := by
  by_cases hlen : b.m_stack.length = 1
  · obtain ⟨top, htop⟩ := List.length_eq_one.1 hlen
    rw [CMyExprBuilder.updateNodes_ok b pos top htop] at hu
    rw [← Except.ok.inj hu]
    have htopb : top.boundTo self = true := hwf.1 top (by rw [htop]; simp)
    have h1 := CMyExprBuilder.wellFormed_assign self b pos top hwf htopb
    have h2 := CMyExprBuilder.wellFormed_assign self _ pos top.setExpr h1
      (by rw [CNode.boundTo_setExpr]; exact htopb)
    exact ⟨by intro n hn; simp at hn, h2.2.1, h2.2.2⟩
  · rw [CMyExprBuilder.updateNodes_error b pos hlen] at hu
    simp at hu

/-- Method `setCell` keeps the invariant, whatever it returns or throws. -/
theorem wellFormed_setCell {F : Type} [DoubleOps F] (parser : Parser F) (self : Nat)
    (b : CMyExprBuilder F) (pos : CPos) (contents : String) (hwf : b.WellFormed self) :
    (CSpreadsheet.setCell parser self b pos contents).2.WellFormed self := by
  rw [CSpreadsheet.setCell]
  split
  · have hp := wellFormed_parseExpression parser self b contents hwf
    revert hp
    cases parseExpression parser self b contents with
    | mk e b2 =>
      intro hp
      cases e with
      | some e => cases e <;> exact hp
      | none =>
        simp only
        cases hu : b2.updateNodes pos with
        | error e => cases e <;> exact hp
        | ok b3 => exact CMyExprBuilder.wellFormed_updateNodes self b2 b3 pos hp hu
  · split
    · exact CMyExprBuilder.wellFormed_assign self b pos _ hwf rfl
    · exact CMyExprBuilder.wellFormed_assign self b pos _ hwf rfl
    · exact hwf

theorem wellFormed_copyRectLoop {F : Type} (self : Nat) (dst src : CPos) (offset : Int × Int)
    (tmp : Table F) (cells : List (Nat × Nat)) :
    ∀ (b b1 : CMyExprBuilder F), b.WellFormed self →
      copyRectLoop self dst src offset tmp cells b = .ok b1 → b1.WellFormed self := by
  induction cells with
  | nil =>
    intro b b1 hwf hrun
    simp only [copyRectLoop, Except.ok.injEq] at hrun
    rw [← hrun]; exact hwf
  | cons xy rest ih =>
    intro b b1 hwf hrun
    rw [copyRectLoop] at hrun
    split at hrun
    · cases htf : tmp.find (src.shift xy) with
      | none => rw [htf] at hrun; simp [CMyExprBuilder.addNode] at hrun
      | some n1 =>
        rw [htf] at hrun
        simp only [CMyExprBuilder.addNode, CMyExprBuilder.callUpdateRef, Table.update,
          Table.find_assign_self] at hrun
        refine ih _ b1 ?_ hrun
        have h1 := CMyExprBuilder.wellFormed_assign self b (dst.shift xy) (n1.clone self) hwf
          (CNode.boundTo_clone self n1)
        exact CMyExprBuilder.wellFormed_assign self _ (dst.shift xy) _ h1
          (by rw [CNode.boundTo_updateRef]; exact CNode.boundTo_clone self n1)
    · exact ih b b1 hwf hrun

/-- A completed `copyRect` keeps the invariant. -/
theorem wellFormed_copyRect {F : Type} (self : Nat) (b b1 : CMyExprBuilder F) (dst src : CPos)
    (w hgt : Int) (hwf : b.WellFormed self)
    (hrun : CSpreadsheet.copyRect self b dst src w hgt = .ok b1) : b1.WellFormed self :=
  wellFormed_copyRectLoop self dst src _ _ _ b b1 hwf hrun

theorem wellFormed_cloneInto {F : Type} (self : Nat) (st : List (CNode F)) (t : Table F) :
    ∀ acc : Table F, CMyExprBuilder.WellFormed self ⟨st, acc⟩ →
      CMyExprBuilder.WellFormed self ⟨st, cloneInto self t acc⟩ := by
  induction t with
  | nil => intro acc hwf; exact hwf
  | cons e rest ih =>
    obtain ⟨k, n⟩ := e
    intro acc hwf
    rw [cloneInto]
    exact ih _ (CMyExprBuilder.wellFormed_assign self ⟨st, acc⟩ k (n.clone self) hwf
      (CNode.boundTo_clone self n))

/-- Sheet assignment gives the target sheet the invariant. -/
theorem wellFormed_assignFrom {F : Type} (self : Nat) (this other : CMyExprBuilder F)
    (hwf : this.WellFormed self) : (this.assignFrom self other).WellFormed self := by
  refine wellFormed_cloneInto self this.m_stack other.m_nodes [] ⟨hwf.1, ?_, ?_⟩
  · intro e he; simp at he
  · simp [Table.SortedKeys]

/-- The invariant gives the hypotheses used for single trees and for whole maps. -/
theorem Heap.tableBound_of_wellFormed {F : Type} (h : Heap F) (i : Nat)
    (hwf : (h.builder i).WellFormed i) : h.TableBound i ∧ (h.nodes i).SortedKeys :=
  ⟨Heap.tableBound_of_all h i hwf.2.1, hwf.2.2⟩


theorem Heap.wellFormed_set {F : Type} (h : Heap F) (i : Nat) (b : CMyExprBuilder F)
    (hwf : h.WellFormed) (hb : b.WellFormed i) : Heap.WellFormed (h.set i b) := by
  intro j
  rw [Heap.builder_set]
  split
  · rename_i hij; rw [← hij.1]; exact hb
  · exact hwf j

/-- Fresh sheets satisfy the invariant. -/
theorem Heap.wellFormed_replicate {F : Type} (n : Nat) :
    Heap.WellFormed (List.replicate n ({} : CMyExprBuilder F)) := by
  intro j
  rw [Heap.builder]
  cases hj : (List.replicate n ({} : CMyExprBuilder F))[j]? with
  | none => exact CMyExprBuilder.wellFormed_empty j
  | some b =>
    have hmem := List.getElem?_mem hj
    rw [List.eq_of_mem_replicate hmem]
    exact CMyExprBuilder.wellFormed_empty j

/-- Every call on a sheet keeps the invariant of the program state. -/
theorem wellFormed_applyOp {F : Type} [DoubleOps F] (parser : Parser F) (h h2 : Heap F)
    (i : Nat) (op : SheetOp) (hwf : h.WellFormed) (hop : applyOp parser h i op = some h2) :
    h2.WellFormed := by
  cases op with
  | setCell pos contents =>
    simp only [applyOp, Option.some.injEq] at hop
    rw [← hop]
    exact Heap.wellFormed_set h i _ hwf (wellFormed_setCell parser i _ pos contents (hwf i))
  | copyRect dst src w hgt =>
    simp only [applyOp] at hop
    split at hop
    · rename_i b hb
      simp only [Option.some.injEq] at hop
      rw [← hop]
      exact Heap.wellFormed_set h i _ hwf (wellFormed_copyRect i _ b dst src w hgt (hwf i) hb)
    · simp at hop

theorem wellFormed_applyOps {F : Type} [DoubleOps F] (parser : Parser F) (i : Nat)
    (ops : List SheetOp) :
    ∀ (h h2 : Heap F), h.WellFormed → applyOps parser h i ops = some h2 → h2.WellFormed := by
  induction ops with
  | nil =>
    intro h h2 hwf hops
    simp only [applyOps, Option.some.injEq] at hops
    rw [← hops]; exact hwf
  | cons op ops ih =>
    intro h h2 hwf hops
    rw [applyOps] at hops
    cases hop : applyOp parser h i op with
    | none => rw [hop] at hops; simp at hops
    | some h1 =>
      rw [hop] at hops
      exact ih h1 h2 (wellFormed_applyOp parser h h1 i op hwf hop) hops

/-- Sheet assignment keeps the invariant of the program state. -/
theorem wellFormed_sheetAssign {F : Type} (h : Heap F) (dst src : Nat) (hwf : h.WellFormed) :
    (CSpreadsheet.assign h dst src).WellFormed := by
  rw [CSpreadsheet.assign]
  split
  · exact hwf
  · exact Heap.wellFormed_set h dst _ hwf (wellFormed_assignFrom dst _ _ (hwf dst))

/-! ## The offset in range -/

/-- When the difference of two coordinates fits an `int`, the offset of `copyRect` is that
difference. -/
theorem toInt32_sub (a b : Nat)
    (hlo : -(2 : Int) ^ 31 ≤ (a : Int) - b) (hhi : (a : Int) - b < 2 ^ 31) :
    toInt32 ((a + SIZE_MOD - b) % SIZE_MOD) = (a : Int) - b := by
  simp only [SIZE_MOD] at *
  rw [toInt32]
  split <;> omega

/-- When the sum of a coordinate and an offset is a `size_t` value, the sum in `size_t`
arithmetic is the plain sum. -/
theorem wrappedSum_eq_plainSum (c d : Int) (hlo : 0 ≤ c + d) (hhi : c + d < (SIZE_MOD : Int)) :
    wrappedSum c d = plainSum c d := by
  rw [wrappedSum, plainSum]
  exact Int.emod_eq_of_lt hlo hhi



/-! ## Absent cells and addition -/

theorem evaluate_ref_absent {F : Type} [DoubleOps F] (h : Heap F) (m : Nat) (e : Bool)
    (p : CPos) (V : Finset (Nat × Nat)) (fuel : Nat) (habs : (h.nodes m).find p = none) :
    evaluate h (fuel + 1) (.ref e p m) V = some (.empty, V) := by
  rw [evaluate, habs]

/-- C19. Absent cells are Empty: when no cell exists at `p` in sheet `i`, `getValue(p)` is
`Empty`, and a reference node to `p` bound to that sheet evaluates to `Empty` under every
visited set (for every positive recursion bound), leaving the visited set as it was. -/
theorem absent_cells_empty {F : Type} [DoubleOps F] (h : Heap F) (i : Nat) (p : CPos)
    (habs : (h.builder i).nodeExists p = false) :
    CSpreadsheet.getValue h i p = some (.ok .empty) ∧
      ∀ (e : Bool) (V : Finset (Nat × Nat)) (fuel : Nat),
        evaluate h (fuel + 1) (.ref e p i) V = some (.empty, V) := by
  have hnone : (h.nodes i).find p = none := by
    simp only [CMyExprBuilder.nodeExists] at habs
    cases hf : (h.nodes i).find p with
    | none => rfl
    | some n =>
      have hf1 : (h.builder i).m_nodes.find p = some n := hf
      rw [hf1] at habs; simp at habs
  exact ⟨getValueFuel_of_find_none h i _ p hnone,
    fun e V fuel => evaluate_ref_absent h i e p V fuel hnone⟩

/-- C19 (witness). In the sheet `x4` of the program's own test there is no cell at `C7`; its
value is `Empty`. -/
theorem absent_cells_empty_witness :
    (exampleCycle.builder 0).nodeExists (CPos.mk2 3 7) = false ∧
      CSpreadsheet.getValue exampleCycle 0 (CPos.mk2 3 7) = some (.ok .empty) :=
  ⟨by decide, (absent_cells_empty exampleCycle 0 (CPos.mk2 3 7) (by decide)).1⟩

/-- C20. Addition semantics: when the operands of a `+` node evaluate to `a` and `b`, the
node evaluates to `Number(a + b)` for two numbers, to `Text(a ++ b)` for two texts, to
`Text(to_string(a) ++ b)` resp. `Text(a ++ to_string(b))` when exactly one operand is a
number, and to `Empty` when an operand is `Empty`. -/
theorem addition_semantics {F : Type} [DoubleOps F] (h : Heap F) (fuel : Nat) (e : Bool)
    (l r : CNode F) (V V1 V2 : Finset (Nat × Nat)) (a b : CValue F)
    (hl : evaluate h fuel l V = some (a, V1)) (hr : evaluate h fuel r V1 = some (b, V2)) :
    ∃ v, evaluate h (fuel + 1) (.binary e .add l r) V = some (v, V2) ∧
      (∀ x y, a = .num x → b = .num y → v = .num (DoubleOps.add x y)) ∧
      (∀ s t, a = .str s → b = .str t → v = .str (s ++ t)) ∧
      (∀ x t, a = .num x → b = .str t → v = .str (DoubleOps.to_string x ++ t)) ∧
      (∀ s y, a = .str s → b = .num y → v = .str (s ++ DoubleOps.to_string y)) ∧
      (a = .empty ∨ b = .empty → v = .empty) := by
  refine ⟨evalBinary .add a b, ?_, ?_, ?_, ?_, ?_, ?_⟩
  · rw [evaluate, hl]; simp only; rw [hr]
  · rintro x y rfl rfl; rfl
  · rintro s t rfl rfl; rfl
  · rintro x t rfl rfl; rfl
  · rintro s y rfl rfl; rfl
  · rintro (rfl | rfl)
    · exact evalBinary_empty_left _ _
    · exact evalBinary_empty_right _ _

/-- C20 (witness). The node `2 + "x"` evaluates to the text `2.000000x`. -/
theorem addition_semantics_witness :
    evaluate ([] : Heap Int) 2
        (.binary false .add (.value false (.num 2) "" false) (.value false (.str "x") "" true)) ∅
      = some (.str "2.000000x", ∅) := by
  obtain ⟨v, hv, _, _, h3, _, _⟩ := addition_semantics ([] : Heap Int) 1 false
    (.value false (.num 2) "" false) (.value false (.str "x") "" true) ∅ ∅ ∅
    (.num 2) (.str "x") rfl rfl
  rw [hv, h3 2 "x" rfl rfl]
  rfl

theorem Table.keys_assign {F : Type} (t : Table F) (k : CPos) (n : CNode F) :
    (t.assign k n).keys = insert k.key t.keys := by
  induction t with
  | nil => rfl
  | cons e rest ih =>
    obtain ⟨k1, n1⟩ := e
    rw [Table.assign]
    cases h1 : k.lt k1 with
    | true => rw [if_pos rfl]; rfl
    | false =>
      rw [if_neg (by simp)]
      cases h2 : k1.lt k with
      | true =>
        rw [if_pos rfl]
        simp only [Table.keys, ih]
        exact Finset.Insert.comm _ _ _
      | false =>
        rw [if_neg (by simp)]
        have heq := CPos.not_lt_not_lt k k1 h1 h2
        simp only [Table.keys, heq, Finset.insert_idem]

/-- What a successful `setCell` leaves in the map: a cell at `pos`, every other cell as
before, and no other new key. -/
theorem setCell_ok_true {F : Type} [DoubleOps F] (parser : Parser F) (self : Nat)
    (b b1 : CMyExprBuilder F) (pos : CPos) (contents : String)
    (hset : CSpreadsheet.setCell parser self b pos contents = (.ok true, b1)) :
    (b1.m_nodes.find pos).isSome = true ∧
      (∀ k : CPos, pos.key ≠ k.key → b1.m_nodes.find k = b.m_nodes.find k) ∧
      b1.m_nodes.keys = insert pos.key b.m_nodes.keys := by
  rw [CSpreadsheet.setCell] at hset
  split at hset
  · have hp := parseExpression_nodes parser self b contents
    revert hset hp
    cases parseExpression parser self b contents with
    | mk e b2 =>
      intro hset hp
      cases e with
      | some e => cases e <;> simp at hset
      | none =>
        simp only at hset hp
        by_cases hlen : b2.m_stack.length = 1
        · obtain ⟨top, htop⟩ := List.length_eq_one.1 hlen
          rw [CMyExprBuilder.updateNodes_ok b2 pos top htop] at hset
          simp only [Prod.mk.injEq, true_and] at hset
          rw [← hset]
          simp only [hp]
          refine ⟨by rw [Table.find_assign_self]; rfl, ?_, ?_⟩
          · intro k hk
            rw [Table.find_assign_ne _ _ _ _ hk, Table.find_assign_ne _ _ _ _ hk]
          · rw [Table.keys_assign, Table.keys_assign, Finset.insert_idem]
        · rw [CMyExprBuilder.updateNodes_error b2 pos hlen] at hset
          simp at hset
  · split at hset
    · simp only [Prod.mk.injEq, true_and] at hset
      rw [← hset]
      refine ⟨by simp only [CMyExprBuilder.addCValNode]; rw [Table.find_assign_self]; rfl, ?_, ?_⟩
      · intro k hk; exact Table.find_assign_ne _ _ _ _ hk
      · exact Table.keys_assign _ _ _
    · simp only [Prod.mk.injEq, true_and] at hset
      rw [← hset]
      refine ⟨by simp only [CMyExprBuilder.addCValNode]; rw [Table.find_assign_self]; rfl, ?_, ?_⟩
      · intro k hk; exact Table.find_assign_ne _ _ _ _ hk
      · exact Table.keys_assign _ _ _
    · simp at hset

theorem getValueFuel_key_congr {F : Type} [DoubleOps F] (h : Heap F) (i : Nat) (fuel : Nat)
    (p q : CPos) (hpq : p.key = q.key) :
    CSpreadsheet.getValueFuel h i fuel p = CSpreadsheet.getValueFuel h i fuel q := by
  have hf : (h.builder i).m_nodes.find p = (h.builder i).m_nodes.find q :=
    Table.find_congr _ p q hpq
  have hf1 : (h.nodes i).find p = (h.nodes i).find q := hf
  simp only [CSpreadsheet.getValueFuel, CMyExprBuilder.nodeExists, CMyExprBuilder.getVal, hf,
    hf1, hpq]

/-! ## Edit visibility -/

theorem setCell_literal {F : Type} [DoubleOps F] (parser : Parser F) (self : Nat)
    (b : CMyExprBuilder F) (pos : CPos) (contents : String)
    (hlit : charAt contents.data 0 ≠ '=') (v : CValue F) (hv : literalValue contents = some v) :
    CSpreadsheet.setCell parser self b pos contents = (.ok true, b.addCValNode pos v) := by
  rw [CSpreadsheet.setCell, if_neg hlit]
  rw [literalValue] at hv
  revert hv
  cases (DoubleOps.stod contents : StodResult F) with
  | ok num => intro hv; simp only [Option.some.injEq] at hv; rw [← hv]
  | invalid_argument => intro hv; simp only [Option.some.injEq] at hv; rw [← hv]
  | out_of_range => intro hv; simp at hv

theorem getValue_of_evaluate {F : Type} [DoubleOps F] (h : Heap F) (i : Nat) (p : CPos)
    (n : CNode F) (hf : (h.nodes i).find p = some n) (fuel : Nat) (v : CValue F)
    (V : Finset (Nat × Nat)) (hev : evaluate h fuel n {p.key} = some (v, V)) :
    CSpreadsheet.getValue h i p = some (.ok v) := by
  obtain ⟨v1, hv1⟩ := evaluate_terminates h h.fuelBound n {p.key}
    (Heap.fuelBound_enough h i p n hf _)
  have e1 := evaluate_mono h _ (max fuel h.fuelBound) n _ _ (le_max_left _ _) hev
  have e2 := evaluate_mono h _ (max fuel h.fuelBound) n _ _ (le_max_right _ _) hv1
  rw [e1] at e2
  simp only [Option.some.injEq, Prod.mk.injEq] at e2
  rw [CSpreadsheet.getValue, getValueFuel_of_find h i _ p n hf, hv1, e2.1]
  rfl

/-- C11. Edit visibility: in a sheet `i`, after `setCell(q, contents)` with literal contents
of value `v`, the cell `q` holds the literal `v` and every other cell its old tree; the next
`getValue(p)` for `p != q` is the evaluation of the old tree of `p` in the new table; and
when the root of `p` is a reference to `q`, `getValue(p)` is `v`. -/
theorem edit_visibility {F : Type} [DoubleOps F] (parser : Parser F) (h : Heap F) (i : Nat)
    (hi : i < h.length) (p q : CPos) (hpq : p.key ≠ q.key) (contents : String)
    (hlit : charAt contents.data 0 ≠ '=') (v : CValue F)
    (hv : literalValue contents = some v) :
    (CSpreadsheet.setCell parser i (h.builder i) q contents).1 = .ok true ∧
    (Heap.nodes (h.set i (CSpreadsheet.setCell parser i (h.builder i) q contents).2) i).find q
      = some (.value false v "" false) ∧
    (Heap.nodes (h.set i (CSpreadsheet.setCell parser i (h.builder i) q contents).2) i).find p
      = (h.nodes i).find p ∧
    (∀ n, (h.nodes i).find p = some n →
      CSpreadsheet.getValue (h.set i (CSpreadsheet.setCell parser i (h.builder i) q contents).2)
          i p =
        (evaluate (h.set i (CSpreadsheet.setCell parser i (h.builder i) q contents).2)
          (Heap.fuelBound (h.set i (CSpreadsheet.setCell parser i (h.builder i) q contents).2))
          n {p.key}).map fun r => Except.ok r.1) ∧
    (∀ e q1, (h.nodes i).find p = some (.ref e q1 i) → q1.key = q.key →
      CSpreadsheet.getValue (h.set i (CSpreadsheet.setCell parser i (h.builder i) q contents).2)
          i p = some (.ok v)) := by
  rw [setCell_literal parser i (h.builder i) q contents hlit v hv]
  have hnodes : Heap.nodes (h.set i ((h.builder i).addCValNode q v)) i
      = (h.nodes i).assign q (.value false v "" false) := by
    rw [Heap.nodes, Heap.builder_set, if_pos ⟨rfl, hi⟩]
    rfl
  have hq : (Heap.nodes (h.set i ((h.builder i).addCValNode q v)) i).find q
      = some (.value false v "" false) := by
    rw [hnodes, Table.find_assign_self]
  have hp : (Heap.nodes (h.set i ((h.builder i).addCValNode q v)) i).find p
      = (h.nodes i).find p := by
    rw [hnodes, Table.find_assign_ne _ _ _ _ (Ne.symm hpq)]
  refine ⟨rfl, hq, hp, ?_, ?_⟩
  · intro n hn
    rw [CSpreadsheet.getValue, getValueFuel_of_find _ i _ p n (hp.trans hn)]
  · intro e q1 hn hq1
    refine getValue_of_evaluate _ i p _ (hp.trans hn) 2 v {p.key} ?_
    have hnotin : q1.key ∉ ({p.key} : Finset (Nat × Nat)) := by
      rw [Finset.mem_singleton, hq1]; exact Ne.symm hpq
    rw [evaluate, Table.find_congr _ q1 q hq1, hq]
    simp only
    rw [if_neg hnotin, evaluate]
    simp only [Finset.erase_insert hnotin]

/-- C11 (witness). In the sheet `x0 = {A1 = 10, B1 = A1 + 1}`, `setCell(A1, "12")` puts the
literal `12` at `A1`, and the next `getValue(B1)` is `13`. -/
theorem edit_visibility_witness :
    (0 < exampleTwo.length ∧ (CPos.mk2 2 1).key ≠ (CPos.mk2 1 1).key ∧
      charAt "12".data 0 ≠ '=' ∧ (literalValue "12" : Option (CValue Int)) = some (.num 12)) ∧
    (Heap.nodes (exampleTwo.set 0
        (CSpreadsheet.setCell exampleParser 0 (exampleTwo.builder 0) (CPos.mk2 1 1) "12").2)
      0).find (CPos.mk2 1 1) = some (.value false (.num 12) "" false) ∧
    CSpreadsheet.getValue (exampleTwo.set 0
        (CSpreadsheet.setCell exampleParser 0 (exampleTwo.builder 0) (CPos.mk2 1 1) "12").2)
      0 (CPos.mk2 2 1) = some (.ok (.num 13)) :=
  ⟨⟨by decide, by decide, by decide, by decide⟩,
    (edit_visibility exampleParser exampleTwo 0 (by decide) (CPos.mk2 2 1) (CPos.mk2 1 1)
      (by decide) "12" (by decide) (.num 12) (by decide)).2.1,
    by decide⟩



/-! ## Characters -/

theorem char_toNat_ofNat (n : Nat) (h : n < 55296) : (Char.ofNat n).toNat = n := by
  have hv : n.isValidChar := Or.inl h
  rw [Char.ofNat, dif_pos hv]
  rfl

theorem char_alpha_range (c : Char) (h : c.isAlpha = true) :
    (65 ≤ c.toNat ∧ c.toNat ≤ 90) ∨ (97 ≤ c.toNat ∧ c.toNat ≤ 122) := by
  simp only [Char.isAlpha, Char.isUpper, Char.isLower, Bool.or_eq_true, Bool.and_eq_true,
    decide_eq_true_eq] at h
  simp only [Char.toNat]
  rcases h with h | h
  · left; exact ⟨h.1, h.2⟩
  · right; exact ⟨h.1, h.2⟩

theorem char_toUpper_alpha (c : Char) (h : c.isAlpha = true) :
    65 ≤ c.toUpper.toNat ∧ c.toUpper.toNat ≤ 90 := by
  rcases char_alpha_range c h with h1 | h1
  · have : c.toUpper = c := by
      simp only [Char.toUpper]
      rw [if_neg]; omega
    rw [this]; exact h1
  · have : c.toUpper = Char.ofNat (c.toNat - 32) := by
      simp only [Char.toUpper]
      rw [if_pos]; omega
    rw [this, char_toNat_ofNat _ (by omega)]
    omega

theorem char_digit_range (c : Char) (h : c.isDigit = true) : 48 ≤ c.toNat ∧ c.toNat ≤ 57 := by
  simp only [Char.isDigit, Bool.and_eq_true, decide_eq_true_eq] at h
  exact ⟨h.1, h.2⟩

theorem char_toUpper_of_not_lower (c : Char) (h : ¬ (97 ≤ c.toNat ∧ c.toNat ≤ 122)) :
    c.toUpper = c := by
  simp only [Char.toUpper]
  rw [if_neg]; omega

theorem char_digit_not_alpha (c : Char) (h : c.isDigit = true) : c.isAlpha = false := by
  have hr := char_digit_range c h
  cases ha : c.isAlpha with
  | false => rfl
  | true => rcases char_alpha_range c ha with h1 | h1 <;> omega

theorem digitChar_of_digit (c : Char) (h : c.isDigit = true) :
    Nat.digitChar (c.toNat - 48) = c := by
  have hr := char_digit_range c h
  rw [← Char.ofNat_toNat c]
  generalize c.toNat = n at hr ⊢
  obtain ⟨h1, h2⟩ := hr
  interval_cases n <;> rfl

/-! ## Position texts: parsing and rendering -/

theorem charAt_append_right (pre post : List Char) : charAt (pre ++ post) pre.length
    = post.headD (Char.ofNat 0) := by
  induction pre with
  | nil => cases post <;> rfl
  | cons c cs ih =>
    simp only [charAt, List.cons_append, List.length_cons, List.getD_cons_succ] at ih ⊢
    exact ih

/-- The loop of `toNum` reads a run of letters that is followed by no letter. -/
theorem toNumLoop_letters (col post : List Char)
    (hpost : (post.headD (Char.ofNat 0)).isAlpha = false) :
    ∀ (pre : List Char) (fuel num : Nat), col.length ≤ fuel →
      (∀ c ∈ col, c.isAlpha = true) → colValue col num < SIZE_MOD →
      toNumLoop (pre ++ col ++ post) fuel pre.length num
        = (colValue col num, pre.length + col.length) := by
  induction col with
  | nil =>
    intro pre fuel num _ _ _
    cases fuel with
    | zero => rfl
    | succ fuel =>
      rw [toNumLoop, List.append_nil, charAt_append_right, hpost]
      simp [colValue]
  | cons c cs ih =>
    intro pre fuel num hfuel halpha hval
    cases fuel with
    | zero => simp at hfuel
    | succ fuel =>
      have hc : charAt (pre ++ c :: cs ++ post) pre.length = c := by
        rw [List.append_assoc, charAt_append_right]; rfl
      have hlt : pre.length < (pre ++ c :: cs ++ post).length := by
        simp only [List.length_append, List.length_cons]; omega
      rw [toNumLoop, hc]
      simp only [hlt, halpha c (List.mem_cons_self _ _), decide_True, Bool.and_self, if_true]
      have hmono : ∀ (l : List Char) (a : Nat), a ≤ colValue l a := by
        intro l
        induction l with
        | nil => intro a; exact le_refl _
        | cons d ds ihd =>
          intro a
          rw [colValue]
          exact le_trans (by omega) (ihd _)
      have hstep : num * 26 + (c.toUpper.toNat - 65 + 1) < SIZE_MOD := by
        rw [colValue] at hval
        exact lt_of_le_of_lt (hmono cs _) hval
      rw [Nat.mod_eq_of_lt hstep]
      have := ih (pre ++ [c]) fuel (num * 26 + (c.toUpper.toNat - 65 + 1))
        (by simp at hfuel; omega) (fun d hd => halpha d (List.mem_cons_of_mem _ hd))
        (by rw [colValue] at hval; exact hval)
      simp only [List.append_assoc, List.singleton_append, List.length_append,
        List.length_singleton] at this
      rw [colValue, List.length_cons]
      simp only [List.append_assoc, List.cons_append] at this ⊢
      rw [this]
      congr 1
      omega

theorem colValue_snoc (cs : List Char) (c : Char) :
    ∀ acc, colValue (cs ++ [c]) acc = colValue cs acc * 26 + (c.toUpper.toNat - 65 + 1) := by
  induction cs with
  | nil => intro acc; rfl
  | cons d ds ih => intro acc; rw [List.cons_append, colValue, colValue, ih]

/-- The column loop of `toStr` writes the letters whose base-26 value is the column. -/
theorem colLoop_letters (col : List Char) :
    (∀ c ∈ col, c.isAlpha = true) → ∀ (fuel : Nat) (acc : List Char),
      colValue col 0 ≤ fuel →
      colLoop fuel (colValue col 0) acc = col.map Char.toUpper ++ acc := by
  induction col using List.reverseRecOn with
  | nil =>
    intro _ fuel acc _
    cases fuel with
    | zero => rfl
    | succ fuel => simp [colLoop, colValue]
  | append_singleton cs c ih =>
    intro halpha fuel acc hfuel
    have hc := char_toUpper_alpha c (halpha c (by simp))
    rw [colValue_snoc] at hfuel ⊢
    cases fuel with
    | zero => omega
    | succ fuel =>
      rw [colLoop, if_pos (by omega)]
      have h1 : (colValue cs 0 * 26 + (c.toUpper.toNat - 65 + 1) - 1) / 26 = colValue cs 0 := by
        omega
      have h2 : 65 + (colValue cs 0 * 26 + (c.toUpper.toNat - 65 + 1) - 1) % 26
          = c.toUpper.toNat := by omega
      rw [h1, h2, Char.ofNat_toNat, ih (fun d hd => halpha d (by simp [hd])) fuel _ (by omega)]
      simp

theorem digitsValue_snoc (cs : List Char) (c : Char) (hcs : ∀ d ∈ cs, d.isDigit = true)
    (hc : c.isDigit = true) :
    ∀ acc, digitsValue (cs ++ [c]) acc = digitsValue cs acc * 10 + (c.toNat - 48) := by
  induction cs with
  | nil => intro acc; simp [digitsValue, hc]
  | cons d ds ih =>
    intro acc
    have hd : d.isDigit = true := hcs d (List.mem_cons_self _ _)
    simp only [List.cons_append, digitsValue, hd, if_true]
    exact ih (fun e he => hcs e (List.mem_cons_of_mem _ he)) _

theorem digitsValue_ge (cs : List Char) : ∀ acc, acc ≤ digitsValue cs acc := by
  induction cs with
  | nil => intro acc; exact le_refl _
  | cons d ds ih =>
    intro acc
    rw [digitsValue]
    split
    · exact le_trans (by omega) (ih _)
    · exact le_refl _

theorem digitsValue_pos (row : List Char) (hrow : ∀ d ∈ row, d.isDigit = true)
    (hne : row ≠ []) (hlead : row.head? ≠ some '0') : 1 ≤ digitsValue row 0 := by
  cases row with
  | nil => exact absurd rfl hne
  | cons c cs =>
    have hc := hrow c (List.mem_cons_self _ _)
    have hr := char_digit_range c hc
    have hc0 : c.toNat ≠ 48 := by
      intro h48
      apply hlead
      rw [List.head?_cons, ← Char.ofNat_toNat c, h48]
    rw [digitsValue, if_pos hc]
    exact le_trans (by omega) (digitsValue_ge cs _)

/-- The digits that `Nat.repr` writes for the value of a numeral without leading zero are
the numeral. -/
theorem toDigitsCore_digits (row : List Char) :
    (∀ d ∈ row, d.isDigit = true) → row ≠ [] → row.head? ≠ some '0' →
      ∀ (fuel : Nat) (ds : List Char), digitsValue row 0 < fuel →
        Nat.toDigitsCore 10 fuel (digitsValue row 0) ds = row ++ ds := by
  induction row using List.reverseRecOn with
  | nil => intro _ hne; exact absurd rfl hne
  | append_singleton cs c ih =>
    intro hdig _ hlead fuel ds hfuel
    have hc : c.isDigit = true := hdig c (by simp)
    have hcs : ∀ d ∈ cs, d.isDigit = true := fun d hd => hdig d (by simp [hd])
    have hr := char_digit_range c hc
    rw [digitsValue_snoc cs c hcs hc] at hfuel ⊢
    cases fuel with
    | zero => omega
    | succ fuel =>
      rw [Nat.toDigitsCore]
      have h1 : (digitsValue cs 0 * 10 + (c.toNat - 48)) % 10 = c.toNat - 48 := by omega
      have h2 : (digitsValue cs 0 * 10 + (c.toNat - 48)) / 10 = digitsValue cs 0 := by omega
      simp only [h1, h2, digitChar_of_digit c hc]
      cases cs with
      | nil => simp [digitsValue]
      | cons d ds1 =>
        have hlead1 : (d :: ds1).head? ≠ some '0' := by
          simpa using hlead
        have hpos := digitsValue_pos (d :: ds1) hcs (by simp) hlead1
        rw [if_neg (by omega), ih hcs (by simp) hlead1 fuel _ (by omega)]
        simp

theorem repr_digits (row : List Char) (hrow : ∀ d ∈ row, d.isDigit = true) (hne : row ≠ [])
    (hlead : row = ['0'] ∨ row.head? ≠ some '0') :
    Nat.repr (digitsValue row 0) = String.mk row := by
  rcases hlead with h0 | hlead
  · subst h0; decide
  · rw [Nat.repr, Nat.toDigits, toDigitsCore_digits row hrow hne hlead _ _ (Nat.lt_succ_self _)]
    simp [List.asString]

theorem headD_not_dollar_of_alpha (l : List Char) (hne : l ≠ [])
    (h : ∀ c ∈ l, c.isAlpha = true) : l.headD (Char.ofNat 0) ≠ '$' ∧
      (l.headD (Char.ofNat 0)).isAlpha = true := by
  cases l with
  | nil => exact absurd rfl hne
  | cons c cs =>
    have hc := h c (List.mem_cons_self _ _)
    refine ⟨?_, hc⟩
    intro heq
    simp only [List.headD_cons] at heq
    rw [heq] at hc
    exact absurd hc (by decide)

theorem headD_not_dollar_of_digit (l : List Char) (hne : l ≠ [])
    (h : ∀ c ∈ l, c.isDigit = true) : l.headD (Char.ofNat 0) ≠ '$' ∧
      (l.headD (Char.ofNat 0)).isDigit = true := by
  cases l with
  | nil => exact absurd rfl hne
  | cons c cs =>
    have hc := h c (List.mem_cons_self _ _)
    refine ⟨?_, hc⟩
    intro heq
    simp only [List.headD_cons] at heq
    rw [heq] at hc
    exact absurd hc (by decide)

theorem processCol_letters (p : CPos) (absCol : Bool) (col post : List Char)
    (hne : col ≠ []) (halpha : ∀ c ∈ col, c.isAlpha = true)
    (hval : colValue col 0 < SIZE_MOD)
    (hpost : (post.headD (Char.ofNat 0)).isAlpha = false) :
    CPos.processCol p ((if absCol then ['$'] else []) ++ col ++ post) 0 =
      some ({ m_col := colValue col 0, m_row := p.m_row, m_absRow := p.m_absRow,
              m_absCol := absCol || p.m_absCol },
        (if absCol then 1 else 0) + col.length) := by
  obtain ⟨hnd, hal⟩ := headD_not_dollar_of_alpha col hne halpha
  have hcol0 : ∀ rest : List Char, charAt (col ++ rest) 0 = col.headD (Char.ofNat 0) := by
    intro rest
    cases col with
    | nil => exact absurd rfl hne
    | cons c cs => rfl
  cases absCol with
  | false =>
    have h0 : charAt ([] ++ col ++ post) 0 = col.headD (Char.ofNat 0) := hcol0 post
    have hlen : ¬ (0 = ([] ++ col ++ post).length) := by
      cases col with
      | nil => exact absurd rfl hne
      | cons c cs => simp
    have hnum := toNumLoop_letters col post hpost [] (([] ++ col ++ post).length - 0) 0
      (by simp) halpha hval
    simp only [CPos.processCol, Bool.false_eq_true, if_false, h0, hnd, hal, hlen, decide_False,
      Bool.not_true, Bool.or_self, CPos.toNum]
    simp only [List.length_nil] at hnum
    rw [hnum]
    simp
  | true =>
    have h0 : charAt (['$'] ++ col ++ post) 0 = '$' := rfl
    have h1 : charAt (['$'] ++ col ++ post) (0 + 1) = col.headD (Char.ofNat 0) := by
      have := charAt_append_right ['$'] (col ++ post)
      rw [← List.append_assoc] at this
      rw [show (0 : Nat) + 1 = ['$'].length from rfl, this]
      cases col with
      | nil => exact absurd rfl hne
      | cons c cs => rfl
    have hlen : ¬ (0 + 1 = (['$'] ++ col ++ post).length) := by
      cases col with
      | nil => exact absurd rfl hne
      | cons c cs => simp
    have hnum := toNumLoop_letters col post hpost ['$'] ((['$'] ++ col ++ post).length - (0 + 1))
      0 (by simp) halpha hval
    simp only [CPos.processCol, if_true, h0, h1, hal, hlen, decide_False,
      Bool.not_true, Bool.or_self, CPos.toNum]
    simp only [List.length_singleton] at hnum
    rw [show (0 : Nat) + 1 = 1 from rfl, hnum]
    simp

theorem processRow_digits (p : CPos) (pre : List Char) (absRow : Bool) (row : List Char)
    (hne : row ≠ []) (hdig : ∀ c ∈ row, c.isDigit = true)
    (hval : digitsValue row 0 < SIZE_MOD) :
    CPos.processRow p (pre ++ (if absRow then ['$'] else []) ++ row) pre.length =
      .ok (some { m_col := p.m_col, m_row := digitsValue row 0,
                  m_absRow := absRow || p.m_absRow, m_absCol := p.m_absCol }) := by
  obtain ⟨hnd, hdg⟩ := headD_not_dollar_of_digit row hne hdig
  have hrowlen : 0 < row.length := List.length_pos.2 hne
  cases absRow with
  | false =>
    have h0 : charAt (pre ++ [] ++ row) pre.length = row.headD (Char.ofNat 0) := by
      rw [List.append_nil, charAt_append_right]
    have hlen : ¬ (pre.length = (pre ++ [] ++ row).length) := by
      simp only [List.append_nil, List.length_append]; omega
    have hdrop : (pre ++ [] ++ row).drop pre.length = row := by
      rw [List.append_nil, List.drop_left]
    simp only [CPos.processRow, Bool.false_eq_true, if_false, h0, hnd, hdg, hlen, decide_False,
      Bool.not_true, Bool.or_self, hdrop, stoull, hval, if_true, Bool.false_or]
  | true =>
    have h0 : charAt (pre ++ ['$'] ++ row) pre.length = '$' := by
      rw [List.append_assoc, charAt_append_right]; rfl
    have h1 : charAt (pre ++ ['$'] ++ row) (pre.length + 1) = row.headD (Char.ofNat 0) := by
      have := charAt_append_right (pre ++ ['$']) row
      simp only [List.length_append, List.length_singleton] at this
      exact this
    have hlen : ¬ (pre.length + 1 = (pre ++ ['$'] ++ row).length) := by
      simp only [List.length_append, List.length_singleton]; omega
    have hdrop : (pre ++ ['$'] ++ row).drop (pre.length + 1) = row := by
      have := List.drop_left (pre ++ ['$']) row
      simp only [List.length_append, List.length_singleton] at this
      exact this
    simp only [CPos.processRow, if_true, h0, h1, hdg, hlen, decide_False,
      Bool.not_true, Bool.or_self, hdrop, stoull, hval, Bool.true_or, Bool.false_eq_true,
      if_false]

/-- Parsing the text `[$]COL[$]ROW`. -/
theorem ofString_positionText (absCol : Bool) (col : List Char) (absRow : Bool)
    (row : List Char) (hcol : col ≠ []) (halpha : ∀ c ∈ col, c.isAlpha = true)
    (hrow : row ≠ []) (hdig : ∀ c ∈ row, c.isDigit = true)
    (hcolv : colValue col 0 < SIZE_MOD) (hrowv : digitsValue row 0 < SIZE_MOD) :
    CPos.ofString (String.mk (positionText absCol col absRow row)) =
      .ok { m_col := colValue col 0, m_row := digitsValue row 0, m_absRow := absRow,
            m_absCol := absCol } := by
  have hcl : 0 < col.length := List.length_pos.2 hcol
  have hrl : 0 < row.length := List.length_pos.2 hrow
  have hpost : (((if absRow then ['$'] else []) ++ row).headD (Char.ofNat 0)).isAlpha
      = false := by
    cases absRow with
    | true => rfl
    | false =>
      obtain ⟨_, hd⟩ := headD_not_dollar_of_digit row hrow hdig
      exact char_digit_not_alpha _ hd
  have hlen2 : ¬ ((positionText absCol col absRow row).length < 2) := by
    simp only [positionText, List.length_append]; omega
  have hpc := processCol_letters { m_col := 0, m_row := 0 } absCol col
    ((if absRow then ['$'] else []) ++ row) hcol halpha hcolv hpost
  have hassoc : (if absCol then ['$'] else []) ++ col ++ ((if absRow then ['$'] else []) ++ row)
      = positionText absCol col absRow row := by
    simp only [positionText, List.append_assoc]
  rw [hassoc] at hpc
  have hpr := processRow_digits
    { m_col := colValue col 0, m_row := 0, m_absRow := false, m_absCol := absCol || false }
    ((if absCol then ['$'] else []) ++ col) absRow row hrow hdig hrowv
  have hprelen : ((if absCol then ['$'] else []) ++ col).length
      = (if absCol then 1 else 0) + col.length := by
    cases absCol with
    | false => simp
    | true => simp only [if_true, List.length_append, List.length_singleton]
  rw [hprelen] at hpr
  simp only [CPos.ofString, CPos.setRowCol, hlen2, if_false, hpc]
  have hstr : (if absCol then ['$'] else []) ++ col ++ (if absRow then ['$'] else []) ++ row
      = positionText absCol col absRow row := rfl
  rw [hstr] at hpr
  rw [hpr]
  simp

theorem map_toUpper_digits (row : List Char) (hdig : ∀ c ∈ row, c.isDigit = true) :
    row.map Char.toUpper = row := by
  induction row with
  | nil => rfl
  | cons c cs ih =>
    have hr := char_digit_range c (hdig c (List.mem_cons_self _ _))
    rw [List.map_cons, ih (fun d hd => hdig d (List.mem_cons_of_mem _ hd)),
      char_toUpper_of_not_lower c (by omega)]

/-- Rendering the position parsed from `[$]COL[$]ROW`. -/
theorem toStr_positionText (absCol : Bool) (col : List Char) (absRow : Bool)
    (row : List Char) (halpha : ∀ c ∈ col, c.isAlpha = true)
    (hrow : row ≠ []) (hdig : ∀ c ∈ row, c.isDigit = true)
    (hlead : row = ['0'] ∨ row.head? ≠ some '0') :
    CPos.toStr { m_col := colValue col 0, m_row := digitsValue row 0, m_absRow := absRow,
                 m_absCol := absCol } =
      String.mk ((positionText absCol col absRow row).map Char.toUpper) := by
  rw [CPos.toStr, colLoop_letters col halpha _ [] (le_refl _), repr_digits row hdig hrow hlead]
  apply String.ext
  simp only [String.data_append, positionText, List.map_append, List.append_nil,
    map_toUpper_digits row hdig]
  cases absCol <;> cases absRow <;> rfl

/-- C12 (counterexample). The text `A01` has the form `COL ROW` with the letter `A` and the
digits `01`; it is parsed as column 1, row 1 and rendered as `A1`, which is not `A01`. -/
theorem position_round_trip_counterexample :
    ((∀ c ∈ ['A'], c.isAlpha = true) ∧ (∀ c ∈ ['0', '1'], c.isDigit = true)) ∧
      ¬ PositionRoundTrip false ['A'] false ['0', '1'] := by
  refine ⟨by decide, ?_⟩
  rintro ⟨p, hp, hs⟩
  have hparse : CPos.ofString (String.mk (positionText false ['A'] false ['0', '1']))
      = .ok { m_col := 1, m_row := 1 } := by decide
  rw [hparse] at hp
  rw [← Except.ok.inj hp] at hs
  revert hs
  decide

/-- C12 (amended). Position round trip: for every text `[$]COL[$]ROW` in which `COL` is one
or more letters whose base-26 value is below `2 ^ 64` and `ROW` is one or more decimal digits
without a leading zero (the single digit `0` is allowed) whose value is below `2 ^ 64`, the
text is parsed, and rendering the parsed position gives the text with its letters in upper
case. -/
theorem position_round_trip (absCol : Bool) (col : List Char) (absRow : Bool)
    (row : List Char) (hcol : col ≠ []) (halpha : ∀ c ∈ col, c.isAlpha = true)
    (hrow : row ≠ []) (hdig : ∀ c ∈ row, c.isDigit = true)
    (hlead : row = ['0'] ∨ row.head? ≠ some '0')
    (hcolv : colValue col 0 < SIZE_MOD) (hrowv : digitsValue row 0 < SIZE_MOD) :
    PositionRoundTrip absCol col absRow row :=
  ⟨_, ofString_positionText absCol col absRow row hcol halpha hrow hdig hcolv hrowv,
    toStr_positionText absCol col absRow row halpha hrow hdig hlead⟩

/-- C12 (witness). The text `$ab$12` is parsed as column 28, row 12 with both flags, and
rendered as `$AB$12`. -/
theorem position_round_trip_witness :
    CPos.ofString "$ab$12"
      = .ok { m_col := 28, m_row := 12, m_absRow := true, m_absCol := true } ∧
    CPos.toStr { m_col := 28, m_row := 12, m_absRow := true, m_absCol := true } = "$AB$12" ∧
    PositionRoundTrip true ['a', 'b'] true ['1', '2'] :=
  ⟨by decide, by decide,
    position_round_trip true ['a', 'b'] true ['1', '2'] (by decide) (by decide) (by decide)
      (by decide) (by decide) (by decide) (by decide)⟩


/-! ## load -/

theorem getline_rest_length (is line rest : List Char) (delim : Char)
    (hg : getline is delim = some (line, rest)) : rest.length < is.length := by
  cases is with
  | nil => simp [getline] at hg
  | cons c cs =>
    simp only [getline, Option.some.injEq, Prod.mk.injEq] at hg
    rw [← hg.2, List.length_drop]
    have hsub : List.Sublist (List.dropWhile (fun c => c != delim) (c :: cs)) (c :: cs) :=
      List.dropWhile_sublist _
    have := hsub.length_le
    simp only [List.length_cons] at this ⊢
    omega

/-- The loop of `load` ends within `length + 1` iterations. -/
theorem loadLoop_total {F : Type} [DoubleOps F] (parser : Parser F) (self : Nat) (fuel : Nat) :
    ∀ (is : List Char) (b : CMyExprBuilder F), is.length < fuel →
      (loadLoop parser self fuel is b).isSome = true := by
  induction fuel with
  | zero => intro is b h; omega
  | succ fuel ih =>
    intro is b hlen
    rw [loadLoop]
    cases hg : getline is '~' with
    | none => rfl
    | some lr =>
      obtain ⟨line, rest⟩ := lr
      have hrest := getline_rest_length is line rest '~' hg
      simp only
      cases extractSizeT (line ++ ['~']) with
      | none => rfl
      | some c1 =>
        obtain ⟨col, iss1⟩ := c1
        simp only
        cases extractSizeT iss1 with
        | none => rfl
        | some c2 =>
          obtain ⟨row, iss2⟩ := c2
          simp only
          cases getline iss2 '~' with
          | none => rfl
          | some c3 =>
            obtain ⟨contents, r3⟩ := c3
            simp only
            split
            · rfl
            · split
              · rfl
              · exact ih rest _ (by omega)

/-- C14 (failing input). The stream `1 1 =1+~` holds a record whose formula `setCell`
rejects, and `load` returns `true`. -/
theorem load_malformed_failing_input :
    (CSpreadsheet.setCell exampleParser 0 ({} : CMyExprBuilder Int) (CPos.mk2 1 1) "=1+").1
        = .ok false ∧
      CSpreadsheet.load exampleParser 0 ({} : CMyExprBuilder Int) "1 1 =1+~"
        = some (.ok true, {}) := by
  decide

/-- C15 (failing input). On the stream `1 1~` the exception `std::out_of_range` leaves
`load`. -/
theorem load_throws_failing_input :
    CSpreadsheet.load exampleParser 0 ({} : CMyExprBuilder Int) "1 1~"
      = some (.error .out_of_range, {}) := by
  decide

/-- C16 (failing input). On the sheet with the single cell `C3`, `load` of the stream
`2 2 7~4 4 =1+~` returns `true`; afterwards `C3` is gone and `B2` holds `7`, but no cell
exists at `D4`, which the second record names. -/
theorem load_replaces_failing_input :
    CSpreadsheet.load exampleParser 0 exampleOld "2 2 7~4 4 =1+~"
        = some (.ok true, { m_nodes := [(CPos.mk2 2 2, .value false (.num 7) "" false)] }) ∧
      CMyExprBuilder.nodeExists
          ({ m_nodes := [(CPos.mk2 2 2, .value false (.num 7) "" false)] } : CMyExprBuilder Int)
          (CPos.mk2 4 4) = false := by
  decide

/-- C17 (failing input). `setCell(A1, "10abc")` stores the number `10`, and `getValue(A1)`
returns that number, not the text `10abc`. -/
theorem setCell_literal_failing_input :
    CSpreadsheet.setCell exampleParser 0 ({} : CMyExprBuilder Int) (CPos.mk2 1 1) "10abc"
        = (.ok true, { m_nodes := [(CPos.mk2 1 1, .value false (.num 10) "" false)] }) ∧
      CSpreadsheet.getValue
          [({ m_nodes := [(CPos.mk2 1 1, .value false (.num 10) "" false)] } :
            CMyExprBuilder Int)]
          0 (CPos.mk2 1 1) = some (.ok (.num 10)) := by
  decide

/-- C13 (failing input). The text `A1x`, with a character after the row digits, is accepted
as the position `A1`; and a row that does not fit a `size_t` fails with
`std::out_of_range`, not with the invalid-position error. -/
theorem position_parse_failing_input :
    CPos.ofString "A1x" = .ok { m_col := 1, m_row := 1 } ∧
      CPos.ofString "A99999999999999999999" = .error .out_of_range := by
  decide


/-- Whatever the parser does on the formula `=1+`: when `setCell` rejects it, `load` of the
stream `1 1 =1+~` still returns `true`. -/
theorem load_ignores_setCell {F : Type} [DoubleOps F] (parser : Parser F) (self : Nat)
    (b : CMyExprBuilder F)
    (hrej : (CSpreadsheet.setCell parser self (b.assignFrom self {}) (CPos.mk2 1 1) "=1+").1
      = .ok false) :
    (CSpreadsheet.load parser self b "1 1 =1+~").map Prod.fst = some (.ok true) := by
  have hg1 : getline "1 1 =1+~".data '~' = some ("1 1 =1+".data, []) := by decide
  have he1 : extractSizeT ("1 1 =1+".data ++ ['~']) = some (1, " 1 =1+~".data) := by decide
  have he2 : extractSizeT " 1 =1+~".data = some (1, " =1+~".data) := by decide
  have hg2 : getline " =1+~".data '~' = some (" =1+".data, []) := by decide
  have hlen : ¬ (" =1+".data.length < 1) := by decide
  have hdrop : String.mk (" =1+".data.drop 1) = "=1+" := by decide
  have hfuel : "1 1 =1+~".length + 1 = 7 + 1 + 1 := by decide
  rw [CSpreadsheet.load, hfuel, loadLoop, hg1]
  simp only [he1, he2, hg2, hlen, if_false, hdrop]
  revert hrej
  cases CSpreadsheet.setCell parser self (b.assignFrom self {}) (CPos.mk2 1 1) "=1+" with
  | mk r b1 =>
    intro hrej
    simp only at hrej
    subst hrej
    simp only
    rw [loadLoop]
    rfl

/-! ## Operators on values -/

theorem evaluate_binary {F : Type} [DoubleOps F] (h : Heap F) (fuel : Nat) (e : Bool)
    (op : BinOp) (l r : CNode F) (V V1 V2 : Finset (Nat × Nat)) (a b : CValue F)
    (hl : evaluate h fuel l V = some (a, V1)) (hr : evaluate h fuel r V1 = some (b, V2)) :
    evaluate h (fuel + 1) (.binary e op l r) V = some (evalBinary op a b, V2) := by
  rw [evaluate, hl]; simp only; rw [hr]

theorem evaluate_neg {F : Type} [DoubleOps F] (h : Heap F) (fuel : Nat) (e : Bool)
    (l : CNode F) (V V1 : Finset (Nat × Nat)) (a : CValue F)
    (hl : evaluate h fuel l V = some (a, V1)) :
    evaluate h (fuel + 1) (.neg e l) V = some (evalNeg a, V1) := by
  rw [evaluate, hl]

theorem char_eq_of_toNat (a b : Char) (h : a.toNat = b.toNat) : a = b := by
  apply Char.ext
  apply UInt32.ext
  exact h

theorem lexLess_iff (s : List Char) : ∀ t : List Char, lexLess s t = true ↔ s < t := by
  induction s with
  | nil =>
    intro t
    cases t with
    | nil => simp [lexLess]
    | cons b bs => simpa [lexLess] using List.Lex.nil
  | cons a as ih =>
    intro t
    cases t with
    | nil =>
      simp only [lexLess, Bool.false_eq_true, false_iff]
      intro hlt; cases hlt
    | cons b bs =>
      simp only [lexLess]
      by_cases hab : a.toNat < b.toNat
      · simp only [hab, if_true, true_iff]
        exact List.Lex.rel hab
      · by_cases hba : b.toNat < a.toNat
        · simp only [hab, hba, if_false, if_true, Bool.false_eq_true, false_iff]
          intro hlt
          cases hlt with
          | cons h1 => omega
          | rel h1 => exact hab h1
        · simp only [hab, hba, if_false]
          have heq : a = b := char_eq_of_toNat a b (by omega)
          subst heq
          rw [ih bs]
          constructor
          · intro h1; exact List.Lex.cons h1
          · intro hlt
            cases hlt with
            | cons h1 => exact h1
            | rel h1 => exact absurd h1 hab

theorem string_lt_iff_lexLess (s t : String) : s < t ↔ lexLess s.data t.data = true := by
  rw [String.lt_iff_toList_lt, lexLess_iff]
  rfl

theorem lexLess_total (s : List Char) :
    ∀ t : List Char, (!lexLess t s) = (lexLess s t || decide (s = t)) := by
  induction s with
  | nil =>
    intro t
    cases t with
    | nil => simp [lexLess]
    | cons b bs => simp [lexLess]
  | cons a as ih =>
    intro t
    cases t with
    | nil => simp [lexLess]
    | cons b bs =>
      simp only [lexLess]
      by_cases hab : a.toNat < b.toNat
      · have hba : ¬ b.toNat < a.toNat := by omega
        simp [hab, hba]
      · by_cases hba : b.toNat < a.toNat
        · have hne : a ≠ b := by
            intro h1; subst h1; omega
          simp [hab, hba, hne]
        · have heq : a = b := char_eq_of_toNat a b (by omega)
          subst heq
          simp only [hab, if_false, ih bs]
          simp

/-- C21. Numeric-only arithmetic: when the operands of a `-`, `*`, `/` or `^` node evaluate to
`a` and `b` (the operand of a negation node to `a`), then for numbers `a = x`, `b = y` the node
evaluates to the number `x - y`, `x * y`, `x ^ y`, `-x`; the `/` node evaluates to the number
`x / y` when the test `y != 0` holds and to `Empty` when it fails; and when an operand is a
text or `Empty`, the node evaluates to `Empty`. -/
theorem numeric_arithmetic {F : Type} [DoubleOps F] (h : Heap F) (fuel : Nat) (e : Bool)
    (l r : CNode F) (V V1 V2 : Finset (Nat × Nat)) (a b : CValue F)
    (hl : evaluate h fuel l V = some (a, V1)) (hr : evaluate h fuel r V1 = some (b, V2)) :
    (∀ x y, a = .num x → b = .num y →
      evaluate h (fuel + 1) (.binary e .sub l r) V = some (.num (DoubleOps.sub x y), V2) ∧
      evaluate h (fuel + 1) (.binary e .mul l r) V = some (.num (DoubleOps.mul x y), V2) ∧
      evaluate h (fuel + 1) (.binary e .pow l r) V = some (.num (DoubleOps.pow x y), V2) ∧
      (DoubleOps.ne y DoubleOps.zero = true →
        evaluate h (fuel + 1) (.binary e .div l r) V
          = some (.num (DoubleOps.div x y), V2)) ∧
      (DoubleOps.ne y DoubleOps.zero = false →
        evaluate h (fuel + 1) (.binary e .div l r) V = some (.empty, V2))) ∧
    (∀ x, a = .num x →
      evaluate h (fuel + 1) (.neg e l) V = some (.num (DoubleOps.neg x), V1)) ∧
    ((a = .empty ∨ (∃ s, a = .str s) ∨ b = .empty ∨ (∃ s, b = .str s)) →
      ∀ op, op = BinOp.sub ∨ op = BinOp.mul ∨ op = BinOp.div ∨ op = BinOp.pow →
        evaluate h (fuel + 1) (.binary e op l r) V = some (.empty, V2)) ∧
    ((a = .empty ∨ ∃ s, a = .str s) →
      evaluate h (fuel + 1) (.neg e l) V = some (.empty, V1)) := by
  refine ⟨?_, ?_, ?_, ?_⟩
  · rintro x y rfl rfl
    refine ⟨evaluate_binary h fuel e _ l r V V1 V2 _ _ hl hr,
      evaluate_binary h fuel e _ l r V V1 V2 _ _ hl hr,
      evaluate_binary h fuel e _ l r V V1 V2 _ _ hl hr, ?_, ?_⟩
    · intro hne
      rw [evaluate_binary h fuel e _ l r V V1 V2 _ _ hl hr]
      simp only [evalBinary, hne, if_true]
    · intro hne
      rw [evaluate_binary h fuel e _ l r V V1 V2 _ _ hl hr]
      simp only [evalBinary, hne, Bool.false_eq_true, if_false]
  · rintro x rfl
    exact evaluate_neg h fuel e l V V1 _ hl
  · intro hab op hop
    rw [evaluate_binary h fuel e op l r V V1 V2 a b hl hr]
    congr 1
    rcases hab with rfl | ⟨s, rfl⟩ | rfl | ⟨s, rfl⟩
    · exact congrArg (fun v => (v, V2)) (evalBinary_empty_left op b)
    · rcases hop with rfl | rfl | rfl | rfl <;> cases b <;> rfl
    · exact congrArg (fun v => (v, V2)) (evalBinary_empty_right op a)
    · rcases hop with rfl | rfl | rfl | rfl <;> cases a <;> rfl
  · intro ha
    rw [evaluate_neg h fuel e l V V1 a hl]
    rcases ha with rfl | ⟨s, rfl⟩ <;> rfl

/-- C21 (witness). The node `6 / 0` evaluates to `Empty`, the node `6 - 2` evaluates to the
number `4`, and the node `6 * "x"` evaluates to `Empty`. -/
theorem numeric_arithmetic_witness :
    evaluate ([] : Heap Int) 2
        (.binary false .div (.value false (.num 6) "" false) (.value false (.num 0) "" false)) ∅
      = some (.empty, ∅) ∧
    evaluate ([] : Heap Int) 2
        (.binary false .sub (.value false (.num 6) "" false) (.value false (.num 2) "" false)) ∅
      = some (.num 4, ∅) ∧
    evaluate ([] : Heap Int) 2
        (.binary false .mul (.value false (.num 6) "" false) (.value false (.str "x") "" true)) ∅
      = some (.empty, ∅) :=
  ⟨((numeric_arithmetic ([] : Heap Int) 1 false (.value false (.num 6) "" false)
      (.value false (.num 0) "" false) ∅ ∅ ∅ (.num 6) (.num 0) rfl rfl).1 6 0 rfl rfl).2.2.2.2
      (by decide),
    ((numeric_arithmetic ([] : Heap Int) 1 false (.value false (.num 6) "" false)
      (.value false (.num 2) "" false) ∅ ∅ ∅ (.num 6) (.num 2) rfl rfl).1 6 2 rfl rfl).1,
    (numeric_arithmetic ([] : Heap Int) 1 false (.value false (.num 6) "" false)
      (.value false (.str "x") "" true) ∅ ∅ ∅ (.num 6) (.str "x") rfl rfl).2.2.1
      (Or.inr (Or.inr (Or.inr ⟨"x", rfl⟩))) .mul (Or.inr (Or.inl rfl))⟩

/-- C22. Comparison semantics: when the operands of a comparison node evaluate to `a` and
`b`, then for two numbers the node evaluates to the number `double(x op y)` of the numeric
comparison, for two texts to the number `double(s op t)` of the lexicographic comparison by
code point, and for every other combination to `Empty`; `double(c)` is the number `1` when
`c` holds and the number `0` otherwise. -/
theorem comparison_semantics {F : Type} [DoubleOps F] (h : Heap F) (fuel : Nat) (e : Bool)
    (l r : CNode F) (V V1 V2 : Finset (Nat × Nat)) (a b : CValue F)
    (hl : evaluate h fuel l V = some (a, V1)) (hr : evaluate h fuel r V1 = some (b, V2)) :
    (∀ x y, a = .num x → b = .num y →
      evaluate h (fuel + 1) (.binary e .eq l r) V
        = some (.num (ofBool (DoubleOps.eq x y)), V2) ∧
      evaluate h (fuel + 1) (.binary e .ne l r) V
        = some (.num (ofBool (DoubleOps.ne x y)), V2) ∧
      evaluate h (fuel + 1) (.binary e .lt l r) V
        = some (.num (ofBool (DoubleOps.lt x y)), V2) ∧
      evaluate h (fuel + 1) (.binary e .le l r) V
        = some (.num (ofBool (DoubleOps.le x y)), V2) ∧
      evaluate h (fuel + 1) (.binary e .gt l r) V
        = some (.num (ofBool (DoubleOps.gt x y)), V2) ∧
      evaluate h (fuel + 1) (.binary e .ge l r) V
        = some (.num (ofBool (DoubleOps.ge x y)), V2)) ∧
    (∀ s t, a = .str s → b = .str t →
      evaluate h (fuel + 1) (.binary e .eq l r) V
        = some (.num (ofBool (decide (s = t))), V2) ∧
      evaluate h (fuel + 1) (.binary e .ne l r) V
        = some (.num (ofBool (decide (s ≠ t))), V2) ∧
      evaluate h (fuel + 1) (.binary e .lt l r) V
        = some (.num (ofBool (lexLess s.data t.data)), V2) ∧
      evaluate h (fuel + 1) (.binary e .le l r) V
        = some (.num (ofBool (lexLess s.data t.data || decide (s = t))), V2) ∧
      evaluate h (fuel + 1) (.binary e .gt l r) V
        = some (.num (ofBool (lexLess t.data s.data)), V2) ∧
      evaluate h (fuel + 1) (.binary e .ge l r) V
        = some (.num (ofBool (lexLess t.data s.data || decide (s = t))), V2)) ∧
    (¬ (a.index = 1 ∧ b.index = 1) → ¬ (a.index = 2 ∧ b.index = 2) →
      ∀ op, op = BinOp.eq ∨ op = BinOp.ne ∨ op = BinOp.lt ∨ op = BinOp.le ∨ op = BinOp.gt
          ∨ op = BinOp.ge →
        evaluate h (fuel + 1) (.binary e op l r) V = some (.empty, V2)) ∧
    (ofBool true : F) = DoubleOps.one ∧ (ofBool false : F) = DoubleOps.zero := by
  refine ⟨?_, ?_, ?_, rfl, rfl⟩
  · rintro x y rfl rfl
    exact ⟨evaluate_binary h fuel e _ l r V V1 V2 _ _ hl hr,
      evaluate_binary h fuel e _ l r V V1 V2 _ _ hl hr,
      evaluate_binary h fuel e _ l r V V1 V2 _ _ hl hr,
      evaluate_binary h fuel e _ l r V V1 V2 _ _ hl hr,
      evaluate_binary h fuel e _ l r V V1 V2 _ _ hl hr,
      evaluate_binary h fuel e _ l r V V1 V2 _ _ hl hr⟩
  · rintro s t rfl rfl
    have hlt : ∀ u v : String, decide (u < v) = lexLess u.data v.data := by
      intro u v
      rw [Bool.eq_iff_iff, decide_eq_true_iff]
      exact string_lt_iff_lexLess u v
    have hdata : ∀ u v : String, decide (u.data = v.data) = decide (u = v) := by
      intro u v
      rw [Bool.eq_iff_iff, decide_eq_true_iff, decide_eq_true_iff]
      exact ⟨fun h1 => String.ext h1, fun h1 => h1 ▸ rfl⟩
    refine ⟨evaluate_binary h fuel e _ l r V V1 V2 _ _ hl hr, ?_, ?_, ?_, ?_, ?_⟩
    · rw [evaluate_binary h fuel e _ l r V V1 V2 _ _ hl hr]
      simp only [evalBinary, decide_not]
    · rw [evaluate_binary h fuel e _ l r V V1 V2 _ _ hl hr]
      simp only [evalBinary, hlt]
    · rw [evaluate_binary h fuel e _ l r V V1 V2 _ _ hl hr]
      simp only [evalBinary, hlt, lexLess_total, hdata]
    · rw [evaluate_binary h fuel e _ l r V V1 V2 _ _ hl hr]
      simp only [evalBinary, hlt]
    · rw [evaluate_binary h fuel e _ l r V V1 V2 _ _ hl hr]
      simp only [evalBinary, hlt, lexLess_total, hdata]
      have hsym : decide (t = s) = decide (s = t) := by
        rw [Bool.eq_iff_iff, decide_eq_true_iff, decide_eq_true_iff]
        exact eq_comm
      rw [hsym]
  · intro hnum hstr op hop
    rw [evaluate_binary h fuel e op l r V V1 V2 a b hl hr]
    rcases hop with rfl | rfl | rfl | rfl | rfl | rfl <;> cases a <;> cases b <;>
      simp only [CValue.index, and_self, not_true_eq_false] at hnum hstr <;> rfl

/-- C22 (witness). The node `"ab" < "b"` evaluates to the number `1`, and the node `2 >= "b"`
evaluates to `Empty`. -/
theorem comparison_semantics_witness :
    evaluate ([] : Heap Int) 2
        (.binary false .lt (.value false (.str "ab") "" true) (.value false (.str "b") "" true))
        ∅
      = some (.num 1, ∅) ∧
    evaluate ([] : Heap Int) 2
        (.binary false .ge (.value false (.num 2) "" false) (.value false (.str "b") "" true)) ∅
      = some (.empty, ∅) :=
  ⟨((comparison_semantics ([] : Heap Int) 1 false (.value false (.str "ab") "" true)
      (.value false (.str "b") "" true) ∅ ∅ ∅ (.str "ab") (.str "b") rfl rfl).2.1
      "ab" "b" rfl rfl).2.2.1,
    (comparison_semantics ([] : Heap Int) 1 false (.value false (.num 2) "" false)
      (.value false (.str "b") "" true) ∅ ∅ ∅ (.num 2) (.str "b") rfl rfl).2.2.1
      (by decide) (by decide) .ge (Or.inr (Or.inr (Or.inr (Or.inr (Or.inr rfl)))))⟩

theorem evaluate_unique {F : Type} [DoubleOps F] (h : Heap F) (fuel fuel1 : Nat) (n : CNode F)
    (V : Finset (Nat × Nat)) (r r1 : CValue F × Finset (Nat × Nat))
    (he : evaluate h fuel n V = some r) (he1 : evaluate h fuel1 n V = some r1) : r = r1 := by
  have h1 := evaluate_mono h fuel (max fuel fuel1) n V r (le_max_left _ _) he
  have h2 := evaluate_mono h fuel1 (max fuel fuel1) n V r1 (le_max_right _ _) he1
  rw [h1] at h2
  exact Option.some.inj h2

theorem evaluate_leaf_empty {F : Type} [DoubleOps F] (h : Heap F) (leaf : CNode F)
    (V : Finset (Nat × Nat)) (fuel1 : Nat) (V1 : Finset (Nat × Nat))
    (hempty : evaluate h fuel1 leaf V = some (.empty, V1)) :
    ∀ (n : CNode F), leaf ∈ n.leaves →
      ∀ (fuel : Nat) (v : CValue F) (V2 : Finset (Nat × Nat)),
        evaluate h fuel n V = some (v, V2) → v = .empty := by
  intro n
  induction n with
  | value e v0 s x =>
    intro hmem fuel v V2 hev
    simp only [CNode.leaves, List.mem_singleton] at hmem
    subst hmem
    have := evaluate_unique h fuel fuel1 _ V _ _ hev hempty
    exact (Prod.mk.inj this).1
  | ref e p m =>
    intro hmem fuel v V2 hev
    simp only [CNode.leaves, List.mem_singleton] at hmem
    subst hmem
    have := evaluate_unique h fuel fuel1 _ V _ _ hev hempty
    exact (Prod.mk.inj this).1
  | binary e op l r ihl ihr =>
    intro hmem fuel v V2 hev
    simp only [CNode.leaves, List.mem_append] at hmem
    cases fuel with
    | zero => simp [evaluate] at hev
    | succ fuel =>
      rw [evaluate] at hev
      cases hl : evaluate h fuel l V with
      | none => rw [hl] at hev; simp at hev
      | some rl =>
        obtain ⟨a, Va⟩ := rl
        rw [hl] at hev
        simp only at hev
        have hVa : Va = V := evaluate_visited h fuel l V a Va hl
        subst hVa
        cases hr : evaluate h fuel r Va with
        | none => rw [hr] at hev; simp at hev
        | some rr =>
          obtain ⟨b, Vb⟩ := rr
          rw [hr] at hev
          simp only [Option.some.injEq, Prod.mk.injEq] at hev
          rw [← hev.1]
          rcases hmem with hm | hm
          · rw [ihl hm fuel a Va hl]; exact evalBinary_empty_left op b
          · rw [ihr hm fuel b Vb hr]; exact evalBinary_empty_right op a
  | neg e l ihl =>
    intro hmem fuel v V2 hev
    simp only [CNode.leaves] at hmem
    cases fuel with
    | zero => simp [evaluate] at hev
    | succ fuel =>
      rw [evaluate] at hev
      cases hl : evaluate h fuel l V with
      | none => rw [hl] at hev; simp at hev
      | some rl =>
        obtain ⟨a, Va⟩ := rl
        rw [hl] at hev
        simp only [Option.some.injEq, Prod.mk.injEq] at hev
        rw [← hev.1, ihl hmem fuel a Va hl]
        rfl

/-- C23. Empty taints dependents: if a leaf of the tree `n` evaluates to `Empty` under the
visited set `V`, then the evaluation of `n` under `V` completes (with every recursion bound
from `height n + |keys \ V| * (maxHeight + 1)` on) and gives `Empty`, and whenever the
evaluation of `n` returns a value, that value is `Empty`.  Every binary operator and the
negation give `Empty` when an operand is `Empty`. -/
theorem empty_taints {F : Type} [DoubleOps F] (h : Heap F) (n leaf : CNode F)
    (V : Finset (Nat × Nat)) (fuel1 : Nat) (V1 : Finset (Nat × Nat))
    (hleaf : leaf ∈ n.leaves) (hempty : evaluate h fuel1 leaf V = some (.empty, V1)) :
    (∀ fuel, n.height + (h.keys \ V).card * (h.maxHeight + 1) ≤ fuel →
      evaluate h fuel n V = some (.empty, V)) ∧
    (∀ fuel v V2, evaluate h fuel n V = some (v, V2) → v = .empty) ∧
    (∀ (op : BinOp) (v : CValue F),
      evalBinary op .empty v = .empty ∧ evalBinary op v .empty = .empty) ∧
    evalNeg (.empty : CValue F) = .empty := by
  refine ⟨?_, evaluate_leaf_empty h leaf V fuel1 V1 hempty n hleaf,
    fun op v => ⟨evalBinary_empty_left op v, evalBinary_empty_right op v⟩, rfl⟩
  intro fuel hfuel
  obtain ⟨v, hv⟩ := evaluate_terminates h fuel n V hfuel
  rw [hv, evaluate_leaf_empty h leaf V fuel1 V1 hempty n hleaf fuel v V hv]

/-- C23 (witness). In the sheet `x4` of the program's own test, where `B1` lies on a cycle,
the tree `(7 * 2) - (-B1)` evaluates to `Empty` under the visited set of `getValue(B1)`. -/
theorem empty_taints_witness :
    evaluate exampleCycle 1 (.ref false (CPos.mk2 2 1) 0) {(2, 1)} = some (.empty, {(2, 1)}) ∧
    evaluate exampleCycle 9
        (.binary false .sub
          (.binary false .mul (.value false (.num 7) "" false) (.value false (.num 2) "" false))
          (.neg false (.ref false (CPos.mk2 2 1) 0))) {(2, 1)}
      = some (.empty, {(2, 1)}) :=
  ⟨by decide,
    (empty_taints exampleCycle
      (.binary false .sub
        (.binary false .mul (.value false (.num 7) "" false) (.value false (.num 2) "" false))
        (.neg false (.ref false (CPos.mk2 2 1) 0)))
      (.ref false (CPos.mk2 2 1) 0) {(2, 1)} 1 {(2, 1)} (by decide) (by decide)).1 9
      (by decide)⟩

/-! ## Serialization of operators, builder calls, quoting -/

/-- C24. Serialization of operators, failing input: the node `2 >= 1` is written as
`(2.000000<=1.000000)`, the same text as the node `2 <= 1`; `opGeNode::save` writes the symbol
`<=`, so the six comparison symbols are not pairwise distinct. -/
theorem serialize_ge_failing_input :
    CNode.save (.binary false .ge (.value false (.num 2) "" false)
        (.value false (.num 1) "" false) : CNode Int) = .ok "(2.000000<=1.000000)" ∧
      CNode.save (.binary false .le (.value false (.num 2) "" false)
        (.value false (.num 1) "" false) : CNode Int) = .ok "(2.000000<=1.000000)" ∧
      BinOp.symbol .ge = "<=" ∧ BinOp.symbol .ge = BinOp.symbol .le := by
  decide

/-- C25. Builder operator calls: on a stack `right :: left :: rest` each of `opAdd` ...
`opGe` gives the stack `Binary(left, right) :: rest`, one node shorter, and `opNeg` on a stack
`top :: rest` gives `Neg(top) :: rest`; the new node is not marked as a formula and the cell
map stays.  On a stack of fewer than two nodes (`opNeg`: on an empty stack) the call throws
`std::invalid_argument` and the builder, stack and cell map, is as before. -/
theorem builder_operator_calls {F : Type} (self : Nat) (b : CMyExprBuilder F) (o : BinOp) :
    (∀ right left rest, b.m_stack = right :: left :: rest →
      b.opBinary o = .ok ⟨.binary false o left right :: rest, b.m_nodes⟩ ∧
      b.calls self [.op o] = (none, ⟨.binary false o left right :: rest, b.m_nodes⟩) ∧
      (CNode.binary false o left right :: rest).length + 1 = b.m_stack.length) ∧
    (∀ top rest, b.m_stack = top :: rest →
      b.opNeg = .ok ⟨.neg false top :: rest, b.m_nodes⟩ ∧
      b.calls self [.opNeg] = (none, ⟨.neg false top :: rest, b.m_nodes⟩) ∧
      (CNode.neg false top :: rest).length = b.m_stack.length) ∧
    (b.m_stack.length < 2 →
      b.opBinary o = .error .invalid_argument ∧
      b.calls self [.op o] = (some .invalid_argument, b)) ∧
    (b.m_stack = [] →
      b.opNeg = .error .invalid_argument ∧
      b.calls self [.opNeg] = (some .invalid_argument, b)) := by
  obtain ⟨st, nodes⟩ := b
  refine ⟨?_, ?_, ?_, ?_⟩
  · rintro right left rest rfl
    simp [CMyExprBuilder.opBinary, CMyExprBuilder.calls, CMyExprBuilder.call]
  · rintro top rest rfl
    simp [CMyExprBuilder.opNeg, CMyExprBuilder.calls, CMyExprBuilder.call]
  · intro hlen
    have hop : CMyExprBuilder.opBinary ⟨st, nodes⟩ o = .error .invalid_argument := by
      match st, hlen with
      | [], _ => rfl
      | [_], _ => rfl
      | _ :: _ :: _, hl => exact absurd hl (by simp)
    refine ⟨hop, ?_⟩
    simp only [CMyExprBuilder.calls, CMyExprBuilder.call, hop]
  · intro hst
    simp only at hst
    subst hst
    exact ⟨rfl, rfl⟩

theorem doubleQuotesLoop_doubled (suf : List Char) :
    ∀ (pre : List Char) (fuel : Nat), suf.length ≤ fuel →
      doubleQuotesLoop fuel (pre ++ suf) pre.length = pre ++ doubled suf := by
  induction suf with
  | nil =>
    intro pre fuel _
    cases fuel with
    | zero => simp [doubleQuotesLoop, doubled]
    | succ fuel => simp [doubleQuotesLoop, doubled]
  | cons c cs ih =>
    intro pre fuel hfuel
    cases fuel with
    | zero => simp at hfuel
    | succ fuel =>
      have hfuel1 : cs.length ≤ fuel := by simpa using hfuel
      have hlt : pre.length < (pre ++ c :: cs).length := by simp
      have hch : charAt (pre ++ c :: cs) pre.length = c := by
        rw [charAt_append_right]; rfl
      rw [doubleQuotesLoop, if_pos hlt, hch]
      by_cases hc : c = Char.ofNat 34
      · rw [if_pos hc]
        have hstr : (pre ++ c :: cs).take pre.length ++ Char.ofNat 34 :: (pre ++ c :: cs).drop
            pre.length = (pre ++ [Char.ofNat 34, Char.ofNat 34]) ++ cs := by
          rw [List.take_left, List.drop_left, hc]
          simp
        have hlen : pre.length + 1 + 1 = (pre ++ [Char.ofNat 34, Char.ofNat 34]).length := by
          simp
        rw [hstr, hlen, ih _ fuel hfuel1]
        simp [doubled, hc]
      · rw [if_neg hc]
        have hstr : pre ++ c :: cs = (pre ++ [c]) ++ cs := by simp
        have hlen : pre.length + 1 = (pre ++ [c]).length := by simp
        rw [hstr, hlen, ih _ fuel hfuel1]
        simp [doubled, hc]

theorem length_doubled (s : List Char) :
    (doubled s).length = s.length + s.count (Char.ofNat 34) := by
  induction s with
  | nil => rfl
  | cons c cs ih =>
    by_cases hc : c = Char.ofNat 34
    · subst hc
      simp only [doubled, if_true, List.length_cons, ih, List.count_cons_self]
      omega
    · simp only [doubled, if_neg hc, List.length_cons, ih, List.count_cons_of_ne (Ne.symm hc)]
      omega

theorem undouble_doubled (s : List Char) : undouble (doubled s) = s := by
  induction s with
  | nil => rfl
  | cons c cs ih =>
    by_cases hc : c = Char.ofNat 34
    · subst hc
      simp only [doubled, if_true, undouble, and_self, ih]
    · simp only [doubled, if_neg hc]
      cases hd : doubled cs with
      | nil =>
        rw [hd] at ih
        rw [← ih]; rfl
      | cons d ds =>
        rw [hd] at ih
        rw [undouble, if_neg (fun h => hc h.1), ih]

/-- C26. Quoting: `doubleQuotes(s)` is `"` followed by `s` with every `"` replaced by two `"`
and by a closing `"`; its length is `|s|` plus the number of `"` in `s` plus `2`; replacing
every pair `""` of the interior by one `"` gives `s` back. -/
theorem doubleQuotes_once (s : String) :
    (doubleQuotes s).data = Char.ofNat 34 :: doubled s.data ++ [Char.ofNat 34] ∧
      (doubleQuotes s).length = s.length + s.data.count (Char.ofNat 34) + 2 ∧
      undouble (doubled s.data) = s.data ∧
      undouble (((doubleQuotes s).data.drop 1).take ((doubleQuotes s).length - 2)) = s.data := by
  have hloop : doubleQuotesLoop s.length s.data 0 = doubled s.data := by
    have := doubleQuotesLoop_doubled s.data [] s.length (le_refl _)
    simpa using this
  have hdata : (doubleQuotes s).data = Char.ofNat 34 :: doubled s.data ++ [Char.ofNat 34] := by
    simp only [doubleQuotes, hloop]
  have hlen : (doubleQuotes s).length = s.length + s.data.count (Char.ofNat 34) + 2 := by
    show (doubleQuotes s).data.length = _
    rw [hdata]
    simp only [List.cons_append, List.length_cons, List.length_append, List.length_singleton,
      List.length_nil, length_doubled]
    rfl
  refine ⟨hdata, hlen, undouble_doubled s.data, ?_⟩
  have hcut : ((doubleQuotes s).data.drop 1).take ((doubleQuotes s).length - 2)
      = doubled s.data := by
    rw [hlen, hdata]
    have h2 : s.length + s.data.count (Char.ofNat 34) + 2 - 2 = (doubled s.data).length := by
      rw [length_doubled]; rfl
    rw [h2]
    simp
  rw [hcut, undouble_doubled]

/-! ## The column codec -/

theorem char_upper_range (c : Char) (h : c.isUpper = true) : 65 ≤ c.toNat ∧ c.toNat ≤ 90 := by
  simp only [Char.isUpper, Bool.and_eq_true, decide_eq_true_eq] at h
  exact ⟨h.1, h.2⟩

theorem char_alpha_of_upper (c : Char) (h : c.isUpper = true) : c.isAlpha = true := by
  simp only [Char.isAlpha, h, Bool.true_or]

theorem char_upper_ofNat (n : Nat) (h : n < 26) : (Char.ofNat (65 + n)).isUpper = true := by
  have h1 : (Char.ofNat (65 + n)).toNat = 65 + n := char_toNat_ofNat _ (by omega)
  have h2 : (Char.ofNat (65 + n)).val.toNat = 65 + n := h1
  simp only [Char.isUpper, Bool.and_eq_true, decide_eq_true_eq, UInt32.le_def,
    Fin.le_def]
  constructor
  · show 65 ≤ (Char.ofNat (65 + n)).val.toNat
    omega
  · show (Char.ofNat (65 + n)).val.toNat ≤ 90
    omega

theorem colLoop_render (num : Nat) :
    ∀ (fuel : Nat) (acc : List Char), num ≤ fuel →
      ∃ ds, colLoop fuel num acc = ds ++ acc ∧ (∀ ch ∈ ds, ch.isUpper = true) ∧
        colValue ds 0 = num ∧ (1 ≤ num → ds ≠ []) := by
  induction num using Nat.strong_induction_on with
  | _ num ih =>
    intro fuel acc hfuel
    by_cases hz : num = 0
    · subst hz
      refine ⟨[], ?_, by simp, rfl, by omega⟩
      cases fuel with
      | zero => rfl
      | succ fuel => simp [colLoop]
    · cases fuel with
      | zero => omega
      | succ fuel =>
        rw [colLoop, if_pos (by omega)]
        obtain ⟨ds, hds, hup, hval, _⟩ :=
          ih ((num - 1) / 26) (by omega) fuel (Char.ofNat (65 + (num - 1) % 26) :: acc)
            (by omega)
        have hch := char_upper_ofNat ((num - 1) % 26) (Nat.mod_lt _ (by omega))
        have hnat : (Char.ofNat (65 + (num - 1) % 26)).toNat = 65 + (num - 1) % 26 :=
          char_toNat_ofNat _ (by omega)
        refine ⟨ds ++ [Char.ofNat (65 + (num - 1) % 26)], ?_, ?_, ?_, by simp⟩
        · rw [hds]; simp
        · intro ch hmem
          rcases List.mem_append.1 hmem with h1 | h1
          · exact hup ch h1
          · rw [List.mem_singleton.1 h1]; exact hch
        · rw [colValue_snoc, hval,
            char_toUpper_of_not_lower _ (by rw [hnat]; omega), hnat]
          omega

theorem toNum_letters (s : List Char) (halpha : ∀ c ∈ s, c.isAlpha = true)
    (hval : colValue s 0 < SIZE_MOD) : (CPos.toNum s 0).1 = colValue s 0 := by
  have h1 := toNumLoop_letters s [] (by decide) [] s.length 0 (le_refl _) halpha hval
  simp only [List.nil_append, List.append_nil, List.length_nil, Nat.zero_add] at h1
  simp only [CPos.toNum, Nat.sub_zero, h1]

theorem map_toUpper_upper (s : List Char) (hup : ∀ c ∈ s, c.isUpper = true) :
    s.map Char.toUpper = s := by
  induction s with
  | nil => rfl
  | cons c cs ih =>
    have hc := char_upper_range c (hup c (by simp))
    rw [List.map_cons, ih (fun d hd => hup d (by simp [hd])),
      char_toUpper_of_not_lower c (by omega)]

/-- C27 (counterexample). The upper-case letter string `GKGWBYLWRXTLPQ` has the base-26 value
`2 ^ 64 + 1`; `CPos::toNum` gives `1` for it and `toStr` renders that as `A`. -/
theorem column_codec_counterexample :
    (['G', 'K', 'G', 'W', 'B', 'Y', 'L', 'W', 'R', 'X', 'T', 'L', 'P', 'Q'] ≠ [] ∧
      ∀ ch ∈ ['G', 'K', 'G', 'W', 'B', 'Y', 'L', 'W', 'R', 'X', 'T', 'L', 'P', 'Q'],
        ch.isUpper = true) ∧
    colValue ['G', 'K', 'G', 'W', 'B', 'Y', 'L', 'W', 'R', 'X', 'T', 'L', 'P', 'Q'] 0
      = 2 ^ 64 + 1 ∧
    (CPos.toNum ['G', 'K', 'G', 'W', 'B', 'Y', 'L', 'W', 'R', 'X', 'T', 'L', 'P', 'Q'] 0).1
      = 1 ∧
    colLoop 1 1 [] = ['A'] ∧
    ¬ ColumnParseRender ['G', 'K', 'G', 'W', 'B', 'Y', 'L', 'W', 'R', 'X', 'T', 'L', 'P', 'Q'] := by
  have hnum : (CPos.toNum
      ['G', 'K', 'G', 'W', 'B', 'Y', 'L', 'W', 'R', 'X', 'T', 'L', 'P', 'Q'] 0).1 = 1 := by
    decide
  refine ⟨⟨by decide, by decide⟩, by decide, hnum, by decide, ?_⟩
  rw [ColumnParseRender, hnum]
  decide

/-- C27. Column codec: for a column number `1 ≤ c < 2 ^ 64`, the letters `toStr` writes are a
non-empty string of `A`..`Z` whose base-26 value, by the formula and by `CPos::toNum`, is
`c`; and for a string `s` of `A`..`Z` whose base-26 value is below `2 ^ 64`, `toStr` writes
`s` for the number `CPos::toNum` gives for `s`. -/
theorem column_codec (c : Nat) (s : List Char) (hc1 : 1 ≤ c) (hc2 : c < SIZE_MOD)
    (hup : ∀ ch ∈ s, ch.isUpper = true) (hval : colValue s 0 < SIZE_MOD) :
    ColumnRenderParse c ∧ ColumnParseRender s := by
  constructor
  · obtain ⟨ds, hds, hupper, hv, hne⟩ := colLoop_render c c [] (le_refl _)
    rw [List.append_nil] at hds
    rw [ColumnRenderParse, hds]
    refine ⟨hne hc1, hupper, hv, ?_⟩
    rw [toNum_letters ds (fun ch hch => char_alpha_of_upper ch (hupper ch hch)) (by omega), hv]
  · have halpha : ∀ ch ∈ s, ch.isAlpha = true :=
      fun ch hch => char_alpha_of_upper ch (hup ch hch)
    rw [ColumnParseRender, toNum_letters s halpha hval,
      colLoop_letters s halpha _ [] (le_refl _), List.append_nil, map_toUpper_upper s hup]

/-- C27 (witness). The column number `28` is written `AB`, and `AB` is parsed to `28`. -/
theorem column_codec_witness :
    colLoop 28 28 [] = ['A', 'B'] ∧ (CPos.toNum ['A', 'B'] 0).1 = 28 ∧
      ColumnRenderParse 28 ∧ ColumnParseRender ['A', 'B'] :=
  ⟨by decide, by decide,
    column_codec 28 ['A', 'B'] (by decide) (by decide) (by decide) (by decide)⟩

/-! ## The cycle guard on acyclic sheets -/

theorem denote_succ {F : Type} [DoubleOps F] (h : Heap F) (fuel : Nat) :
    ∀ (n : CNode F) (v : CValue F), denote h fuel n = some v → denote h (fuel + 1) n = some v := by
  induction fuel with
  | zero => intro n v hd; simp [denote] at hd
  | succ fuel ih =>
    intro n v hd
    cases n with
    | value e v0 s x => simpa [denote] using hd
    | ref e pos m =>
      rw [denote] at hd ⊢
      cases hf : (h.nodes m).find pos with
      | none => rw [hf] at hd; exact hd
      | some target =>
        rw [hf] at hd
        exact ih target v hd
    | binary e op l r =>
      rw [denote] at hd ⊢
      cases hl : denote h fuel l with
      | none => rw [hl] at hd; simp at hd
      | some a =>
        rw [hl] at hd
        simp only at hd
        cases hr : denote h fuel r with
        | none => rw [hr] at hd; simp at hd
        | some b =>
          rw [hr] at hd
          rw [ih l a hl]
          simp only
          rw [ih r b hr]
          exact hd
    | neg e l =>
      rw [denote] at hd ⊢
      cases hl : denote h fuel l with
      | none => rw [hl] at hd; simp at hd
      | some a =>
        rw [hl] at hd
        rw [ih l a hl]
        exact hd

theorem denote_mono {F : Type} [DoubleOps F] (h : Heap F) (fuel fuel1 : Nat) (n : CNode F)
    (v : CValue F) (hle : fuel ≤ fuel1) (hd : denote h fuel n = some v) :
    denote h fuel1 n = some v := by
  induction hle with
  | refl => exact hd
  | step _ ih => exact denote_succ h _ n v ih

theorem refEdge_congr_right {F : Type} (h : Heap F) (i : Nat) (a b c : CPos)
    (hbc : b.key = c.key) (hedge : RefEdge h i a b) : RefEdge h i a c := by
  obtain ⟨n, hf, href⟩ := hedge
  exact ⟨n, hf, by rw [← hbc]; exact href⟩

theorem onCycle_of_path_back {F : Type} (h : Heap F) (i : Nat) (a b q : CPos)
    (hedge : RefEdge h i a b) (hpath : Relation.ReflTransGen (RefEdge h i) b q)
    (hq : q.key = a.key) : OnCycle h i a := by
  rcases Relation.ReflTransGen.cases_tail hpath with heq | ⟨c, hbc, hcq⟩
  · subst heq
    exact Relation.TransGen.single (refEdge_congr_right h i a q a hq hedge)
  · exact Relation.TransGen.head' hedge
      (Relation.ReflTransGen.tail hbc (refEdge_congr_right h i c q a hq hcq))

/-- On a tree from whose references no position of the visited set and no position on a
cycle is reachable, `evaluate` computes the guard-free denotation. -/
theorem evaluate_eq_denote {F : Type} [DoubleOps F] (h : Heap F) (i : Nat)
    (hbound : h.TableBound i) (fuel : Nat) :
    ∀ (n : CNode F) (V : Finset (Nat × Nat)) (v : CValue F) (V1 : Finset (Nat × Nat)),
      n.boundTo i = true →
      (∀ p0 q, n.hasRef p0.key i = true → Relation.ReflTransGen (RefEdge h i) p0 q →
        q.key ∉ V ∧ ¬ OnCycle h i q) →
      evaluate h fuel n V = some (v, V1) → denote h fuel n = some v := by
  induction fuel with
  | zero => intro n V v V1 _ _ he; simp [evaluate] at he
  | succ fuel ih =>
    intro n V v V1 hb hinv he
    cases n with
    | value e v0 s x =>
      simp only [evaluate, Option.some.injEq, Prod.mk.injEq] at he
      simp only [denote, he.1]
    | ref e pos m =>
      have hm : m = i := by simpa [CNode.boundTo] using hb
      subst hm
      rw [evaluate] at he
      rw [denote]
      cases hf : (h.nodes m).find pos with
      | none =>
        rw [hf] at he
        simp only [Option.some.injEq, Prod.mk.injEq] at he
        simp only [he.1]
      | some target =>
        rw [hf] at he
        simp only at he ⊢
        have hself := hinv pos pos (by simp [CNode.hasRef]) Relation.ReflTransGen.refl
        rw [if_neg hself.1] at he
        cases hev : evaluate h fuel target (insert pos.key V) with
        | none => rw [hev] at he; simp at he
        | some r1 =>
          obtain ⟨result, visited1⟩ := r1
          rw [hev] at he
          simp only [Option.some.injEq, Prod.mk.injEq] at he
          rw [← he.1]
          refine ih target (insert pos.key V) result visited1 (hbound pos target hf) ?_ hev
          intro p1 q href hpath
          have hedge : RefEdge h m pos p1 := ⟨target, hf, href⟩
          have hq := hinv pos q (by simp [CNode.hasRef])
            (Relation.ReflTransGen.head hedge hpath)
          refine ⟨?_, hq.2⟩
          intro hmem
          rcases Finset.mem_insert.1 hmem with hk | hk
          · exact hself.2 (onCycle_of_path_back h m pos p1 q hedge hpath hk)
          · exact hq.1 hk
    | binary e op l r =>
      simp only [CNode.boundTo, Bool.and_eq_true] at hb
      rw [evaluate] at he
      rw [denote]
      cases hl : evaluate h fuel l V with
      | none => rw [hl] at he; simp at he
      | some rl =>
        obtain ⟨a, Va⟩ := rl
        rw [hl] at he
        simp only at he
        have hVa : Va = V := evaluate_visited h fuel l V a Va hl
        subst hVa
        cases hr : evaluate h fuel r Va with
        | none => rw [hr] at he; simp at he
        | some rr =>
          obtain ⟨b, Vb⟩ := rr
          rw [hr] at he
          simp only [Option.some.injEq, Prod.mk.injEq] at he
          rw [ih l Va a Va hb.1
            (fun p0 q href hp => hinv p0 q (by simp [CNode.hasRef, href]) hp) hl]
          simp only
          rw [ih r Va b Vb hb.2
            (fun p0 q href hp => hinv p0 q (by simp [CNode.hasRef, href]) hp) hr]
          simp only [he.1]
    | neg e l =>
      simp only [CNode.boundTo] at hb
      rw [evaluate] at he
      rw [denote]
      cases hl : evaluate h fuel l V with
      | none => rw [hl] at he; simp at he
      | some rl =>
        obtain ⟨a, Va⟩ := rl
        rw [hl] at he
        simp only [Option.some.injEq, Prod.mk.injEq] at he
        rw [ih l V a Va hb
          (fun p0 q href hp => hinv p0 q (by simp [CNode.hasRef, href]) hp) hl]
        simp only [he.1]

/-- C28. Cycle guard is transparent on acyclic sheets: in a sheet `i` whose trees refer to
its own map, if no position reachable from `p` lies on a cycle of references, then
`getValue(p)` returns the guard-free denotation of the cell at `p`: the denotation is defined
for the recursion bound `fuelBound`, and for every recursion bound for which it is defined it
is the value `getValue(p)` returns. -/
theorem guard_transparent {F : Type} [DoubleOps F] (h : Heap F) (i : Nat) (p : CPos)
    (hbound : h.TableBound i) (hac : AcyclicFrom h i p) :
    ∃ v : CValue F, CSpreadsheet.getValue h i p = some (.ok v) ∧
      denoteCell h i h.fuelBound p = some v ∧
      ∀ fuel v1, denoteCell h i fuel p = some v1 → v1 = v := by
  cases hf : (h.nodes i).find p with
  | none =>
    refine ⟨.empty, getValueFuel_of_find_none h i _ p hf, by simp [denoteCell, hf], ?_⟩
    intro fuel v1 hd
    simp only [denoteCell, hf, Option.some.injEq] at hd
    exact hd.symm
  | some n =>
    obtain ⟨v, hv⟩ := evaluate_terminates h h.fuelBound n {p.key}
      (Heap.fuelBound_enough h i p n hf _)
    have hden : denote h h.fuelBound n = some v := by
      refine evaluate_eq_denote h i hbound h.fuelBound n {p.key} v {p.key} (hbound p n hf) ?_ hv
      intro p0 q href hpath
      have hedge : RefEdge h i p p0 := ⟨n, hf, href⟩
      refine ⟨?_, hac q (Relation.ReflTransGen.head hedge hpath)⟩
      intro hmem
      exact hac p Relation.ReflTransGen.refl
        (onCycle_of_path_back h i p p0 q hedge hpath (Finset.mem_singleton.1 hmem))
    refine ⟨v, ?_, by simp only [denoteCell, hf, hden], ?_⟩
    · rw [CSpreadsheet.getValue, getValueFuel_of_find h i _ p n hf, hv]; rfl
    · intro fuel v1 hd
      simp only [denoteCell, hf] at hd
      have h1 := denote_mono h fuel (max fuel h.fuelBound) n v1 (le_max_left _ _) hd
      have h2 := denote_mono h h.fuelBound (max fuel h.fuelBound) n v (le_max_right _ _) hden
      rw [h1] at h2
      exact Option.some.inj h2

theorem CNode.mem_refKeys_of_hasRef {F : Type} (k : Nat × Nat) (m : Nat) (n : CNode F)
    (href : n.hasRef k m = true) : k ∈ n.refKeys := by
  induction n with
  | value e v s x => simp [CNode.hasRef] at href
  | ref e p m1 =>
    simp only [CNode.hasRef, Bool.and_eq_true, decide_eq_true_eq] at href
    simp [CNode.refKeys, href.1]
  | binary e op l r ihl ihr =>
    simp only [CNode.hasRef, Bool.or_eq_true] at href
    simp only [CNode.refKeys, List.mem_append]
    rcases href with h1 | h1
    · exact Or.inl (ihl h1)
    · exact Or.inr (ihr h1)
  | neg e l ihl =>
    simp only [CNode.hasRef] at href
    exact ihl href

theorem Table.find_some_mem_key {F : Type} (t : Table F) (k : CPos) (n : CNode F)
    (hf : t.find k = some n) : ∃ k1, (k1, n) ∈ t ∧ k1.key = k.key := by
  induction t with
  | nil => simp [Table.find] at hf
  | cons e rest ih =>
    obtain ⟨k1, n1⟩ := e
    rw [Table.find_cons] at hf
    by_cases hk : k1.key = k.key
    · rw [if_pos hk] at hf
      exact ⟨k1, by simp [Option.some.inj hf], hk⟩
    · rw [if_neg hk] at hf
      obtain ⟨k2, hmem, hk2⟩ := ih hf
      exact ⟨k2, List.mem_cons_of_mem _ hmem, hk2⟩

theorem acyclic_of_rank {F : Type} (h : Heap F) (i : Nat) (rank : Nat × Nat → Nat)
    (hrank : ∀ e ∈ h.nodes i, ∀ k ∈ e.2.refKeys, rank k < rank e.1.key) (p : CPos) :
    AcyclicFrom h i p := by
  have hedge : ∀ a b, RefEdge h i a b → rank b.key < rank a.key := by
    rintro a b ⟨n, hf, href⟩
    obtain ⟨k1, hmem, hk1⟩ := Table.find_some_mem_key _ a n hf
    have := hrank (k1, n) hmem b.key (CNode.mem_refKeys_of_hasRef b.key i n href)
    rw [← hk1]; exact this
  have htrans : ∀ a b, Relation.TransGen (RefEdge h i) a b → rank b.key < rank a.key := by
    intro a b hab
    induction hab with
    | single h1 => exact hedge _ _ h1
    | tail _ h2 ih => exact lt_trans (hedge _ _ h2) ih
  intro q _ hcyc
  exact lt_irrefl _ (htrans q q hcyc)

/-- C28 (witness). The sheet `exampleDiamond` is acyclic; `B3 = B1 + B2` reaches `A1` along two
paths, and `getValue(B3)` is the number `31`, the guard-free denotation of `B3`. -/
theorem guard_transparent_witness :
    (exampleDiamond.TableBound 0 ∧ AcyclicFrom exampleDiamond 0 (CPos.mk2 2 3)) ∧
      CSpreadsheet.getValue exampleDiamond 0 (CPos.mk2 2 3) = some (.ok (.num 31)) ∧
      ∃ v : CValue Int, CSpreadsheet.getValue exampleDiamond 0 (CPos.mk2 2 3) = some (.ok v) ∧
        denoteCell exampleDiamond 0 exampleDiamond.fuelBound (CPos.mk2 2 3) = some v ∧
        ∀ fuel v1, denoteCell exampleDiamond 0 fuel (CPos.mk2 2 3) = some v1 → v1 = v :=
  ⟨⟨Heap.tableBound_of_all exampleDiamond 0 (by decide),
      acyclic_of_rank exampleDiamond 0 (fun k => k.1 + k.2) (by decide) (CPos.mk2 2 3)⟩,
    by decide,
    guard_transparent exampleDiamond 0 (CPos.mk2 2 3)
      (Heap.tableBound_of_all exampleDiamond 0 (by decide))
      (acyclic_of_rank exampleDiamond 0 (fun k => k.1 + k.2) (by decide) (CPos.mk2 2 3))⟩

/-! ## The range of positions -/

theorem CPos.inRange_iff (p : CPos) : p.inRange = true ↔ 1 ≤ p.m_col := by
  simp [CPos.inRange]

theorem CPos.inRange_congr (a b : CPos) (hab : a.key = b.key) : a.inRange = b.inRange := by
  simp only [CPos.key, Prod.mk.injEq] at hab
  simp only [CPos.inRange, hab.1, hab.2]

theorem CNode.refsInRange_clone {F : Type} (m : Nat) (n : CNode F) :
    (n.clone m).refsInRange = n.refsInRange := by
  induction n with
  | value e v s x => rfl
  | ref e p m1 => rfl
  | binary e op l r ihl ihr => simp only [CNode.clone, CNode.refsInRange, ihl, ihr]
  | neg e l ih => simp only [CNode.clone, CNode.refsInRange, ih]

theorem CNode.refsInRange_setExpr {F : Type} (n : CNode F) :
    n.setExpr.refsInRange = n.refsInRange := by
  cases n <;> rfl

theorem CNode.shiftOk_clone {F : Type} (d : Int × Int) (m : Nat) (n : CNode F) :
    (n.clone m).shiftOk d = n.shiftOk d := by
  induction n with
  | value e v s x => rfl
  | ref e p m1 => rfl
  | binary e op l r ihl ihr => simp only [CNode.clone, CNode.shiftOk, ihl, ihr]
  | neg e l ih => simp only [CNode.clone, CNode.shiftOk, ih]

theorem addOffset_of_inRange (c : Nat) (d : Int) (hlo : 0 ≤ (c : Int) + d)
    (hhi : (c : Int) + d < (SIZE_MOD : Int)) : ((addOffset c d : Nat) : Int) = (c : Int) + d := by
  rw [addOffset, Int.emod_eq_of_lt hlo hhi]
  exact Int.toNat_of_nonneg hlo

theorem CPos.inRange_updatePos (p : CPos) (d : Int × Int) (hp : p.inRange = true)
    (hok : p.shiftOk d = true) : (p.updatePos d).inRange = true := by
  rw [CPos.inRange_iff] at hp ⊢
  simp only [CPos.shiftOk, Bool.and_eq_true, Bool.or_eq_true, decide_eq_true_eq] at hok
  obtain ⟨hcol, _⟩ := hok
  cases hc : p.m_absCol <;> cases hr : p.m_absRow
  all_goals simp only [CPos.updatePos, hc, hr, Bool.not_false, Bool.not_true, if_true,
    Bool.false_eq_true, if_false]
  · have h1 := hcol.resolve_left (by simp [hc])
    have h2 := addOffset_of_inRange p.m_col d.1 (by omega) h1.2
    omega
  · have h1 := hcol.resolve_left (by simp [hc])
    have h2 := addOffset_of_inRange p.m_col d.1 (by omega) h1.2
    omega
  · exact hp
  · exact hp

theorem CNode.refsInRange_updateRef {F : Type} (d : Int × Int) (n : CNode F)
    (hn : n.refsInRange = true) (hok : n.shiftOk d = true) :
    (n.updateRef d).refsInRange = true := by
  induction n with
  | value e v s x => rfl
  | ref e p m => exact CPos.inRange_updatePos p d hn hok
  | binary e op l r ihl ihr =>
    simp only [CNode.refsInRange, CNode.shiftOk, Bool.and_eq_true] at hn hok
    simp only [CNode.updateRef, CNode.refsInRange, Bool.and_eq_true]
    exact ⟨ihl hn.1 hok.1, ihr hn.2 hok.2⟩
  | neg e l ih =>
    simp only [CNode.refsInRange, CNode.shiftOk] at hn hok
    simp only [CNode.updateRef, CNode.refsInRange]
    exact ih hn hok

theorem CNode.refsMoved_plain {F : Type} [DecidableEq F] (d : Int × Int) (n : CNode F)
    (hok : n.shiftOk d = true) : n.refsMoved plainSum d (n.updateRef d) = true := by
  induction n with
  | value e v s x => simp [CNode.refsMoved, CNode.updateRef]
  | ref e p m =>
    simp only [CNode.shiftOk, CPos.shiftOk, Bool.and_eq_true, Bool.or_eq_true,
      decide_eq_true_eq] at hok
    obtain ⟨hcol, hrow⟩ := hok
    cases hc : p.m_absCol <;> cases hr : p.m_absRow
    · have h1 := hcol.resolve_left (by simp [hc])
      have h2 := hrow.resolve_left (by simp [hr])
      have h3 := addOffset_of_inRange p.m_col d.1 (by omega) h1.2
      have h4 := addOffset_of_inRange p.m_row d.2 h2.1 h2.2
      simp [CNode.refsMoved, CNode.updateRef, CPos.updatePos, hc, hr, plainSum, h3, h4]
    · have h1 := hcol.resolve_left (by simp [hc])
      have h3 := addOffset_of_inRange p.m_col d.1 (by omega) h1.2
      simp [CNode.refsMoved, CNode.updateRef, CPos.updatePos, hc, hr, plainSum, h3]
    · have h2 := hrow.resolve_left (by simp [hr])
      have h4 := addOffset_of_inRange p.m_row d.2 h2.1 h2.2
      simp [CNode.refsMoved, CNode.updateRef, CPos.updatePos, hc, hr, plainSum, h4]
    · simp [CNode.refsMoved, CNode.updateRef, CPos.updatePos, hc, hr]
  | binary e op l r ihl ihr =>
    simp only [CNode.shiftOk, Bool.and_eq_true] at hok
    simp [CNode.refsMoved, CNode.updateRef, ihl hok.1, ihr hok.2]
  | neg e l ih =>
    simp only [CNode.shiftOk] at hok
    simp [CNode.refsMoved, CNode.updateRef, ih hok]

theorem CMyExprBuilder.inRange_assign {F : Type} (b : CMyExprBuilder F) (k : CPos)
    (n : CNode F) (hb : b.InRange) (hk : k.inRange = true) (hn : n.refsInRange = true) :
    CMyExprBuilder.InRange ⟨b.m_stack, b.m_nodes.assign k n⟩ := by
  refine ⟨hb.1, ?_⟩
  intro e he
  rcases Table.mem_assign _ _ _ e he with h1 | h1
  · exact hb.2 e h1
  · rw [h1.1, CPos.inRange_congr e.1 k h1.2]; exact ⟨hk, hn⟩

theorem CMyExprBuilder.inRange_call {F : Type} (self : Nat) (b b1 : CMyExprBuilder F)
    (c : Call F) (hb : b.InRange)
    (href : ∀ val p, c = .valReference val → CPos.ofString val = .ok p → p.inRange = true)
    (hc : b.call self c = .ok b1) : b1.InRange := by
  obtain ⟨hst, hnodes⟩ := hb
  cases c with
  | op o =>
    simp only [CMyExprBuilder.call, CMyExprBuilder.opBinary] at hc
    split at hc
    · rename_i right left rest hs
      simp only [Except.ok.injEq] at hc
      rw [← hc]
      refine ⟨?_, hnodes⟩
      intro n hn
      rw [hs] at hst
      rcases List.mem_cons.1 hn with heq | hmem
      · rw [heq]
        simp only [CNode.refsInRange, Bool.and_eq_true]
        exact ⟨hst left (by simp), hst right (by simp)⟩
      · exact hst n (by simp [hmem])
    · simp at hc
  | opNeg =>
    simp only [CMyExprBuilder.call, CMyExprBuilder.opNeg] at hc
    split at hc
    · rename_i left rest hs
      simp only [Except.ok.injEq] at hc
      rw [← hc]
      refine ⟨?_, hnodes⟩
      intro n hn
      rw [hs] at hst
      rcases List.mem_cons.1 hn with heq | hmem
      · rw [heq]
        simp only [CNode.refsInRange]
        exact hst left (by simp)
      · exact hst n (by simp [hmem])
    · simp at hc
  | valNumber val =>
    simp only [CMyExprBuilder.call, CMyExprBuilder.valNumber, Except.ok.injEq] at hc
    rw [← hc]
    refine ⟨?_, hnodes⟩
    intro n hn
    rcases List.mem_cons.1 hn with heq | hmem
    · rw [heq]; rfl
    · exact hst n hmem
  | valString val =>
    simp only [CMyExprBuilder.call, CMyExprBuilder.valString, Except.ok.injEq] at hc
    rw [← hc]
    refine ⟨?_, hnodes⟩
    intro n hn
    rcases List.mem_cons.1 hn with heq | hmem
    · rw [heq]; rfl
    · exact hst n hmem
  | valReference val =>
    simp only [CMyExprBuilder.call, CMyExprBuilder.valReference] at hc
    cases hp : CPos.ofString val with
    | error e => rw [hp] at hc; simp at hc
    | ok pos =>
      rw [hp] at hc
      simp only [Except.ok.injEq] at hc
      rw [← hc]
      refine ⟨?_, hnodes⟩
      intro n hn
      rcases List.mem_cons.1 hn with heq | hmem
      · rw [heq]; exact href val pos rfl hp
      · exact hst n hmem
  | valRange val =>
    simp only [CMyExprBuilder.call, Except.ok.injEq] at hc
    rw [← hc]; exact ⟨hst, hnodes⟩
  | funcCall fn cnt =>
    simp only [CMyExprBuilder.call, Except.ok.injEq] at hc
    rw [← hc]; exact ⟨hst, hnodes⟩

theorem CMyExprBuilder.inRange_calls {F : Type} (self : Nat) (cs : List (Call F))
    (href : ∀ val p, Call.valReference val ∈ cs → CPos.ofString val = .ok p →
      p.inRange = true) :
    ∀ b : CMyExprBuilder F, b.InRange → (b.calls self cs).2.InRange := by
  induction cs with
  | nil => intro b hb; exact hb
  | cons c cs ih =>
    intro b hb
    rw [CMyExprBuilder.calls]
    cases hc : b.call self c with
    | error e => exact hb
    | ok b1 =>
      refine ih (fun val p hmem hp => href val p (List.mem_cons_of_mem _ hmem) hp) b1
        (CMyExprBuilder.inRange_call self b b1 c hb ?_ hc)
      intro val p hcv hp
      exact href val p (by rw [hcv]; exact List.mem_cons_self _ _) hp

theorem inRange_parseExpression {F : Type} (parser : Parser F) (self : Nat)
    (b : CMyExprBuilder F) (contents : String) (hb : b.InRange)
    (href : ∀ val p, Call.valReference val ∈ (parser contents).calls →
      CPos.ofString val = .ok p → p.inRange = true) :
    (parseExpression parser self b contents).2.InRange := by
  have := CMyExprBuilder.inRange_calls self (parser contents).calls href b hb
  rw [parseExpression]
  revert this
  cases b.calls self (parser contents).calls with
  | mk e b1 =>
    intro this
    cases e with
    | some e => exact this
    | none =>
      simp only
      split <;> exact this

theorem CMyExprBuilder.inRange_updateNodes {F : Type} (b b1 : CMyExprBuilder F) (pos : CPos)
    (hb : b.InRange) (hpos : pos.inRange = true) (hu : b.updateNodes pos = .ok b1) :
    b1.InRange := by
  by_cases hlen : b.m_stack.length = 1
  · obtain ⟨top, htop⟩ := List.length_eq_one.1 hlen
    rw [CMyExprBuilder.updateNodes_ok b pos top htop] at hu
    rw [← Except.ok.inj hu]
    have htopb : top.refsInRange = true := hb.1 top (by rw [htop]; simp)
    have h1 := CMyExprBuilder.inRange_assign b pos top hb hpos htopb
    have h2 := CMyExprBuilder.inRange_assign _ pos top.setExpr h1 hpos
      (by rw [CNode.refsInRange_setExpr]; exact htopb)
    exact ⟨by intro n hn; simp at hn, h2.2⟩
  · rw [CMyExprBuilder.updateNodes_error b pos hlen] at hu
    simp at hu

theorem inRange_setCell {F : Type} [DoubleOps F] (parser : Parser F) (self : Nat)
    (b : CMyExprBuilder F) (pos : CPos) (contents : String) (hb : b.InRange)
    (hpos : pos.inRange = true)
    (href : ∀ val p, Call.valReference val ∈ (parser contents).calls →
      CPos.ofString val = .ok p → p.inRange = true) :
    (CSpreadsheet.setCell parser self b pos contents).2.InRange := by
  rw [CSpreadsheet.setCell]
  split
  · have hp := inRange_parseExpression parser self b contents hb href
    revert hp
    cases parseExpression parser self b contents with
    | mk e b2 =>
      intro hp
      cases e with
      | some e => cases e <;> exact hp
      | none =>
        simp only
        cases hu : b2.updateNodes pos with
        | error e => cases e <;> exact hp
        | ok b3 => exact CMyExprBuilder.inRange_updateNodes b2 b3 pos hp hpos hu
  · split
    · exact CMyExprBuilder.inRange_assign b pos _ hb hpos rfl
    · exact CMyExprBuilder.inRange_assign b pos _ hb hpos rfl
    · exact hb

theorem inRange_copyRectLoop {F : Type} (self : Nat) (dst src : CPos) (offset : Int × Int)
    (tmp : Table F) (cells : List (Nat × Nat)) :
    (∀ xy ∈ cells, (dst.shift xy).inRange = true) →
    (∀ xy ∈ cells, ∀ n1, tmp.find (src.shift xy) = some n1 →
      n1.refsInRange = true ∧ n1.shiftOk offset = true) →
    ∀ (b b1 : CMyExprBuilder F), b.InRange →
      copyRectLoop self dst src offset tmp cells b = .ok b1 → b1.InRange := by
  induction cells with
  | nil =>
    intro _ _ b b1 hb hrun
    simp only [copyRectLoop, Except.ok.injEq] at hrun
    rw [← hrun]; exact hb
  | cons xy rest ih =>
    intro hkeys htmp b b1 hb hrun
    have ih1 := ih (fun xy1 h1 => hkeys xy1 (List.mem_cons_of_mem _ h1))
      (fun xy1 h1 => htmp xy1 (List.mem_cons_of_mem _ h1))
    rw [copyRectLoop] at hrun
    split at hrun
    · cases htf : tmp.find (src.shift xy) with
      | none => rw [htf] at hrun; simp [CMyExprBuilder.addNode] at hrun
      | some n1 =>
        rw [htf] at hrun
        simp only [CMyExprBuilder.addNode, CMyExprBuilder.callUpdateRef, Table.update,
          Table.find_assign_self] at hrun
        refine ih1 _ b1 ?_ hrun
        obtain ⟨hr1, hs1⟩ := htmp xy (List.mem_cons_self _ _) n1 htf
        have hk := hkeys xy (List.mem_cons_self _ _)
        have h1 := CMyExprBuilder.inRange_assign b (dst.shift xy) (n1.clone self) hb hk
          (by rw [CNode.refsInRange_clone]; exact hr1)
        exact CMyExprBuilder.inRange_assign _ (dst.shift xy) _ h1 hk
          (CNode.refsInRange_updateRef offset _ (by rw [CNode.refsInRange_clone]; exact hr1)
            (by rw [CNode.shiftOk_clone]; exact hs1))
    · exact ih1 b b1 hb hrun

theorem CPos.inRange_shift (dst : CPos) (w hgt : Int) (hdst : dst.inRange = true)
    (hw : (dst.m_col : Int) + w ≤ (SIZE_MOD : Int)) (xy : Nat × Nat)
    (hxy : xy ∈ rectCells w hgt) : (dst.shift xy).inRange = true := by
  obtain ⟨x, y⟩ := xy
  rw [mem_rectCells] at hxy
  rw [CPos.inRange_iff] at hdst ⊢
  have hx : (x : Int) < w := by omega
  have hlt : dst.m_col + x < SIZE_MOD := by
    have : (dst.m_col : Int) + x < (SIZE_MOD : Int) := by omega
    exact_mod_cast this
  simp only [CPos.shift, CPos.mk2, CPos.getCol]
  rw [Nat.mod_eq_of_lt hlt]
  omega

theorem inRange_copyRect {F : Type} (self : Nat) (b b1 : CMyExprBuilder F) (dst src : CPos)
    (w hgt : Int) (hb : b.InRange) (hdst : dst.inRange = true)
    (hw : (dst.m_col : Int) + w ≤ (SIZE_MOD : Int))
    (hok : ∀ xy ∈ rectCells w hgt, ∀ n, b.m_nodes.find (src.shift xy) = some n →
      n.shiftOk (copyOffset dst src) = true)
    (hrun : CSpreadsheet.copyRect self b dst src w hgt = .ok b1) : b1.InRange := by
  refine inRange_copyRectLoop self dst src _ _ (rectCells w hgt)
    (fun xy hxy => CPos.inRange_shift dst w hgt hdst hw xy hxy) ?_ b b1 hb hrun
  intro xy hxy n1 hn1
  have hsnap : SnapshotOf self b (CSpreadsheet.cloneSourceNodes self b src w hgt) :=
    cloneSourceLoop_snapshot self b src _ [] (snapshotOf_nil self b)
  obtain ⟨n, hfind, hn⟩ := hsnap _ n1 hn1
  obtain ⟨k1, hmem⟩ := Table.find_some_mem _ _ n hfind
  rw [hn, CNode.refsInRange_clone, CNode.shiftOk_clone]
  exact ⟨(hb.2 _ hmem).2, hok xy hxy n hfind⟩

theorem inRange_applyOps {F : Type} [DoubleOps F] (parser : Parser F) (i : Nat)
    (ops : List SheetOp) :
    ∀ (h h2 : Heap F), (h.builder i).InRange → opsInRange parser i h ops = true →
      applyOps parser h i ops = some h2 → (h2.builder i).InRange := by
  induction ops with
  | nil =>
    intro h h2 hb _ hops
    simp only [applyOps, Option.some.injEq] at hops
    rw [← hops]; exact hb
  | cons op ops ih =>
    intro h h2 hb hin hops
    rw [opsInRange, Bool.and_eq_true] at hin
    obtain ⟨hop1, hrest⟩ := hin
    rw [applyOps] at hops
    cases hop : applyOp parser h i op with
    | none => rw [hop] at hops; simp at hops
    | some h1 =>
      rw [hop] at hops hrest
      refine ih h1 h2 ?_ hrest hops
      cases op with
      | setCell pos contents =>
        simp only [opInRange, Bool.and_eq_true, List.all_eq_true] at hop1
        simp only [applyOp, Option.some.injEq] at hop
        rw [← hop, Heap.builder_set]
        split
        · refine inRange_setCell parser i _ pos contents hb hop1.1 ?_
          intro val p hmem hp
          have := hop1.2 _ hmem
          simpa only [Call.refInRange, hp] using this
        · exact hb
      | copyRect dst src w hgt =>
        simp only [opInRange, Bool.and_eq_true, List.all_eq_true, decide_eq_true_eq] at hop1
        simp only [applyOp] at hop
        split at hop
        · rename_i b1 hb1
          simp only [Option.some.injEq] at hop
          rw [← hop, Heap.builder_set]
          split
          · refine inRange_copyRect i _ b1 dst src w hgt hb hop1.1.1 hop1.1.2 ?_ hb1
            intro xy hxy n hf
            have := hop1.2 xy hxy
            simpa only [hf] using this
          · exact hb
        · simp at hop

theorem colValue_pos (c : Char) (cs : List Char) : ∀ acc, 1 ≤ colValue (c :: cs) acc := by
  have hge : ∀ (l : List Char) (acc : Nat), acc ≤ colValue l acc := by
    intro l
    induction l with
    | nil => intro acc; exact le_refl _
    | cons d ds ih =>
      intro acc
      rw [colValue]
      exact le_trans (by omega) (ih _)
  intro acc
  rw [colValue]
  exact le_trans (by omega) (hge cs _)

/-- C29 (counterexample). From the empty sheet, `setCell(C1, "=A1")` and then
`copyRect(B1, C1, 1, 1)` store in `B1` a reference with column `0`; with
`copyRect(A1, C1, 1, 1)` instead, the reference stored in `A1` has the column `2 ^ 64 - 1`,
not the sum `1 + (-2)`.  All positions are parsed from valid texts. -/
theorem position_range_counterexample :
    (CPos.ofString "A1" = .ok (CPos.mk2 1 1) ∧ CPos.ofString "B1" = .ok (CPos.mk2 2 1) ∧
      CPos.ofString "C1" = .ok (CPos.mk2 3 1)) ∧
    applyOps exampleRefParser [{}] 0
        [.setCell (CPos.mk2 3 1) "=A1", .copyRect (CPos.mk2 2 1) (CPos.mk2 3 1) 1 1]
      = some [exampleBelow] ∧
    exampleBelow.m_nodes.find (CPos.mk2 2 1) = some (.ref true (CPos.mk2 0 1) 0) ∧
    ¬ exampleBelow.InRange ∧
    applyOps exampleRefParser [{}] 0
        [.setCell (CPos.mk2 3 1) "=A1", .copyRect (CPos.mk2 1 1) (CPos.mk2 3 1) 1 1]
      = some [{ m_nodes := [(CPos.mk2 1 1, .ref true (CPos.mk2 18446744073709551615 1) 0),
          (CPos.mk2 3 1, .ref true (CPos.mk2 1 1) 0)] }] := by
  refine ⟨by decide, by decide, by decide, ?_, by decide⟩
  intro hin
  have := (hin.2 (CPos.mk2 2 1, .ref true (CPos.mk2 0 1) 0) (by decide)).2
  revert this
  decide

/-- C29 (amended). Position range is preserved as long as no call leaves it: if every
position stored in sheet `i` has `col ≥ 1` (and `row ≥ 0`), and every call of a sequence of
`setCell` and `copyRect` calls is in range in the state in which it is made (`setCell` at a
position in range with reference texts parsed to positions in range; `copyRect` with
`dst.col ≥ 1`, `dst.col + w ≤ 2 ^ 64` and an offset `d` for which every relative reference
column `c` of a source cell has `1 ≤ c + d < 2 ^ 64` and every relative row `r` has
`0 ≤ r + d < 2 ^ 64`), then every position stored afterwards is in range.  Under that
condition on the offset a completed `copyRect` stores in the destination cell the source tree
with every relative reference coordinate replaced by exactly the sum `c + d`.  A valid text
`[$]COL[$]ROW` whose column and row values are below `2 ^ 64` is parsed to a position in
range. -/
theorem position_range {F : Type} [DoubleOps F] [DecidableEq F] (parser : Parser F) (i : Nat)
    (h h2 : Heap F) (ops : List SheetOp) (hb : (h.builder i).InRange)
    (hin : opsInRange parser i h ops = true) (hops : applyOps parser h i ops = some h2) :
    (h2.builder i).InRange ∧
    (∀ (b b1 : CMyExprBuilder F) (dst src : CPos) (w hgt : Int), w < 2 ^ 31 → hgt < 2 ^ 31 →
      CSpreadsheet.copyRect i b dst src w hgt = .ok b1 →
      ∀ xy ∈ rectCells w hgt, ∀ n, b.m_nodes.find (src.shift xy) = some n →
        n.shiftOk (copyOffset dst src) = true →
        b1.m_nodes.find (dst.shift xy) = some ((n.clone i).updateRef (copyOffset dst src)) ∧
        (n.clone i).refsMoved plainSum (copyOffset dst src)
          ((n.clone i).updateRef (copyOffset dst src)) = true) ∧
    (∀ (absCol : Bool) (col : List Char) (absRow : Bool) (row : List Char),
      col ≠ [] → (∀ c ∈ col, c.isAlpha = true) → row ≠ [] → (∀ c ∈ row, c.isDigit = true) →
      colValue col 0 < SIZE_MOD → digitsValue row 0 < SIZE_MOD →
      ∃ p, CPos.ofString (String.mk (positionText absCol col absRow row)) = .ok p ∧
        p.inRange = true) := by
  refine ⟨inRange_applyOps parser i ops h h2 hb hin hops, ?_, ?_⟩
  · intro b b1 dst src w hgt hw hh hrun xy hxy n hf hok
    exact ⟨(copyRect_spec i b b1 dst src w hgt hw hh hrun).2.1 xy hxy n hf,
      CNode.refsMoved_plain _ _ (by rw [CNode.shiftOk_clone]; exact hok)⟩
  · intro absCol col absRow row hcol halpha hrow hdig hcv hrv
    refine ⟨_, ofString_positionText absCol col absRow row hcol halpha hrow hdig hcv hrv, ?_⟩
    rw [CPos.inRange_iff]
    cases col with
    | nil => exact absurd rfl hcol
    | cons c cs => exact colValue_pos c cs 0

/-- C29 (witness). From the empty sheet, `setCell(C1, "=A1")` and then
`copyRect(D2, C1, 1, 1)` are in range; afterwards `D2` holds a reference to `B2` and every
stored position is in range. -/
theorem position_range_witness :
    ((Heap.builder ([{}] : Heap Int) 0).InRange ∧
      opsInRange exampleRefParser 0 [{}]
        [.setCell (CPos.mk2 3 1) "=A1", .copyRect (CPos.mk2 4 2) (CPos.mk2 3 1) 1 1] = true ∧
      applyOps exampleRefParser [{}] 0
        [.setCell (CPos.mk2 3 1) "=A1", .copyRect (CPos.mk2 4 2) (CPos.mk2 3 1) 1 1]
        = some [exampleShifted]) ∧
    (Heap.builder [exampleShifted] 0).InRange :=
  ⟨⟨⟨by decide, by decide⟩, by decide, by decide⟩,
    (position_range exampleRefParser 0 [{}] [exampleShifted]
      [.setCell (CPos.mk2 3 1) "=A1", .copyRect (CPos.mk2 4 2) (CPos.mk2 3 1) 1 1]
      ⟨by decide, by decide⟩ (by decide) (by decide)).1⟩

/-! ## The formula mark -/

theorem CNode.isExpr_clone {F : Type} (m : Nat) (n : CNode F) : (n.clone m).isExpr = n.isExpr := by
  cases n <;> rfl

theorem CNode.isExpr_updateRef {F : Type} (d : Int × Int) (n : CNode F) :
    (n.updateRef d).isExpr = n.isExpr := by
  cases n <;> rfl

theorem CNode.childrenPlain_clone {F : Type} (m : Nat) (n : CNode F) :
    (n.clone m).childrenPlain = n.childrenPlain := by
  induction n with
  | value e v s x => rfl
  | ref e p m1 => rfl
  | binary e op l r ihl ihr =>
    simp only [CNode.clone, CNode.childrenPlain, CNode.isExpr_clone, ihl, ihr]
  | neg e l ih => simp only [CNode.clone, CNode.childrenPlain, CNode.isExpr_clone, ih]

theorem CNode.childrenPlain_updateRef {F : Type} (d : Int × Int) (n : CNode F) :
    (n.updateRef d).childrenPlain = n.childrenPlain := by
  induction n with
  | value e v s x => rfl
  | ref e p m1 => rfl
  | binary e op l r ihl ihr =>
    simp only [CNode.updateRef, CNode.childrenPlain, CNode.isExpr_updateRef, ihl, ihr]
  | neg e l ih => simp only [CNode.updateRef, CNode.childrenPlain, CNode.isExpr_updateRef, ih]

theorem CNode.childrenPlain_setExpr {F : Type} (n : CNode F) :
    n.setExpr.childrenPlain = n.childrenPlain := by
  cases n <;> rfl

theorem CMyExprBuilder.formulaMarks_assign {F : Type} (b : CMyExprBuilder F) (k : CPos)
    (n : CNode F) (hb : b.FormulaMarks) (hn : n.childrenPlain = true) :
    CMyExprBuilder.FormulaMarks ⟨b.m_stack, b.m_nodes.assign k n⟩ := by
  refine ⟨hb.1, ?_⟩
  intro e he
  rcases Table.mem_assign _ _ _ e he with h1 | h1
  · exact hb.2 e h1
  · rw [h1.1]; exact hn

theorem CMyExprBuilder.formulaMarks_call {F : Type} (self : Nat) (b b1 : CMyExprBuilder F)
    (c : Call F) (hb : b.FormulaMarks) (hc : b.call self c = .ok b1) : b1.FormulaMarks := by
  obtain ⟨hst, hnodes⟩ := hb
  cases c with
  | op o =>
    simp only [CMyExprBuilder.call, CMyExprBuilder.opBinary] at hc
    split at hc
    · rename_i right left rest hs
      simp only [Except.ok.injEq] at hc
      rw [← hc]
      refine ⟨?_, hnodes⟩
      intro n hn
      rw [hs] at hst
      rcases List.mem_cons.1 hn with heq | hmem
      · rw [heq]
        have hl := hst left (by simp)
        have hr := hst right (by simp)
        refine ⟨rfl, ?_⟩
        simp only [CNode.childrenPlain, hl.1, hl.2, hr.1, hr.2, Bool.not_false, Bool.and_self]
      · exact hst n (by simp [hmem])
    · simp at hc
  | opNeg =>
    simp only [CMyExprBuilder.call, CMyExprBuilder.opNeg] at hc
    split at hc
    · rename_i left rest hs
      simp only [Except.ok.injEq] at hc
      rw [← hc]
      refine ⟨?_, hnodes⟩
      intro n hn
      rw [hs] at hst
      rcases List.mem_cons.1 hn with heq | hmem
      · rw [heq]
        have hl := hst left (by simp)
        refine ⟨rfl, ?_⟩
        simp only [CNode.childrenPlain, hl.1, hl.2, Bool.not_false, Bool.and_self]
      · exact hst n (by simp [hmem])
    · simp at hc
  | valNumber val =>
    simp only [CMyExprBuilder.call, CMyExprBuilder.valNumber, Except.ok.injEq] at hc
    rw [← hc]
    refine ⟨?_, hnodes⟩
    intro n hn
    rcases List.mem_cons.1 hn with heq | hmem
    · rw [heq]; exact ⟨rfl, rfl⟩
    · exact hst n hmem
  | valString val =>
    simp only [CMyExprBuilder.call, CMyExprBuilder.valString, Except.ok.injEq] at hc
    rw [← hc]
    refine ⟨?_, hnodes⟩
    intro n hn
    rcases List.mem_cons.1 hn with heq | hmem
    · rw [heq]; exact ⟨rfl, rfl⟩
    · exact hst n hmem
  | valReference val =>
    simp only [CMyExprBuilder.call, CMyExprBuilder.valReference] at hc
    split at hc
    · simp at hc
    · simp only [Except.ok.injEq] at hc
      rw [← hc]
      refine ⟨?_, hnodes⟩
      intro n hn
      rcases List.mem_cons.1 hn with heq | hmem
      · rw [heq]; exact ⟨rfl, rfl⟩
      · exact hst n hmem
  | valRange val =>
    simp only [CMyExprBuilder.call, Except.ok.injEq] at hc
    rw [← hc]; exact ⟨hst, hnodes⟩
  | funcCall fn cnt =>
    simp only [CMyExprBuilder.call, Except.ok.injEq] at hc
    rw [← hc]; exact ⟨hst, hnodes⟩

theorem CMyExprBuilder.formulaMarks_updateNodes {F : Type} (b b1 : CMyExprBuilder F)
    (pos : CPos) (hb : b.FormulaMarks) (hu : b.updateNodes pos = .ok b1) :
    b1.FormulaMarks := by
  by_cases hlen : b.m_stack.length = 1
  · obtain ⟨top, htop⟩ := List.length_eq_one.1 hlen
    rw [CMyExprBuilder.updateNodes_ok b pos top htop] at hu
    rw [← Except.ok.inj hu]
    have htopb : top.childrenPlain = true := (hb.1 top (by rw [htop]; simp)).2
    have h1 := CMyExprBuilder.formulaMarks_assign b pos top hb htopb
    have h2 := CMyExprBuilder.formulaMarks_assign _ pos top.setExpr h1
      (by rw [CNode.childrenPlain_setExpr]; exact htopb)
    exact ⟨by intro n hn; simp at hn, h2.2⟩
  · rw [CMyExprBuilder.updateNodes_error b pos hlen] at hu
    simp at hu

theorem formulaMarks_copyRectLoop {F : Type} (self : Nat) (dst src : CPos)
    (offset : Int × Int) (tmp : Table F) (cells : List (Nat × Nat))
    (htmp : ∀ k n1, tmp.find k = some n1 → n1.childrenPlain = true) :
    ∀ (b b1 : CMyExprBuilder F), b.FormulaMarks →
      copyRectLoop self dst src offset tmp cells b = .ok b1 → b1.FormulaMarks := by
  induction cells with
  | nil =>
    intro b b1 hb hrun
    simp only [copyRectLoop, Except.ok.injEq] at hrun
    rw [← hrun]; exact hb
  | cons xy rest ih =>
    intro b b1 hb hrun
    rw [copyRectLoop] at hrun
    split at hrun
    · cases htf : tmp.find (src.shift xy) with
      | none => rw [htf] at hrun; simp [CMyExprBuilder.addNode] at hrun
      | some n1 =>
        rw [htf] at hrun
        simp only [CMyExprBuilder.addNode, CMyExprBuilder.callUpdateRef, Table.update,
          Table.find_assign_self] at hrun
        refine ih _ b1 ?_ hrun
        have hn1 := htmp _ n1 htf
        have h1 := CMyExprBuilder.formulaMarks_assign b (dst.shift xy) (n1.clone self) hb
          (by rw [CNode.childrenPlain_clone]; exact hn1)
        exact CMyExprBuilder.formulaMarks_assign _ (dst.shift xy) _ h1
          (by rw [CNode.childrenPlain_updateRef, CNode.childrenPlain_clone]; exact hn1)
    · exact ih b b1 hb hrun

theorem formulaMarks_copyRect {F : Type} (self : Nat) (b b1 : CMyExprBuilder F)
    (dst src : CPos) (w hgt : Int) (hb : b.FormulaMarks)
    (hrun : CSpreadsheet.copyRect self b dst src w hgt = .ok b1) : b1.FormulaMarks := by
  refine formulaMarks_copyRectLoop self dst src _ _ (rectCells w hgt) ?_ b b1 hb hrun
  intro k n1 hn1
  have hsnap : SnapshotOf self b (CSpreadsheet.cloneSourceNodes self b src w hgt) :=
    cloneSourceLoop_snapshot self b src _ [] (snapshotOf_nil self b)
  obtain ⟨n, hfind, hn⟩ := hsnap k n1 hn1
  obtain ⟨k1, hmem⟩ := Table.find_some_mem _ _ n hfind
  rw [hn, CNode.childrenPlain_clone]
  exact hb.2 _ hmem

theorem formulaMarks_cloneInto {F : Type} (self : Nat) (st : List (CNode F)) (t : Table F)
    (ht : ∀ e ∈ t, e.2.childrenPlain = true) :
    ∀ acc : Table F, CMyExprBuilder.FormulaMarks ⟨st, acc⟩ →
      CMyExprBuilder.FormulaMarks ⟨st, cloneInto self t acc⟩ := by
  induction t with
  | nil => intro acc hb; exact hb
  | cons e rest ih =>
    obtain ⟨k, n⟩ := e
    intro acc hb
    rw [cloneInto]
    exact ih (fun e1 he1 => ht e1 (List.mem_cons_of_mem _ he1)) _
      (CMyExprBuilder.formulaMarks_assign ⟨st, acc⟩ k (n.clone self) hb
        (by rw [CNode.childrenPlain_clone]; exact ht (k, n) (List.mem_cons_self _ _)))

theorem sortedKeys_cloneInto {F : Type} (self : Nat) (t : Table F) :
    ∀ acc : Table F, acc.SortedKeys → (cloneInto self t acc).SortedKeys := by
  induction t with
  | nil => intro acc hs; exact hs
  | cons e rest ih =>
    obtain ⟨k, n⟩ := e
    intro acc hs
    rw [cloneInto]
    exact ih _ (Table.sortedKeys_assign _ _ _ hs)

theorem sortedKeys_copyRectLoop {F : Type} (self : Nat) (dst src : CPos) (offset : Int × Int)
    (tmp : Table F) (cells : List (Nat × Nat)) :
    ∀ (b b1 : CMyExprBuilder F), b.m_nodes.SortedKeys →
      copyRectLoop self dst src offset tmp cells b = .ok b1 → b1.m_nodes.SortedKeys := by
  induction cells with
  | nil =>
    intro b b1 hb hrun
    simp only [copyRectLoop, Except.ok.injEq] at hrun
    rw [← hrun]; exact hb
  | cons xy rest ih =>
    intro b b1 hb hrun
    rw [copyRectLoop] at hrun
    split at hrun
    · cases htf : tmp.find (src.shift xy) with
      | none => rw [htf] at hrun; simp [CMyExprBuilder.addNode] at hrun
      | some n1 =>
        rw [htf] at hrun
        simp only [CMyExprBuilder.addNode, CMyExprBuilder.callUpdateRef, Table.update,
          Table.find_assign_self] at hrun
        exact ih _ b1 (Table.sortedKeys_assign _ _ _ (Table.sortedKeys_assign _ _ _ hb)) hrun
    · exact ih b b1 hb hrun

theorem reachable_marks {F : Type} (self : Nat) (b : CMyExprBuilder F)
    (hr : Reachable self b) : b.FormulaMarks ∧ b.m_nodes.SortedKeys := by
  induction hr with
  | empty self =>
    exact ⟨⟨by intro n hn; simp at hn, by intro e he; simp at he⟩, by simp [Table.SortedKeys]⟩
  | call self b b1 c _ hc ih =>
    refine ⟨CMyExprBuilder.formulaMarks_call self b b1 c ih.1 hc, ?_⟩
    rw [CMyExprBuilder.call_nodes self b b1 c hc]; exact ih.2
  | commit self b b1 pos _ hu ih =>
    refine ⟨CMyExprBuilder.formulaMarks_updateNodes b b1 pos ih.1 hu, ?_⟩
    by_cases hlen : b.m_stack.length = 1
    · obtain ⟨top, htop⟩ := List.length_eq_one.1 hlen
      rw [CMyExprBuilder.updateNodes_ok b pos top htop] at hu
      rw [← Except.ok.inj hu]
      exact Table.sortedKeys_assign _ _ _ (Table.sortedKeys_assign _ _ _ ih.2)
    · rw [CMyExprBuilder.updateNodes_error b pos hlen] at hu
      simp at hu
  | literal self b pos val _ ih =>
    exact ⟨CMyExprBuilder.formulaMarks_assign b pos _ ih.1 rfl,
      Table.sortedKeys_assign _ _ _ ih.2⟩
  | copyRect self b b1 dst src w hgt _ hrun ih =>
    exact ⟨formulaMarks_copyRect self b b1 dst src w hgt ih.1 hrun,
      sortedKeys_copyRectLoop self dst src _ _ _ b b1 ih.2 hrun⟩
  | clone self other b _ ih =>
    exact ⟨formulaMarks_cloneInto self [] b.m_nodes ih.1.2 []
        ⟨by intro n hn; simp at hn, by intro e he; simp at he⟩,
      sortedKeys_cloneInto self b.m_nodes [] (by simp [Table.SortedKeys])⟩
  | assign self other this b _ _ ih1 ih2 =>
    exact ⟨formulaMarks_cloneInto self this.m_stack b.m_nodes ih2.1.2 []
        ⟨ih1.1.1, by intro e he; simp at he⟩,
      sortedKeys_cloneInto self b.m_nodes [] (by simp [Table.SortedKeys])⟩

/-- C30. The formula mark: in every builder reachable by builder calls, commits, literal
sets, `copyRect` and clones, no node on the operand stack is marked and no child node of a
tree on the stack or in the cell map is marked; a commit at `pos` installs a marked root at
`pos`; a literal set at `pos` installs an unmarked root at `pos`; `copyRect` gives every
destination cell whose source cell existed the mark of that source cell; and a clone gives
every cell the mark of the cell it is cloned from. -/
theorem formula_marks {F : Type} (self : Nat) (b : CMyExprBuilder F)
    (hr : Reachable self b) :
    b.FormulaMarks ∧
    (∀ pos b1, b.updateNodes pos = .ok b1 →
      ∃ n, b1.m_nodes.find pos = some n ∧ n.isExpr = true ∧ n.childrenPlain = true) ∧
    (∀ pos val, ∃ n, (b.addCValNode pos val).m_nodes.find pos = some n ∧ n.isExpr = false) ∧
    (∀ dst src w hgt b1, w < 2 ^ 31 → hgt < 2 ^ 31 →
      CSpreadsheet.copyRect self b dst src w hgt = .ok b1 →
      ∀ xy ∈ rectCells w hgt, ∀ n, b.m_nodes.find (src.shift xy) = some n →
        ∃ n1, b1.m_nodes.find (dst.shift xy) = some n1 ∧ n1.isExpr = n.isExpr ∧
          n1.childrenPlain = true) ∧
    (∀ (other : Nat) (target : CMyExprBuilder F) k n, b.m_nodes.find k = some n →
      (∃ n1, (CMyExprBuilder.copy other b).m_nodes.find k = some n1 ∧ n1.isExpr = n.isExpr) ∧
      (∃ n1, (target.assignFrom other b).m_nodes.find k = some n1 ∧ n1.isExpr = n.isExpr)) := by
  obtain ⟨hmarks, hsorted⟩ := reachable_marks self b hr
  refine ⟨hmarks, ?_, ?_, ?_, ?_⟩
  · intro pos b1 hu
    by_cases hlen : b.m_stack.length = 1
    · obtain ⟨top, htop⟩ := List.length_eq_one.1 hlen
      rw [CMyExprBuilder.updateNodes_ok b pos top htop] at hu
      rw [← Except.ok.inj hu]
      refine ⟨top.setExpr, Table.find_assign_self _ _ _, CNode.isExpr_setExpr top, ?_⟩
      rw [CNode.childrenPlain_setExpr]
      exact (hmarks.1 top (by rw [htop]; simp)).2
    · rw [CMyExprBuilder.updateNodes_error b pos hlen] at hu
      simp at hu
  · intro pos val
    exact ⟨_, Table.find_assign_self _ _ _, rfl⟩
  · intro dst src w hgt b1 hw hh hrun xy hxy n hf
    refine ⟨_, (copyRect_spec self b b1 dst src w hgt hw hh hrun).2.1 xy hxy n hf, ?_, ?_⟩
    · rw [CNode.isExpr_updateRef, CNode.isExpr_clone]
    · obtain ⟨k1, hmem⟩ := Table.find_some_mem _ _ n hf
      rw [CNode.childrenPlain_updateRef, CNode.childrenPlain_clone]
      exact hmarks.2 _ hmem
  · intro other target k n hf
    have hfind : (cloneInto other b.m_nodes []).find k = some (n.clone other) := by
      rw [cloneInto_find other b.m_nodes hsorted [] k, hf]
    exact ⟨⟨_, hfind, CNode.isExpr_clone other n⟩, ⟨_, hfind, CNode.isExpr_clone other n⟩⟩

/-- C30 (witness). The sheet `exampleSum` is reached from the empty builder by the calls
`valNumber(1)`, `valNumber(2)`, `opAdd()` and the commit at `A1`; its root at `A1` is marked
and the two operands are not. -/
theorem formula_marks_witness :
    Reachable 0 exampleSum ∧ exampleSum.FormulaMarks ∧
      exampleSum.m_nodes.find (CPos.mk2 1 1)
        = some (.binary true .add (.value false (.num 1) "" false)
            (.value false (.num 2) "" false)) :=
  have hreach : Reachable 0 exampleSum :=
    Reachable.commit 0 ⟨[.binary false .add (.value false (.num 1) "" false)
        (.value false (.num 2) "" false)], []⟩ exampleSum (CPos.mk2 1 1)
      (Reachable.call 0 ⟨[.value false (.num 2) "" false, .value false (.num 1) "" false], []⟩
        _ (.op .add)
        (Reachable.call 0 ⟨[.value false (.num 1) "" false], []⟩ _ (.valNumber 2)
          (Reachable.call 0 {} _ (.valNumber 1) (Reachable.empty 0) rfl) rfl) rfl)
      (by decide)
  ⟨hreach, (formula_marks 0 exampleSum hreach).1, by decide⟩

/-! ## Reaching a cycle, and the visited set -/

/-- A reference to a cell from which a cell on a cycle is reachable evaluates to `Empty`
under every visited set. -/
theorem evaluate_ref_to_cycle {F : Type} [DoubleOps F] (h : Heap F) (i : Nat) (q c : CPos)
    (hpath : Relation.ReflTransGen (RefEdge h i) q c) (hcyc : OnCycle h i c) :
    ∀ (V : Finset (Nat × Nat)) (fuel : Nat) (e : Bool) (q1 : CPos) (v : CValue F)
      (V1 : Finset (Nat × Nat)),
      q1.key = q.key → evaluate h fuel (.ref e q1 i) V = some (v, V1) → v = .empty := by
  induction hpath using Relation.ReflTransGen.head_induction_on with
  | refl =>
    intro V fuel e q1 v V1 hq he
    obtain ⟨c1, ⟨n, hfind, href⟩, hback⟩ := Relation.TransGen.head'_iff.1 hcyc
    cases fuel with
    | zero => simp [evaluate] at he
    | succ fuel =>
      rw [evaluate, Table.find_congr _ q1 c hq, hfind] at he
      simp only at he
      by_cases hin : q1.key ∈ V
      · rw [if_pos hin] at he
        simp only [Option.some.injEq, Prod.mk.injEq] at he; exact he.1.symm
      · rw [if_neg hin] at he
        cases hev : evaluate h fuel n (insert q1.key V) with
        | none => rw [hev] at he; simp at he
        | some r1 =>
          obtain ⟨result, visited1⟩ := r1
          rw [hev] at he
          simp only [Option.some.injEq, Prod.mk.injEq] at he
          rw [← he.1]
          refine evaluate_hasRef_empty h c1.key i (insert q1.key V) ?_ fuel n result visited1
            hev href
          intro fuel1 e1 p1 v1 V2 hk he1
          exact evaluate_ref_path_empty h i c1 c hback (insert q1.key V)
            (by rw [hq]; exact Finset.mem_insert_self _ _) fuel1 e1 p1 v1 V2 hk he1
  | @head a b hedge _ ih =>
    intro V fuel e q1 v V1 hq he
    obtain ⟨n, hfind, href⟩ := hedge
    cases fuel with
    | zero => simp [evaluate] at he
    | succ fuel =>
      rw [evaluate, Table.find_congr _ q1 a hq, hfind] at he
      simp only at he
      by_cases hin : q1.key ∈ V
      · rw [if_pos hin] at he
        simp only [Option.some.injEq, Prod.mk.injEq] at he; exact he.1.symm
      · rw [if_neg hin] at he
        cases hev : evaluate h fuel n (insert q1.key V) with
        | none => rw [hev] at he; simp at he
        | some r1 =>
          obtain ⟨result, visited1⟩ := r1
          rw [hev] at he
          simp only [Option.some.injEq, Prod.mk.injEq] at he
          rw [← he.1]
          refine evaluate_hasRef_empty h b.key i (insert q1.key V) ?_ fuel n result visited1
            hev href
          intro fuel1 e1 p1 v1 V2 hk he1
          exact ih (insert q1.key V) fuel1 e1 p1 v1 V2 hk he1

/-- C31. Reaching a cycle gives Empty: if a chain of one or more reference edges leads from
the cell `p` of sheet `i` to a cell `c` that lies on a cycle of references, then `getValue(p)`
returns `Empty`; and a reference node to a cell on a cycle (bound to that sheet) evaluates to
`Empty` under every visited set `V`: the evaluation returns for every recursion bound from
`1 + |keys \ V| * (maxHeight + 1)` on, and whenever it returns, the value is `Empty`. -/
theorem reaching_cycle_empty {F : Type} [DoubleOps F] (h : Heap F) (i : Nat) (p c : CPos)
    (hpath : Relation.TransGen (RefEdge h i) p c) (hcyc : OnCycle h i c) :
    CSpreadsheet.getValue h i p = some (.ok .empty) ∧
    (∀ (V : Finset (Nat × Nat)) (e : Bool) (q : CPos), q.key = c.key →
      (∀ fuel, 1 + (h.keys \ V).card * (h.maxHeight + 1) ≤ fuel →
        evaluate h fuel (.ref e q i) V = some (.empty, V)) ∧
      (∀ fuel v V1, evaluate h fuel (.ref e q i) V = some (v, V1) → v = .empty)) := by
  constructor
  · obtain ⟨q, ⟨n, hfind, href⟩, hrest⟩ := Relation.TransGen.head'_iff.1 hpath
    obtain ⟨v, hv⟩ := evaluate_terminates h h.fuelBound n {p.key}
      (Heap.fuelBound_enough h i p n hfind _)
    have hempty : v = .empty := by
      refine evaluate_hasRef_empty h q.key i {p.key} ?_ h.fuelBound n v _ hv href
      intro fuel1 e1 p1 v1 V2 hk he1
      exact evaluate_ref_to_cycle h i q c hrest hcyc {p.key} fuel1 e1 p1 v1 V2 hk he1
    rw [CSpreadsheet.getValue, getValueFuel_of_find h i _ p n hfind, hv, hempty]; rfl
  · intro V e q hq
    have hall : ∀ fuel v V1, evaluate h fuel (.ref e q i) V = some (v, V1) → v = .empty :=
      fun fuel v V1 he =>
        evaluate_ref_to_cycle h i c c Relation.ReflTransGen.refl hcyc V fuel e q v V1 hq he
    refine ⟨?_, hall⟩
    intro fuel hfuel
    obtain ⟨v, hv⟩ := evaluate_terminates h fuel (.ref e q i) V hfuel
    rw [hv, hall fuel v V hv]

/-- C31 (witness). In the sheet `x5` of the program's own test, `C1` lies on the cycle
`C1 -> D1 -> E1 -> C1` and `A1` reaches it through `B1`; `getValue(A1)` is `Empty`. -/
theorem reaching_cycle_empty_witness :
    (Relation.TransGen (RefEdge exampleChain 0) (CPos.mk2 1 1) (CPos.mk2 3 1) ∧
      OnCycle exampleChain 0 (CPos.mk2 3 1)) ∧
    CSpreadsheet.getValue exampleChain 0 (CPos.mk2 1 1) = some (.ok .empty) :=
  have hp : Relation.TransGen (RefEdge exampleChain 0) (CPos.mk2 1 1) (CPos.mk2 3 1) :=
    Relation.TransGen.tail
      (Relation.TransGen.single (⟨_, rfl, by decide⟩ :
        RefEdge exampleChain 0 (CPos.mk2 1 1) (CPos.mk2 2 1)))
      (⟨_, rfl, by decide⟩ : RefEdge exampleChain 0 (CPos.mk2 2 1) (CPos.mk2 3 1))
  have hc : OnCycle exampleChain 0 (CPos.mk2 3 1) :=
    Relation.TransGen.tail
      (Relation.TransGen.tail
        (Relation.TransGen.single (⟨_, rfl, by decide⟩ :
          RefEdge exampleChain 0 (CPos.mk2 3 1) (CPos.mk2 4 1)))
        (⟨_, rfl, by decide⟩ : RefEdge exampleChain 0 (CPos.mk2 4 1) (CPos.mk2 5 1)))
      (⟨_, rfl, by decide⟩ : RefEdge exampleChain 0 (CPos.mk2 5 1) (CPos.mk2 3 1))
  ⟨⟨hp, hc⟩, (reaching_cycle_empty exampleChain 0 (CPos.mk2 1 1) (CPos.mk2 3 1) hp hc).1⟩

/-- C34. Evaluation restores the visited set: when `evaluate` of a node returns under the
visited set `V`, the visited set is `V` again; it returns for every recursion bound from
`height n + |keys \ V| * (maxHeight + 1)` on; a reference node whose target exists and whose
position is not in `V` evaluates the target under `V` with that position inserted and erases
it afterwards; and the right operand of a binary node is evaluated under the same visited set
as the left one. -/
theorem visited_restored {F : Type} [DoubleOps F] (h : Heap F) (fuel : Nat) (n : CNode F)
    (V : Finset (Nat × Nat)) (v : CValue F) (V1 : Finset (Nat × Nat))
    (he : evaluate h fuel n V = some (v, V1)) :
    V1 = V ∧
    (∀ fuel1, n.height + (h.keys \ V).card * (h.maxHeight + 1) ≤ fuel1 →
      evaluate h fuel1 n V = some (v, V)) ∧
    (∀ (e : Bool) (pos : CPos) (m : Nat) (target : CNode F), n = .ref e pos m →
      (h.nodes m).find pos = some target → pos.key ∉ V →
      ∃ fuel0, fuel = fuel0 + 1 ∧
        evaluate h fuel0 target (insert pos.key V) = some (v, insert pos.key V) ∧
        (insert pos.key V).erase pos.key = V) ∧
    (∀ (e : Bool) (op : BinOp) (l r : CNode F), n = .binary e op l r →
      ∃ fuel0 a b, fuel = fuel0 + 1 ∧ evaluate h fuel0 l V = some (a, V) ∧
        evaluate h fuel0 r V = some (b, V) ∧ v = evalBinary op a b) := by
  have hV : V1 = V := evaluate_visited h fuel n V v V1 he
  subst hV
  refine ⟨rfl, ?_, ?_, ?_⟩
  · intro fuel1 hfuel
    obtain ⟨v1, hv1⟩ := evaluate_terminates h fuel1 n V1 hfuel
    have := evaluate_unique h fuel fuel1 n V1 _ _ he hv1
    rw [hv1, ← (Prod.mk.inj this).1]
  · intro e pos m target hn hf hin
    subst hn
    cases fuel with
    | zero => simp [evaluate] at he
    | succ fuel0 =>
      rw [evaluate, hf] at he
      simp only at he
      rw [if_neg hin] at he
      cases hev : evaluate h fuel0 target (insert pos.key V1) with
      | none => rw [hev] at he; simp at he
      | some r1 =>
        obtain ⟨result, visited1⟩ := r1
        rw [hev] at he
        simp only [Option.some.injEq, Prod.mk.injEq] at he
        have hvis := evaluate_visited h fuel0 target _ result visited1 hev
        subst hvis
        refine ⟨fuel0, rfl, ?_, Finset.erase_insert hin⟩
        rw [← he.1]; exact hev
  · intro e op l r hn
    subst hn
    cases fuel with
    | zero => simp [evaluate] at he
    | succ fuel0 =>
      rw [evaluate] at he
      cases hl : evaluate h fuel0 l V1 with
      | none => rw [hl] at he; simp at he
      | some rl =>
        obtain ⟨a, Va⟩ := rl
        rw [hl] at he
        simp only at he
        have hVa : Va = V1 := evaluate_visited h fuel0 l V1 a Va hl
        subst hVa
        cases hr : evaluate h fuel0 r Va with
        | none => rw [hr] at he; simp at he
        | some rr =>
          obtain ⟨b, Vb⟩ := rr
          rw [hr] at he
          simp only [Option.some.injEq, Prod.mk.injEq] at he
          have hVb : Vb = Va := evaluate_visited h fuel0 r Va b Vb hr
          subst hVb
          exact ⟨fuel0, a, b, rfl, hl, hr, he.1.symm⟩

/-- C34 (witness). In the diamond sheet, the tree `B1 + B2` evaluated under the visited set
`{B3}` gives the number `31` and the visited set `{B3}` again. -/
theorem visited_restored_witness :
    evaluate exampleDiamond 5
        (.binary true .add (.ref false (CPos.mk2 2 1) 0) (.ref false (CPos.mk2 2 2) 0))
        {(2, 3)} = some (.num 31, {(2, 3)}) ∧
    ({(2, 3)} : Finset (Nat × Nat)) = {(2, 3)} :=
  ⟨by decide,
    (visited_restored exampleDiamond 5
      (.binary true .add (.ref false (CPos.mk2 2 1) 0) (.ref false (CPos.mk2 2 2) 0))
      {(2, 3)} (.num 31) {(2, 3)} (by decide)).1⟩

/-! ## The frame of copyRect, and copying a rectangle onto itself -/

/-- C32 (counterexample). On the sheet with `A1 = 1` and `B1 = 2`, `copyRect` with the
destination column `2 ^ 64 - 1`, source `A1` and `w = 2`, `h = 1` completes and creates a cell
in column `0`, which is outside the destination rectangle. -/
theorem copyRect_frame_counterexample :
    CSpreadsheet.copyRect 0 exampleEdge (CPos.mk2 18446744073709551615 1) (CPos.mk2 1 1) 2 1
      = .ok { m_nodes := [(CPos.mk2 0 1, .value false (.num 2) "" false),
          (CPos.mk2 1 1, .value false (.num 1) "" false),
          (CPos.mk2 2 1, .value false (.num 2) "" false),
          (CPos.mk2 18446744073709551615 1, .value false (.num 1) "" false)] } ∧
    inDstRect (CPos.mk2 18446744073709551615 1) 2 1 (CPos.mk2 0 1) = false ∧
    exampleEdge.m_nodes.find (CPos.mk2 0 1) = none ∧
    ¬ FrameLaw 0 exampleEdge (CPos.mk2 18446744073709551615 1) (CPos.mk2 1 1) 2 1 := by
  have hrun : CSpreadsheet.copyRect 0 exampleEdge (CPos.mk2 18446744073709551615 1)
      (CPos.mk2 1 1) 2 1
      = .ok { m_nodes := [(CPos.mk2 0 1, .value false (.num 2) "" false),
          (CPos.mk2 1 1, .value false (.num 1) "" false),
          (CPos.mk2 2 1, .value false (.num 2) "" false),
          (CPos.mk2 18446744073709551615 1, .value false (.num 1) "" false)] } := by
    decide
  refine ⟨hrun, by decide, by decide, ?_⟩
  intro hlaw
  have := hlaw _ hrun (CPos.mk2 0 1) (by decide)
  revert this
  decide

/-- C32 (amended). The frame of `copyRect`: when `copyRect(dst, src, w, h)` completes, every
position that is none of the positions `dst + (x, y)`, `(x, y)` in `[0, w) x [0, h)`,
computed in `size_t` arithmetic, holds the same tree as before (or no cell, as before), and
the operand stack is as before; when `dst.col + w ≤ 2 ^ 64` and `dst.row + h ≤ 2 ^ 64`, these
are the positions outside the rectangle `[dst.col, dst.col + w) x [dst.row, dst.row + h)`. -/
theorem copyRect_frame {F : Type} (self : Nat) (b b1 : CMyExprBuilder F) (dst src : CPos)
    (w hgt : Int) (hw : w < 2 ^ 31) (hh : hgt < 2 ^ 31)
    (hrun : CSpreadsheet.copyRect self b dst src w hgt = .ok b1) :
    (∀ k : CPos, (∀ xy ∈ rectCells w hgt, (dst.shift xy).key ≠ k.key) →
      b1.m_nodes.find k = b.m_nodes.find k) ∧
    b1.m_stack = b.m_stack ∧
    ((dst.m_col : Int) + w ≤ (SIZE_MOD : Int) → (dst.m_row : Int) + hgt ≤ (SIZE_MOD : Int) →
      FrameLaw self b dst src w hgt) := by
  obtain ⟨hst, _, _, hframe⟩ := copyRect_spec self b b1 dst src w hgt hw hh hrun
  refine ⟨hframe, hst, ?_⟩
  intro hcol hrow b2 hrun2 k hk
  rw [hrun] at hrun2
  rw [← Except.ok.inj hrun2]
  apply hframe
  rintro ⟨x, y⟩ hxy heq
  rw [mem_rectCells] at hxy
  have hx : (x : Int) < w := by omega
  have hy : (y : Int) < hgt := by omega
  have hc : dst.m_col + x < SIZE_MOD := by
    have : (dst.m_col : Int) + x < (SIZE_MOD : Int) := by omega
    exact_mod_cast this
  have hr : dst.m_row + y < SIZE_MOD := by
    have : (dst.m_row : Int) + y < (SIZE_MOD : Int) := by omega
    exact_mod_cast this
  simp only [CPos.shift, CPos.mk2, CPos.getCol, CPos.getRow, CPos.key, Prod.mk.injEq,
    Nat.mod_eq_of_lt hc, Nat.mod_eq_of_lt hr] at heq
  simp only [inDstRect, Bool.and_eq_false_iff, decide_eq_false_iff_not] at hk
  omega

/-- C32 (witness). The program's own test `copyRect(G11, F10, 1, 4)`: the cell `F11`, outside
the destination rectangle, holds the same tree afterwards. -/
theorem copyRect_frame_witness :
    CSpreadsheet.copyRect 0 exampleCopy (CPos.mk2 7 11) (CPos.mk2 6 10) 1 4 = .ok exampleCopied ∧
      inDstRect (CPos.mk2 7 11) 1 4 (CPos.mk2 6 11) = false ∧
      exampleCopied.m_nodes.find (CPos.mk2 6 11) = exampleCopy.m_nodes.find (CPos.mk2 6 11) :=
  ⟨by decide, by decide,
    (copyRect_frame 0 exampleCopy exampleCopied (CPos.mk2 7 11) (CPos.mk2 6 10) 1 4
      (by decide) (by decide) (by decide)).2.2 (by decide) (by decide) exampleCopied
      (by decide) (CPos.mk2 6 11) (by decide)⟩

theorem copyOffset_self (p : CPos) : copyOffset p p = (0, 0) := by
  have h1 : ∀ c : Nat, (c + SIZE_MOD - c) % SIZE_MOD = 0 := by
    intro c
    rw [Nat.add_sub_cancel_left, Nat.mod_self]
  simp only [copyOffset, h1]
  rfl

theorem CPos.updatePos_zero (p : CPos) (hp : p.isSizeT = true) : p.updatePos (0, 0) = p := by
  obtain ⟨c, r, ar, ac⟩ := p
  simp only [CPos.isSizeT, Bool.and_eq_true, decide_eq_true_eq] at hp
  have hadd : ∀ n : Nat, n < SIZE_MOD → addOffset n 0 = n := by
    intro n hn
    rw [addOffset, Int.add_zero]
    have : ((n : Int) % (SIZE_MOD : Int)) = n :=
      Int.emod_eq_of_lt (by omega) (by exact_mod_cast hn)
    rw [this]; rfl
  cases ac <;> cases ar <;> simp [CPos.updatePos, hadd c hp.1, hadd r hp.2]

theorem CNode.updateRef_zero {F : Type} (n : CNode F) (hn : n.refsSizeT = true) :
    n.updateRef (0, 0) = n := by
  induction n with
  | value e v s x => rfl
  | ref e p m =>
    simp only [CNode.refsSizeT] at hn
    simp only [CNode.updateRef, CPos.updatePos_zero p hn]
  | binary e op l r ihl ihr =>
    simp only [CNode.refsSizeT, Bool.and_eq_true] at hn
    simp only [CNode.updateRef, ihl hn.1, ihr hn.2]
  | neg e l ih =>
    simp only [CNode.refsSizeT] at hn
    simp only [CNode.updateRef, ih hn]

theorem Table.assign_of_find {F : Type} (t : Table F) (hs : t.SortedKeys) (k : CPos)
    (n : CNode F) (hf : t.find k = some n) : t.assign k n = t := by
  induction t with
  | nil => simp [Table.find] at hf
  | cons e rest ih =>
    obtain ⟨k1, n1⟩ := e
    rw [Table.SortedKeys, List.pairwise_cons] at hs
    rw [Table.find_cons] at hf
    by_cases hk : k1.key = k.key
    · rw [if_pos hk] at hf
      have h1 : k.lt k1 = false := by
        cases hlt : k.lt k1 with
        | false => rfl
        | true => exact absurd hk.symm (CPos.lt_not_equiv k k1 hlt)
      have h2 : k1.lt k = false := by
        cases hlt : k1.lt k with
        | false => rfl
        | true => exact absurd hk (CPos.lt_not_equiv k1 k hlt)
      rw [Table.assign, h1, h2, Option.some.inj hf]
      simp
    · rw [if_neg hk] at hf
      obtain ⟨k2, hmem, hk2⟩ := Table.find_some_mem_key rest k n hf
      have hlt : k1.lt k = true := by
        rw [← CPos.lt_congr k1 k2 k hk2]
        exact hs.1 (k2, n) hmem
      have h1 : k.lt k1 = false := by
        cases hlt1 : k.lt k1 with
        | false => rfl
        | true =>
          have := CPos.lt_trans k k1 k hlt1 hlt
          exact absurd rfl (CPos.lt_not_equiv k k this)
      rw [Table.assign, h1, hlt]
      simp only [Bool.false_eq_true, if_false, if_true]
      rw [ih hs.2 hf]

theorem copyRectLoop_self {F : Type} (self : Nat) (b : CMyExprBuilder F) (p : CPos)
    (tmp : Table F) (hwf : b.WellFormed self) (hsz : ∀ e ∈ b.m_nodes, e.2.refsSizeT = true)
    (cells : List (Nat × Nat)) :
    (∀ xy ∈ cells, ∀ n, b.m_nodes.find (p.shift xy) = some n →
      tmp.find (p.shift xy) = some (n.clone self)) →
    copyRectLoop self p p (0, 0) tmp cells b = .ok b := by
  induction cells with
  | nil => intro _; rfl
  | cons xy rest ih =>
    intro htmp
    have ih1 := ih (fun xy1 h1 => htmp xy1 (List.mem_cons_of_mem _ h1))
    rw [copyRectLoop]
    cases hf : b.m_nodes.find (p.shift xy) with
    | none =>
      have hex : b.nodeExists (p.shift xy) = false := by
        simp [CMyExprBuilder.nodeExists, hf]
      rw [hex]
      simpa using ih1
    | some n =>
      have hex : b.nodeExists (p.shift xy) = true := by
        simp [CMyExprBuilder.nodeExists, hf]
      obtain ⟨k1, hmem⟩ := Table.find_some_mem _ _ n hf
      have hbound : n.boundTo self = true := hwf.2.1 _ hmem
      have hsize : n.refsSizeT = true := hsz _ hmem
      have hassign : b.m_nodes.assign (p.shift xy) n = b.m_nodes :=
        Table.assign_of_find _ hwf.2.2 _ n hf
      rw [hex, if_pos rfl, htmp xy (List.mem_cons_self _ _) n hf]
      simp only [CMyExprBuilder.addNode, CNode.clone_clone,
        CNode.clone_of_boundTo self n hbound, hassign, CMyExprBuilder.callUpdateRef,
        Table.update, hf, CNode.updateRef_zero n hsize]
      exact ih1

theorem copyRect_self {F : Type} (self : Nat) (b : CMyExprBuilder F) (p : CPos) (w hgt : Int)
    (hwf : b.WellFormed self) (hsz : ∀ e ∈ b.m_nodes, e.2.refsSizeT = true) :
    CSpreadsheet.copyRect self b p p w hgt = .ok b := by
  rw [CSpreadsheet.copyRect, copyOffset_self]
  refine copyRectLoop_self self b p _ hwf hsz (rectCells w hgt) ?_
  intro xy hxy n hf
  exact cloneSourceLoop_find self b p (rectCells w hgt) [] (snapshotOf_nil self b) xy n hxy hf

/-- C33. Copying a rectangle onto itself is the identity: on a sheet of the program (its
references are bound to its own map, the map is in key order, and all reference coordinates
are values of `size_t`), `copyRect(p, p, w, h)` completes and leaves the builder as it was,
so `save` writes the same text and `getValue` returns the same for every position; rewriting
a tree by the offset of this call, `(0, 0)`, gives the same tree. -/
theorem copyRect_self_identity {F : Type} [DoubleOps F] (self : Nat) (b : CMyExprBuilder F)
    (p : CPos) (w hgt : Int) (hwf : b.WellFormed self)
    (hsz : ∀ e ∈ b.m_nodes, e.2.refsSizeT = true) :
    CSpreadsheet.copyRect self b p p w hgt = .ok b ∧
    (∀ b1, CSpreadsheet.copyRect self b p p w hgt = .ok b1 →
      b1.m_nodes = b.m_nodes ∧ b1.m_stack = b.m_stack ∧
      CSpreadsheet.save b1 = CSpreadsheet.save b ∧
      ∀ (h : Heap F) (q : CPos),
        CSpreadsheet.getValue (h.set self b1) self q
          = CSpreadsheet.getValue (h.set self b) self q) ∧
    copyOffset p p = (0, 0) ∧
    (∀ e ∈ b.m_nodes, e.2.updateRef (copyOffset p p) = e.2) := by
  have hrun := copyRect_self self b p w hgt hwf hsz
  refine ⟨hrun, ?_, copyOffset_self p, ?_⟩
  · intro b1 hb1
    rw [hrun] at hb1
    rw [← Except.ok.inj hb1]
    exact ⟨rfl, rfl, rfl, fun _ _ => rfl⟩
  · intro e he
    rw [copyOffset_self]
    exact CNode.updateRef_zero e.2 (hsz e he)

/-- C33 (witness). On the sheet of the program's own copy test, `copyRect(F10, F10, 1, 4)`
completes and leaves the sheet as it was. -/
theorem copyRect_self_identity_witness :
    (exampleCopy.WellFormed 0 ∧ ∀ e ∈ exampleCopy.m_nodes, e.2.refsSizeT = true) ∧
      CSpreadsheet.copyRect 0 exampleCopy (CPos.mk2 6 10) (CPos.mk2 6 10) 1 4
        = .ok exampleCopy :=
  have hwf : exampleCopy.WellFormed 0 :=
    ⟨by decide, by decide, by unfold Table.SortedKeys; decide⟩
  ⟨⟨hwf, by decide⟩,
    (copyRect_self_identity 0 exampleCopy (CPos.mk2 6 10) 1 4 hwf (by decide)).1⟩

/-! ## Position identity -/

/-- The node a successful `setCell` stores at its position: for contents that do not begin
with `=`, the builder afterwards is `addCValNode(pos, v)` with the literal value `v`; for a
formula, the position holds the one node the parser left on the stack, marked as a formula,
and the stack is empty. -/
theorem setCell_stored {F : Type} [DoubleOps F] (parser : Parser F) (self : Nat)
    (b b1 : CMyExprBuilder F) (pos : CPos) (contents : String)
    (hset : CSpreadsheet.setCell parser self b pos contents = (.ok true, b1)) :
    (charAt contents.data 0 ≠ '=' →
      ∃ v, literalValue contents = some v ∧ b1 = b.addCValNode pos v ∧
        b1.m_nodes.find pos = some (.value false v "" false)) ∧
    (charAt contents.data 0 = '=' →
      ∃ top, (parseExpression parser self b contents).2.m_stack = [top] ∧
        b1.m_nodes.find pos = some top.setExpr ∧ b1.m_stack = []) := by
  constructor
  · intro hlit
    rw [CSpreadsheet.setCell, if_neg hlit] at hset
    cases hs : (DoubleOps.stod contents : StodResult F) with
    | ok num =>
      rw [hs] at hset
      simp only [Prod.mk.injEq, true_and] at hset
      refine ⟨.num num, by simp only [literalValue, hs], hset.symm, ?_⟩
      rw [← hset]
      exact Table.find_assign_self _ _ _
    | invalid_argument =>
      rw [hs] at hset
      simp only [Prod.mk.injEq, true_and] at hset
      refine ⟨.str contents, by simp only [literalValue, hs], hset.symm, ?_⟩
      rw [← hset]
      exact Table.find_assign_self _ _ _
    | out_of_range =>
      rw [hs] at hset
      simp at hset
  · intro hform
    rw [CSpreadsheet.setCell, if_pos hform] at hset
    revert hset
    cases parseExpression parser self b contents with
    | mk e b2 =>
      intro hset
      cases e with
      | some e => cases e <;> simp at hset
      | none =>
        simp only at hset
        by_cases hlen : b2.m_stack.length = 1
        · obtain ⟨top, htop⟩ := List.length_eq_one.1 hlen
          rw [CMyExprBuilder.updateNodes_ok b2 pos top htop] at hset
          simp only [Prod.mk.injEq, true_and] at hset
          refine ⟨top, htop, ?_, ?_⟩
          · rw [← hset]; exact Table.find_assign_self _ _ _
          · rw [← hset]
        · rw [CMyExprBuilder.updateNodes_error b2 pos hlen] at hset
          simp at hset

/-- C18. Position identity ignores the absolute flags: `operator==` holds exactly for equal
`(col, row)` and `operator<` is the lexicographic order on `(col, row)`; for two spellings
`p`, `q` of the same coordinates, `getValue` returns the same through either, and a
successful `setCell` at `p` replaces the cell addressed by `q`: whatever `q` held before,
afterwards `q` holds the node this call stores (for contents that do not begin with `=` the
literal node of the contents, for a formula the node the parser built, marked as a formula),
the same node as `p`, no key but these coordinates is added and every other cell is as
before; after a literal `setCell` at `p`, `getValue` through `q` returns the new literal
value. -/
theorem position_identity {F : Type} [DoubleOps F] (parser : Parser F) (h : Heap F) (i : Nat)
    (b : CMyExprBuilder F) (p q : CPos) :
    (p.eq q = true ↔ (p.m_col = q.m_col ∧ p.m_row = q.m_row)) ∧
    (p.lt q = true ↔ (p.m_col < q.m_col ∨ (p.m_col = q.m_col ∧ p.m_row < q.m_row))) ∧
    ((p.m_col = q.m_col ∧ p.m_row = q.m_row) →
      CSpreadsheet.getValue h i p = CSpreadsheet.getValue h i q ∧
      (∀ contents b1, CSpreadsheet.setCell parser i b p contents = (.ok true, b1) →
        (b1.m_nodes.find q).isSome = true ∧ b1.m_nodes.find q = b1.m_nodes.find p ∧
        b1.m_nodes.keys = insert q.key b.m_nodes.keys ∧
        (∀ k : CPos, q.key ≠ k.key → b1.m_nodes.find k = b.m_nodes.find k) ∧
        (charAt contents.data 0 ≠ '=' →
          ∃ v, literalValue contents = some v ∧
            b1.m_nodes.find q = some (.value false v "" false)) ∧
        (charAt contents.data 0 = '=' →
          ∃ top, (parseExpression parser i b contents).2.m_stack = [top] ∧
            b1.m_nodes.find q = some top.setExpr)) ∧
      (∀ contents v, charAt contents.data 0 ≠ '=' → literalValue contents = some v →
        (CSpreadsheet.setCell parser i b p contents).1 = .ok true ∧
        (CSpreadsheet.setCell parser i b p contents).2.m_nodes.find q
          = some (.value false v "" false) ∧
        (i < h.length →
          CSpreadsheet.getValue
              (h.set i (CSpreadsheet.setCell parser i (h.builder i) p contents).2) i q
            = some (.ok v)))) := by
  refine ⟨?_, ?_, ?_⟩
  · simp [CPos.eq]
  · simp [CPos.lt]
  · rintro ⟨hc, hr⟩
    have hkey : p.key = q.key := by simp [CPos.key, hc, hr]
    refine ⟨getValueFuel_key_congr h i _ p q hkey, ?_, ?_⟩
    · intro contents b1 hset
      obtain ⟨h1, h2, h3⟩ := setCell_ok_true parser i b b1 p contents hset
      obtain ⟨hlit, hform⟩ := setCell_stored parser i b b1 p contents hset
      have hfind := Table.find_congr b1.m_nodes p q hkey
      refine ⟨by rw [← hfind]; exact h1, hfind.symm, by rw [h3, hkey], ?_, ?_, ?_⟩
      · intro k hk
        exact h2 k (by rw [hkey]; exact hk)
      · intro hl
        obtain ⟨v, hv, _, hf⟩ := hlit hl
        exact ⟨v, hv, by rw [← hfind]; exact hf⟩
      · intro hf
        obtain ⟨top, htop, hfd, _⟩ := hform hf
        exact ⟨top, htop, by rw [← hfind]; exact hfd⟩
    · intro contents v hl hv
      have hset : ∀ b0 : CMyExprBuilder F,
          CSpreadsheet.setCell parser i b0 p contents = (.ok true, b0.addCValNode p v) :=
        fun b0 => setCell_literal parser i b0 p contents hl v hv
      refine ⟨by rw [hset], ?_, ?_⟩
      · rw [hset, ← Table.find_congr _ p q hkey]
        exact Table.find_assign_self _ _ _
      · intro hi
        rw [hset]
        have hq : (Heap.nodes (h.set i ((h.builder i).addCValNode p v)) i).find q
            = some (.value false v "" false) := by
          rw [Heap.nodes, Heap.builder_set, if_pos ⟨rfl, hi⟩, ← Table.find_congr _ p q hkey]
          exact Table.find_assign_self _ _ _
        exact getValue_of_evaluate _ i q _ hq 1 v {q.key} rfl

/-- C18 (witness). The program's own test: on the sheet with `A1 = 20`, `setCell(A$1, "10")`
replaces the cell `A1`; afterwards `A1` holds the number `10` and `getValue(A1)` is `10`. -/
theorem position_identity_witness :
    CPos.ofString "A$1" = .ok { m_col := 1, m_row := 1, m_absRow := true } ∧
    CSpreadsheet.setCell exampleParser 0
        ({ m_nodes := [(CPos.mk2 1 1, .value false (.num 20) "" false)] } : CMyExprBuilder Int)
        { m_col := 1, m_row := 1, m_absRow := true } "10"
      = (.ok true, { m_nodes := [(CPos.mk2 1 1, .value false (.num 10) "" false)] }) ∧
    CSpreadsheet.getValue
        (List.set [({ m_nodes := [(CPos.mk2 1 1, .value false (.num 20) "" false)] } :
            CMyExprBuilder Int)] 0
          (CSpreadsheet.setCell exampleParser 0
            (Heap.builder [({ m_nodes := [(CPos.mk2 1 1, .value false (.num 20) "" false)] } :
              CMyExprBuilder Int)] 0)
            { m_col := 1, m_row := 1, m_absRow := true } "10").2)
        0 (CPos.mk2 1 1)
      = some (.ok (.num 10)) :=
  ⟨by decide, by decide,
    ((position_identity exampleParser
      [({ m_nodes := [(CPos.mk2 1 1, .value false (.num 20) "" false)] } : CMyExprBuilder Int)]
      0 {} { m_col := 1, m_row := 1, m_absRow := true } (CPos.mk2 1 1)).2.2
      ⟨rfl, rfl⟩).2.2 "10" (.num 10) (by decide) (by decide) |>.2.2 (by decide)⟩

end FITExcel
